import Mathlib

/-!
The grammar parser, fold policy and dumper of pgen

A shallow embedding of `src/src/pgen.cpp`.

* A buffer is a list of characters.  The cursor pair `(s, e)` of the C++ code is
  represented by the characters in `[s, e)`: `e` never moves, so the remaining input
  determines `s` (it is `e` minus the length), and two cursors are equal exactly when
  the remaining inputs are equal.
* Every scanner takes the remaining input and returns its result together with the
  remaining input after the call, also when it reports no match, because the C++
  functions receive the cursor by reference.
* `throw 2` and `std::optional::value()` on an empty optional leave `parse` by an
  exception; they are the values `Abort.throw_2` and `Abort.bad_optional_access`.
* The loops of `parse`, `parse_rule` and `parse_group` thread the cursor through
  calls that return it, so they are written by recursion on a step budget; running
  out of budget is the separate value `Abort.out_of_fuel`.
-/

namespace pgen

/-- A `std::string` / `std::string_view`: a sequence of characters. -/
abbrev Str := List Char

/-! ## Lexical primitives (pgen.cpp 9-256) -/

/-- The classifier `is_whitespace` (pgen.cpp 9-16). -/
def is_whitespace (c : Char) : Bool :=
  c == ' ' || c == '\t' || c == '\r' || c == '\n'

/-- The classifier `is_identifier` (pgen.cpp 18-25). -/
def is_identifier (c : Char) : Bool :=
  (decide (c ≥ 'a') && decide (c ≤ 'z')) ||
  (decide (c ≥ 'A') && decide (c ≤ 'Z')) ||
  (decide (c ≥ '0') && decide (c ≤ '9')) ||
  c == '_'

/-- The digit value `hex2num` (pgen.cpp 27-37). -/
def hex2num (c : Char) : Nat :=
  if decide (c ≥ 'a') && decide (c ≤ 'f') then c.toNat - 'a'.toNat + 10
  else if decide (c ≥ 'A') && decide (c ≤ 'F') then c.toNat - 'A'.toNat + 10
  else if decide (c ≥ '0') && decide (c ≤ '9') then c.toNat - '0'.toNat
  else 0

/-- The test `is_eof` (pgen.cpp 39-42): `s >= e`, no character is left. -/
def is_eof (s : Str) : Bool := s.isEmpty

/-- The scanner `skip_whitespace` (pgen.cpp 44-48). -/
def skip_whitespace : Str → Str
  | [] => []
  | c :: s => if is_whitespace c then skip_whitespace s else c :: s

/-- The scanner `parse_newline` (pgen.cpp 50-77), on the local copy `sc`; the caller's
cursor is written on the last line only. -/
def parse_newline (s : Str) : Bool × Str :=
  match s with
  | [] => (false, s)
  | c :: sc =>
    if c == '\r' then
      match sc with
      | [] => (false, s)
      | c2 :: sc2 => if c2 != '\n' then (false, s) else (true, sc2)
    else if c != '\n' then (false, s)
    else (true, sc)

/-- The scanner `parse_two_newlines` (pgen.cpp 79-90). -/
def parse_two_newlines (s : Str) : Bool × Str :=
  match parse_newline s with
  | (true, sc) =>
    match parse_newline sc with
    | (true, sc2) => (true, sc2)
    | (false, _) => (false, s)
  | (false, _) => (false, s)

/-- The comparison loop of `parse_literal` (pgen.cpp 102-106): `s[i]` against `lit[i]`
for every index of `lit`.  The second case is not reached, the caller has checked that
at least `lit.size()` characters are left. -/
def parse_literal_loop : Str → Str → Bool
  | _, [] => true
  | [], _ :: _ => false
  | c :: s, l :: lit => if c != l then false else parse_literal_loop s lit

/-- The scanner `parse_literal` (pgen.cpp 92-111). -/
def parse_literal (s : Str) (lit : Str) : Bool × Str :=
  if is_eof s then (false, s)
  else if s.length < lit.length then (false, s)
  else if !parse_literal_loop s lit then (false, s)
  else (true, s.drop lit.length)

/-- The loop of `parse_identifier` (pgen.cpp 117-124): it moves the caller's cursor
itself and returns it with the collected text. -/
def parse_identifier_loop : Str → Str → Str × Str
  | [], result => (result, [])
  | c :: s, result =>
    if !is_identifier c then (result, c :: s)
    else parse_identifier_loop s (result ++ [c])

/-- The scanner `parse_identifier` (pgen.cpp 113-130). -/
def parse_identifier (s : Str) : Option Str × Str :=
  match parse_identifier_loop s [] with
  | (result, s1) => if result.isEmpty then (none, s1) else (some result, s1)

/-- The character appended for `\x` followed by `c0 c1` (pgen.cpp 161): the 32-bit value
`hex2num(c0) << 8 | hex2num(c1)` converted to `char`, which keeps the low eight bits. -/
def hex_escape (c0 c1 : Char) : Char :=
  Char.ofNat (((hex2num c0 <<< 8) ||| hex2num c1) % 256)

/-- The character appended for a one-letter escape (pgen.cpp 171-192); an unknown
letter gives a backslash. -/
def unescape_char (c : Char) : Char :=
  if c == 'a' then '\x07'
  else if c == 'b' then '\x08'
  else if c == 't' then '\t'
  else if c == 'n' then '\n'
  else if c == 'v' then '\x0b'
  else if c == 'f' then '\x0c'
  else if c == 'r' then '\r'
  else '\\'

/-- The loop of `parse_string` (pgen.cpp 143-216) on the local copy `sc`, with the flag
`escape` and the text collected so far.  It gives the text and the position after the
closing quote, or nothing when the input ends first (the two `return std::nullopt`). -/
def parse_string_loop : Str → Bool → Str → Option (Str × Str)
  | [], _, _ => none
  | c :: sc, true, result =>
    if c == 'x' then
      match sc with
      | c0 :: c1 :: sc2 => parse_string_loop sc2 false (result ++ [hex_escape c0 c1])
      | _ => none
    else if c == '"' || c == '\\' then parse_string_loop sc false (result ++ [c])
    else parse_string_loop sc false (result ++ [unescape_char c])
  | c :: sc, false, result =>
    if c == '"' then some (result, sc)
    else if c == '\\' then parse_string_loop sc true result
    else parse_string_loop sc false (result ++ [c])

/-- The scanner `parse_string` (pgen.cpp 132-217): the caller's cursor is written only
when the closing quote is found. -/
def parse_string (s : Str) : Option Str × Str :=
  match parse_literal s ['"'] with
  | (false, _) => (none, s)
  | (true, sc) =>
    match parse_string_loop sc false [] with
    | some (result, sc2) => (some result, sc2)
    | none => (none, s)

/-- The text `escape_string` appends for one character (pgen.cpp 225-252). -/
def escape_char (c : Char) : Str :=
  if c == '"' then ['\\', '"']
  else if c == '\\' then ['\\', '\\']
  else if c == '\x07' then ['\\', 'a']
  else if c == '\x08' then ['\\', 'b']
  else if c == '\t' then ['\\', 't']
  else if c == '\n' then ['\\', 'n']
  else if c == '\x0b' then ['\\', 'v']
  else if c == '\x0c' then ['\\', 'f']
  else if c == '\r' then ['\\', 'r']
  else [c]

/-- The function `escape_string` (pgen.cpp 219-256): the per-character texts in order. -/
def escape_string : Str → Str
  | [] => []
  | c :: str => escape_char c ++ escape_string str

/-! ## Grammar AST (pgen.hpp 18-51) -/

/-- Modelled from the spec: the tag `Negate`, which pgen.cpp gives to `^` (line 374) and
tests in the fold policy, and which the `enum class RuleItemType` of pgen.hpp (18-27)
does not declare. The other seven tags are those of the header, in its order. -/
inductive RuleItemType where
  | Literal | Identifier | Group | Or | ZeroOrMore | OneOrMore | ZeroOrOne | Negate
  deriving DecidableEq, Repr

mutual
/-- The struct `RuleItemGroup`: a generated name and the items of the group. -/
inductive RuleItemGroup where
  | mk (name : Str) (seq : List RuleItem)
/-- Modelled from the spec: the flag `negate`, which pgen.cpp writes (lines 311, 435) and
reads (line 631) and which the struct `RuleItem` of pgen.hpp (35-45) does not declare; it
is false in a default-constructed item, like the two flags the header declares. The
other fields are those of the header: the tag, the three payloads (each item carries all
of them, the unused ones empty) and the flags `optional` and `multiple`. -/
inductive RuleItem where
  | mk (type : RuleItemType) (literal : Str) (identifier : Str) (group : RuleItemGroup)
      (optional : Bool) (multiple : Bool) (negate : Bool)
end

/-- Field `name` of a group. -/
def RuleItemGroup.name : RuleItemGroup → Str
  | .mk name _ => name

/-- Field `seq` of a group. -/
def RuleItemGroup.seq : RuleItemGroup → List RuleItem
  | .mk _ seq => seq

/-- Field `type` of an item. -/
def RuleItem.type : RuleItem → RuleItemType
  | .mk t _ _ _ _ _ _ => t

/-- Field `literal` of an item. -/
def RuleItem.literal : RuleItem → Str
  | .mk _ l _ _ _ _ _ => l

/-- Field `identifier` of an item. -/
def RuleItem.identifier : RuleItem → Str
  | .mk _ _ i _ _ _ _ => i

/-- Field `group` of an item. -/
def RuleItem.group : RuleItem → RuleItemGroup
  | .mk _ _ _ g _ _ _ => g

/-- Field `optional` of an item. -/
def RuleItem.optional : RuleItem → Bool
  | .mk _ _ _ _ o _ _ => o

/-- Field `multiple` of an item. -/
def RuleItem.multiple : RuleItem → Bool
  | .mk _ _ _ _ _ m _ => m

/-- Field `negate` of an item. -/
def RuleItem.negate : RuleItem → Bool
  | .mk _ _ _ _ _ _ n => n

/-- Assignment `item.optional = true`. -/
def RuleItem.set_optional : RuleItem → RuleItem
  | .mk t l i g _ m n => .mk t l i g true m n

/-- Assignment `item.multiple = true`. -/
def RuleItem.set_multiple : RuleItem → RuleItem
  | .mk t l i g o _ n => .mk t l i g o true n

/-- Assignment `item.negate = true`. -/
def RuleItem.set_negate : RuleItem → RuleItem
  | .mk t l i g o m _ => .mk t l i g o m true

/-- A default-constructed `RuleItem result;` with `result.type` set to a marker tag. -/
def RuleItem.marker (t : RuleItemType) : RuleItem :=
  .mk t [] [] (.mk [] []) false false false

/-- A default-constructed item with `type = Literal` and `literal = v`. -/
def RuleItem.of_literal (v : Str) : RuleItem :=
  .mk .Literal v [] (.mk [] []) false false false

/-- A default-constructed item with `type = Identifier` and `identifier = v`. -/
def RuleItem.of_identifier (v : Str) : RuleItem :=
  .mk .Identifier [] v (.mk [] []) false false false

/-- A default-constructed item with `type = Group` and `group = v`. -/
def RuleItem.of_group (v : RuleItemGroup) : RuleItem :=
  .mk .Group [] [] v false false false

/-- The struct `Rule`. -/
structure Rule where
  name : Str
  seq : List RuleItem

/-- How a call leaves `parse` other than by returning: `throw 2`, the exception of
`std::optional::value()` on an empty optional, or the step budget of the embedding
used up (which `parse` never does, see `parse_ne_out_of_fuel`). -/
inductive Abort where
  | throw_2 | bad_optional_access | out_of_fuel
  deriving DecidableEq, Repr

/-! ## Grammar parser (pgen.cpp 258-485) -/

/-- The decimal text of `std::to_string(size_t)`. The counter never exceeds the number
of characters of the input, so it does not wrap. -/
def to_string (n : Nat) : Str := Nat.toDigits 10 n

/-- The update `seq.back() = f(seq.back())` under the guard `if (!seq.empty())`. -/
def update_back (seq : List RuleItem) (f : RuleItem → RuleItem) : List RuleItem :=
  match seq.getLast? with
  | none => seq
  | some b => seq.dropLast ++ [f b]

/-- The fold policy, the `if` chain on `r.type` that `parse_group` (pgen.cpp 279-317)
and `parse_rule` (pgen.cpp 403-441) both contain, applied to the sequence built so
far. -/
def fold_item (seq : List RuleItem) (r : RuleItem) : Except Abort (List RuleItem) :=
  if r.type = .ZeroOrMore then
    .ok (update_back seq fun b => b.set_optional.set_multiple)
  else if r.type = .OneOrMore then
    .ok (update_back seq fun b => b.set_multiple)
  else if r.type = .ZeroOrOne then
    .ok (update_back seq fun b => b.set_optional)
  else if r.type = .Negate then
    match seq.getLast? with
    | none => .ok seq
    | some b =>
      if b.type ≠ .Literal then .error .throw_2
      else .ok (seq.dropLast ++ [b.set_negate])
  else
    .ok (seq ++ [r])

mutual
/-- The function `parse_group` (pgen.cpp 260-325). It returns the optional group, the
cursor and the counter `parent_group_id`, both of which it holds by reference. -/
def parse_group (fuel : Nat) (s : Str) ( parent_group_prefix : Str) (parent_group_id : Nat) :
    Except Abort (Option RuleItemGroup × Str × Nat) :=
  match fuel with
  | 0 => .error .out_of_fuel
  | fuel + 1 =>
    match parse_literal s ['('] with
    | (false, s) => .ok (none, s, parent_group_id)
    | (true, s) =>
      match parse_group_loop fuel (skip_whitespace s)
          ( parent_group_prefix ++ ['_', '$', 'g'] ++ to_string parent_group_id) 0 [] with
      | .error a => .error a
      | .ok (seq, s) =>
        .ok (some (.mk ( parent_group_prefix ++ ['_', '$', 'g'] ++ to_string parent_group_id) seq),
          s, parent_group_id + 1)
/-- The `while` loop of `parse_group` (pgen.cpp 272-320) with the group's name, its
counter `group_id` and `result.seq`. -/
def parse_group_loop (fuel : Nat) (s : Str) (name : Str) (group_id : Nat)
    (seq : List RuleItem) : Except Abort (List RuleItem × Str) :=
  match fuel with
  | 0 => .error .out_of_fuel
  | fuel + 1 =>
    if is_eof s then .ok (seq, s)
    else
      match parse_literal s [')'] with
      | (true, s) => .ok (seq, s)
      | (false, s) =>
        match parse_ruleitem fuel s name group_id with
        | .error a => .error a
        | .ok (none, _, _) => .error .bad_optional_access
        | .ok (some r, s, group_id) =>
          match fold_item seq r with
          | .error a => .error a
          | .ok seq => parse_group_loop fuel (skip_whitespace s) name group_id seq
/-- The function `parse_ruleitem` (pgen.cpp 327-382). -/
def parse_ruleitem (fuel : Nat) (s : Str) ( parent_group_prefix : Str) (parent_group_id : Nat) :
    Except Abort (Option RuleItem × Str × Nat) :=
  match fuel with
  | 0 => .error .out_of_fuel
  | fuel + 1 =>
    if is_eof s then .ok (none, s, parent_group_id)
    else
      match parse_string s with
      | (some v, s) => .ok (some (.of_literal v), s, parent_group_id)
      | (none, s) =>
        match parse_identifier s with
        | (some v, s) => .ok (some (.of_identifier v), s, parent_group_id)
        | (none, s) =>
          match parse_group fuel s parent_group_prefix parent_group_id with
          | .error a => .error a
          | .ok (some v, s, parent_group_id) => .ok (some (.of_group v), s, parent_group_id)
          | .ok (none, s, parent_group_id) =>
            match parse_literal s ['|'] with
            | (true, s) => .ok (some (.marker .Or), s, parent_group_id)
            | (false, s) =>
              match parse_literal s ['*'] with
              | (true, s) => .ok (some (.marker .ZeroOrMore), s, parent_group_id)
              | (false, s) =>
                match parse_literal s ['+'] with
                | (true, s) => .ok (some (.marker .OneOrMore), s, parent_group_id)
                | (false, s) =>
                  match parse_literal s ['?'] with
                  | (true, s) => .ok (some (.marker .ZeroOrOne), s, parent_group_id)
                  | (false, s) =>
                    match parse_literal s ['^'] with
                    | (true, s) => .ok (some (.marker .Negate), s, parent_group_id)
                    | (false, s) => .ok (none, s, parent_group_id)
end

/-- The `while` loop of `parse_rule` (pgen.cpp 399-447). -/
def parse_rule_loop (fuel : Nat) (s : Str) (name : Str) (group_id : Nat)
    (seq : List RuleItem) : Except Abort (List RuleItem × Str) :=
  match fuel with
  | 0 => .error .out_of_fuel
  | fuel + 1 =>
    if is_eof s then .ok (seq, s)
    else
      match parse_ruleitem fuel s name group_id with
      | .error a => .error a
      | .ok (none, _, _) => .error .bad_optional_access
      | .ok (some r, s, group_id) =>
        match fold_item seq r with
        | .error a => .error a
        | .ok seq =>
          match parse_two_newlines s with
          | (true, s) => .ok (seq, s)
          | (false, s) => parse_rule_loop fuel (skip_whitespace s) name group_id seq

/-- The function `parse_rule` (pgen.cpp 384-453). -/
def parse_rule (fuel : Nat) (s : Str) : Except Abort (Option Rule × Str) :=
  match parse_identifier s with
  | (none, _) => .error .bad_optional_access
  | (some name, s) =>
    match parse_literal (skip_whitespace s) [':'] with
    | (false, _) => .error .throw_2
    | (true, s) =>
      match parse_rule_loop fuel (skip_whitespace s) name 0 [] with
      | .error a => .error a
      | .ok (seq, s) =>
        if seq.isEmpty then .error .throw_2
        else .ok (some ⟨name, seq⟩, s)

/-- The comment loop of `parse` (pgen.cpp 468-474): up to and including the next
newline. A failed `parse_newline` leaves the cursor where it was, so `++s` drops the
first character. -/
def parse_comment_loop : Str → Str
  | [] => []
  | c :: s =>
    match parse_newline (c :: s) with
    | (true, s1) => s1
    | (false, _) => parse_comment_loop s

/-- The `while` loop of `parse` (pgen.cpp 464-482). -/
def parse_loop (fuel : Nat) (s : Str) (result : List Rule) : Except Abort (List Rule) :=
  match fuel with
  | 0 => .error .out_of_fuel
  | fuel + 1 =>
    if is_eof s then .ok result
    else
      match parse_literal s ['#'] with
      | (true, s) => parse_loop fuel (skip_whitespace (parse_comment_loop s)) result
      | (false, s) =>
        match parse_rule fuel s with
        | .error a => .error a
        | .ok (none, _) => .error .bad_optional_access
        | .ok (some rule, s) => parse_loop fuel (skip_whitespace s) (result ++ [rule])

/-- The function `parse` (pgen.cpp 455-485) on the buffer `str` of `size` characters.
Three steps for each character and three more are enough for every input. -/
def parse (str : Str) : Except Abort (List Rule) :=
  parse_loop (3 * str.length + 3) (skip_whitespace str) []

/-! ## AST dumper (pgen.cpp 492-577) -/

/-- The quantifier suffix `dump(seq)` appends after an item (pgen.cpp 502-513). -/
def dump_suffix (v : RuleItem) : Str :=
  if v.multiple then
    if v.optional then ['*'] else ['+']
  else if v.optional then ['?']
  else []

/-- The last two statements of `dump(seq)` (pgen.cpp 518-519): one trailing space is cut.
On the empty text `back()` reads a character that is not there, which is undefined
behaviour: no result. -/
def strip_back (result : Str) : Option Str :=
  match result.getLast? with
  | none => none
  | some c => if c = ' ' then some result.dropLast else some result

mutual
/-- The loop of `dump(const std::vector<RuleItem> &)` (pgen.cpp 498-516). -/
def dump_seq_loop : List RuleItem → Option Str
  | [] => some []
  | v :: seq =>
    match dump_item v with
    | none => none
    | some item =>
      match dump_seq_loop seq with
      | none => none
      | some result => some (item ++ dump_suffix v ++ [' '] ++ result)
/-- The function `dump(const RuleItem &)` (pgen.cpp 537-552), with `dump(const
RuleItemGroup &)` (pgen.cpp 524-535), which calls `dump` on the sequence of the group, in
the `Group` case. -/
def dump_item : RuleItem → Option Str
  | .mk t literal identifier (.mk _ seq) _ _ _ =>
    match t with
    | .Literal => some (['"'] ++ escape_string literal ++ ['"'])
    | .Identifier => some identifier
    | .Group =>
      match dump_seq_loop seq with
      | none => none
      | some result =>
        match strip_back result with
        | none => none
        | some inner => some (['('] ++ inner ++ [')'])
    | .Or => some ['|']
    | _ => some "<error>".toList
end

/-- The function `dump(const std::vector<RuleItem> &)` (pgen.cpp 494-522). -/
def dump_seq (seq : List RuleItem) : Option Str :=
  match dump_seq_loop seq with
  | none => none
  | some result => strip_back result

/-- The function `dump(const Rule &)` (pgen.cpp 554-564). -/
def dump_rule (rule : Rule) : Option Str :=
  match dump_seq rule.seq with
  | none => none
  | some seq => some (rule.name ++ [':', ' '] ++ seq)

/-- The function `dump(const std::vector<Rule> &)` (pgen.cpp 566-577). -/
def dump : List Rule → Option Str
  | [] => some []
  | v :: rules =>
    match dump_rule v with
    | none => none
    | some rule =>
      match dump rules with
      | none => none
      | some result => some (rule ++ ['\n', '\n'] ++ result)

/-! ## Group collection (pgen.cpp 580-590) -/

mutual
/-- The function `collect_groups` (pgen.cpp 580-590): the groups of `seq` in pre-order,
appended to the list the caller holds. -/
def collect_groups : List RuleItem → List RuleItemGroup
  | [] => []
  | v :: seq => collect_groups_item v ++ collect_groups seq
/-- The body of the loop of `collect_groups` for one item. -/
def collect_groups_item : RuleItem → List RuleItemGroup
  | .mk t _ _ (.mk name seq) _ _ _ =>
    if t = .Group then .mk name seq :: collect_groups seq else []
end

/-! ## Notions used to state the properties of the AST -/

/-- The groups stored directly in a sequence, in textual order. -/
def direct_groups : List RuleItem → List RuleItemGroup
  | [] => []
  | v :: seq => if v.type = .Group then v.group :: direct_groups seq else direct_groups seq

/-- The list `groups` of `generate_code` (pgen.cpp 696-699): `collect_groups` called on the
sequence of every rule, in rule order. -/
def collect_all_groups : List Rule → List RuleItemGroup
  | [] => []
  | rule :: rules => collect_groups rule.seq ++ collect_all_groups rules

/-- The group reached from a sequence by a chain of ordinal positions: the `k`-th group
stored directly in it, then the next position inside that group, and so on. -/
def group_at : List RuleItem → List Nat → Option RuleItemGroup
  | _, [] => none
  | seq, k :: ks =>
    match (direct_groups seq)[k]? with
    | none => none
    | some g => if ks.isEmpty then some g else group_at g.seq ks

/-- The text a chain of ordinal positions adds to a rule name: `_$g` and the decimal
position, for every position of the chain. -/
def path_suffix : List Nat → Str
  | [] => []
  | k :: ks => ['_', '$', 'g'] ++ to_string k ++ path_suffix ks

mutual
/-- The shape of the sequences `parse` builds, for a parent named `P` whose counter
stands at `k` in front of the sequence: every item is in the shape below, and the
counter goes up by one behind every group. -/
def canon_seq (P : Str) : Nat → List RuleItem → Prop
  | _, [] => True
  | k, v :: seq => canon_item P k v ∧ canon_seq P (if v.type = .Group then k + 1 else k) seq
/-- The shape of the items `parse` stores: a Literal, Identifier, Group or Or with the
other payloads empty; an identifier is a non-empty run of identifier characters; a group
is named `P_$g<k>` and its own sequence has the shape for that name and counter 0; only a
Literal can carry `negate`. -/
def canon_item (P : Str) (k : Nat) : RuleItem → Prop
  | .mk t literal identifier (.mk name gseq) _ _ negate =>
    match t with
    | .Literal => identifier = [] ∧ name = [] ∧ gseq = []
    | .Identifier =>
      literal = [] ∧ name = [] ∧ gseq = [] ∧ negate = false ∧
        identifier ≠ [] ∧ ∀ c ∈ identifier, is_identifier c = true
    | .Group =>
      literal = [] ∧ identifier = [] ∧ negate = false ∧
        name = P ++ ['_', '$', 'g'] ++ to_string k ∧ canon_seq name 0 gseq
    | .Or => literal = [] ∧ identifier = [] ∧ name = [] ∧ gseq = [] ∧ negate = false
    | _ => False
end

/-- The shape of the rules `parse` returns: the name is a non-empty run of identifier
characters, the sequence is not empty and has the shape of `canon_seq`. -/
def canon_rule (rule : Rule) : Prop :=
  rule.name ≠ [] ∧ (∀ c ∈ rule.name, is_identifier c = true) ∧ rule.seq ≠ [] ∧
    canon_seq rule.name 0 rule.seq

mutual
/-- A sequence that uses only literals, identifiers, groups and quantifiers: no `Or` item
and no `negate` flag, at any depth. -/
def uses_plain_seq : List RuleItem → Bool
  | [] => true
  | v :: seq => uses_plain_item v && uses_plain_seq seq
/-- An item that is a literal, an identifier or a group of such items, not negated. -/
def uses_plain_item : RuleItem → Bool
  | .mk t _ _ (.mk _ gseq) _ _ negate =>
    (t == .Literal || t == .Identifier || t == .Group) && !negate && uses_plain_seq gseq
end

/-- A rule list that uses only literals, identifiers, groups and quantifiers. -/
def uses_plain (rules : List Rule) : Bool := rules.all fun rule => uses_plain_seq rule.seq

/-- The text behind a decimal counter in a group name: nothing, or the `_` of a further
`_$g`. -/
def name_tail (t : Str) : Prop := t = [] ∨ ∃ u, t = '_' :: u

/-- A text without its last character when that is a space; the empty text as it is. -/
def cut_blank (result : Str) : Str :=
  if result.getLast? = some ' ' then result.dropLast else result

mutual
/-- The text of the items of a sequence, each with its quantifier suffix and one space
behind it: what the loop of `dump` gives when it has a result. -/
def text_seq_loop : List RuleItem → Str
  | [] => []
  | v :: seq => text_item v ++ dump_suffix v ++ [' '] ++ text_seq_loop seq
/-- The text of an item: what `dump` gives for it when it has a result. A group with an
empty sequence, for which `dump` has none, has the text `()`. -/
def text_item : RuleItem → Str
  | .mk t literal identifier (.mk _ seq) _ _ _ =>
    match t with
    | .Literal => ['"'] ++ escape_string literal ++ ['"']
    | .Identifier => identifier
    | .Group => ['('] ++ cut_blank (text_seq_loop seq) ++ [')']
    | .Or => ['|']
    | _ => "<error>".toList
end

/-- The text of a sequence: its items with their suffixes, one space between them. -/
def text_seq (seq : List RuleItem) : Str := cut_blank (text_seq_loop seq)

/-- The text of a rule: its name, `: ` and the text of its sequence. -/
def text_rule (rule : Rule) : Str := rule.name ++ [':', ' '] ++ text_seq rule.seq

/-- The text of a rule list: every rule with a blank line behind it. -/
def text_rules : List Rule → Str
  | [] => []
  | v :: rules => text_rule v ++ ['\n', '\n'] ++ text_rules rules

/-- The text of a sequence as the loops of the parser meet it behind an item: every item
with its quantifier suffix, each with one space in front. -/
def text_tail : List RuleItem → Str
  | [] => []
  | v :: seq => [' '] ++ text_item v ++ dump_suffix v ++ text_tail seq

/-- An item as `parse_ruleitem` returns it, before any marker is folded into it: the
flags `optional` and `multiple` are false. -/
def RuleItem.unquantified : RuleItem → RuleItem
  | .mk t l i g _ _ n => .mk t l i g false false n

/-! ## The code generator: the text `generate_rule` and `generate_code` emit
(pgen.cpp 592-751 and 1060-1095) -/

/-- The text `std::string(level, '\t')`. -/
def tabs (level : Nat) : Str := List.replicate level '\t'

/-- The call `generate_rule` writes into the condition of the `if` and of the `while` of an
item (pgen.cpp 629-640 and 649-660). -/
def condition (it : RuleItem) : Str :=
  if it.type = .Literal then
    if it.negate then
      "$parse_negate_literal(sc, e, \"".toList ++ escape_string it.literal ++ "\")".toList
    else "$parse_literal(sc, e, \"".toList ++ escape_string it.literal ++ "\")".toList
  else if it.type = .Group then "$parse_".toList ++ it.group.name ++ "(sc, e)".toList
  else "$parse_".toList ++ it.identifier ++ "(sc, e)".toList

/-- The text `generate_rule` appends for one item at a nesting level (pgen.cpp 627-669),
every `result +=` as one piece. -/
def item_pieces (level : Nat) (it : RuleItem) : List Str :=
  ["\n".toList,
    tabs level ++ "\t\tif (auto v = ".toList ++ condition it ++ ")\n".toList,
    tabs level ++ "\t\t\x7b\n".toList,
    tabs level ++ "\t\t\tresult.group.push_back(std::move(v).value());\n".toList] ++
  (if it.multiple then
    ["\n".toList,
      tabs level ++ "\t\t\twhile (auto v = ".toList ++ condition it ++ ")\n".toList,
      tabs level ++ "\t\t\t\x7b\n".toList,
      tabs level ++ "\t\t\t\tresult.group.push_back(std::move(v).value());\n".toList,
      tabs level ++ "\t\t\t\x7d\n".toList,
      "\n".toList]
  else []) ++
  (if it.optional then [tabs level ++ "\t\t\x7d\n".toList] else [])

/-- The closing braces of the open `if` statements (pgen.cpp 679-680). -/
def closing_pieces : Nat → List Str
  | 0 => []
  | level + 1 => (tabs level ++ "\t\t\x7d\n".toList) :: closing_pieces level

/-- The commit and the end of a block (pgen.cpp 674-683). -/
def commit_pieces (level : Nat) : List Str :=
  ["\n".toList, tabs level ++ "\t\ts = sc;\n".toList,
    tabs level ++ "\t\treturn result;\n".toList] ++
  closing_pieces level ++ ["\t\x7d\n".toList, "\n".toList]

/-- The start of a block (pgen.cpp 611-613). -/
def block_pieces : List Str :=
  ["\t\x7b\n".toList, "\t\tconst char *sc = s;\n".toList,
    "\t\tresult.group.clear();\n".toList]

/-- The two `for` loops of `generate_rule` (pgen.cpp 609-684) from inside a block at a
nesting level: the items up to the next `Or` or the end, the commit, and then, when the
outer loop finds a further item behind the `Or`, the next block. -/
def generate_blocks : Nat → List RuleItem → List Str
  | level, [] => commit_pieces level
  | level, it :: rest =>
    if it.type = .Or then
      commit_pieces level ++
        (if rest.isEmpty then [] else block_pieces ++ generate_blocks 0 rest)
    else
      item_pieces level it ++ generate_blocks (if it.optional then level else level + 1) rest

/-- The function `generate_rule` (pgen.cpp 592-690): the text of the function
`$parse_<name>`, every `result +=` as one piece, the three pieces of the comment line as
one. There is no result when `dump(seq)` has none. -/
def generate_rule (seq : List RuleItem) (name : Str) (ptype : Str) : Option (List Str) :=
  match dump_seq seq with
  | none => none
  | some rule =>
    some (["// Rule: ".toList ++ rule ++ "\n".toList,
      "[[nodiscard]]\n".toList,
      "std::optional<$Parsed> $parse_".toList ++ name ++
        "(const char *&s, const char *e)\n".toList,
      "\x7b\n".toList,
      "\t$Parsed result;\n".toList,
      "\tresult.type = $ParsedType::".toList ++ ptype ++ ";\n".toList,
      "\tresult.identifier = $IdentifierType::$i_".toList ++ name ++ ";\n".toList,
      "\n".toList] ++
    (if seq.isEmpty then [] else block_pieces ++ generate_blocks 0 seq) ++
    ["\treturn std::nullopt;\n".toList, "\x7d\n".toList])

/-- A loop of `generate_code` over rules or groups, given by sequence and name, that
appends `generate_rule` and a line end for each (pgen.cpp 1080-1084 and 1088-1092). -/
def generate_rules (ptype : Str) : List (List RuleItem × Str) → Option (List Str)
  | [] => some []
  | (seq, name) :: rest =>
    match generate_rule seq name ptype with
    | none => none
    | some function =>
      match generate_rules ptype rest with
      | none => none
      | some result => some (function ++ ["\n".toList] ++ result)

/-- The line of the enum `$IdentifierType` for a name (pgen.cpp 718 and 725). -/
def enum_line (name : Str) : Str :=
  "\t$i_".toList ++ name ++ ",\n".toList

/-- The line of `table_$IdentifierType` for a name (pgen.cpp 737 and 744). -/
def table_line (name : Str) : Str :=
  "\t\"".toList ++ name ++ "\",\n".toList

/-- The forward declaration emitted for a name (pgen.cpp 1066 and 1073). -/
def declaration (name : Str) : Str :=
  "[[nodiscard]] std::optional<$Parsed> $parse_".toList ++ name ++
    "(const char *&s, const char *e);\n".toList

/-- What `generate_code` appends to its result for the identifier tags, for the name
table, for the forward declarations and for the parsing functions, every `result +=` as
one piece of text in the order of the statements. The fixed text in between (the
includes, the runtime support) and the optional namespace are left out. -/
structure GeneratedCode where
  /-- The enum `$IdentifierType` (pgen.cpp 712-729). -/
  identifier_type : List Str
  /-- The array `table_$IdentifierType` (pgen.cpp 731-748). -/
  table : List Str
  /-- The forward declarations (pgen.cpp 1060-1076). -/
  declarations : List Str
  /-- The parsing functions (pgen.cpp 1078-1095); no result when a call of `generate_rule`
  has none. -/
  functions : Option (List Str)

/-- The function `generate_code` (pgen.cpp 692-751 and 1060-1095), with `groups` the list
it fills by `collect_groups` over all rules. -/
def generate_code (rules : List Rule) : GeneratedCode :=
  let groups := collect_all_groups rules
  ⟨["enum class $IdentifierType\n".toList, "\x7b\n".toList, "\tNone,\n".toList] ++
      rules.map (fun rule => enum_line rule.name) ++ ["\n".toList] ++
      groups.map (fun group => enum_line group.name) ++ ["\x7d;\n".toList, "\n".toList],
    ["const std::string table_$IdentifierType[]\n".toList, "\x7b\n".toList, "\t\"\",\n".toList] ++
      rules.map (fun rule => table_line rule.name) ++ ["\n".toList] ++
      groups.map (fun group => table_line group.name) ++ ["\x7d;\n".toList, "\n".toList],
    ["\n".toList] ++ rules.map (fun rule => declaration rule.name) ++ ["\n".toList] ++
      groups.map (fun group => declaration group.name) ++ ["\n".toList],
    match generate_rules "Identifier".toList (rules.map fun rule => (rule.seq, rule.name)) with
    | none => none
    | some functions =>
      match generate_rules "Group".toList (groups.map fun group => (group.seq, group.name)) with
      | none => none
      | some result => some (functions ++ ["\n".toList] ++ result)⟩

/-! ## Generated parsers (pgen.cpp 592-690 and the emitted support code 754-885)

`generate_rule` writes the text of one C++ function for a sequence. The definitions below
give what that function computes: every statement the generator emits is replaced by
its effect on the caller's cursor `s`, the local cursor `sc` and the child list
`result.group`. A call that does not return, because the emitted functions call each
other without end or a `while` loop never fails, or because no function of the called
name was emitted, has no outcome (`none`); a step budget decides how long a call is
followed. -/

/-- The enum `$ParsedType` of the emitted code (pgen.cpp 754-759). -/
inductive ParsedType where
  | Literal | Identifier | Group
  deriving DecidableEq, Repr

/-- The struct `$Parsed` of the emitted code (pgen.cpp 766-772) without `custom_data`. The
tag `identifier` of the enum `$IdentifierType` is given by the name it stands for in
`table_$IdentifierType`; `None` is the empty name. -/
inductive Parsed where
  | mk (type : ParsedType) (identifier : Str) (literal : Str) (group : List Parsed)

/-- Field `group` of a parse node. -/
def Parsed.group : Parsed → List Parsed
  | .mk _ _ _ g => g

/-- The emitted function `$parse_literal` (pgen.cpp 828-852), with the comparison loop of
`parse_literal`, which it repeats. -/
def emitted_parse_literal (s : Str) (lit : Str) : Option Parsed × Str :=
  if is_eof s then (none, s)
  else if s.length < lit.length then (none, s)
  else if !parse_literal_loop s lit then (none, s)
  else (some (.mk .Literal [] lit []), s.drop lit.length)

/-- The emitted function `$parse_negate_literal` (pgen.cpp 854-885): `eq` is the outcome
of its comparison loop, which is the loop of `parse_literal` with `break` for `return`. -/
def emitted_parse_negate_literal (s : Str) (lit : Str) : Option Parsed × Str :=
  match s with
  | [] => (none, s)
  | c :: t =>
    if decide (s.length ≥ lit.length) && parse_literal_loop s lit then (none, s)
    else (some (.mk .Literal [] [c] []), t)

/-- What a call of an emitted parsing function gives: no outcome, or the optional node
with the cursor the function leaves in the variable it was passed. -/
abbrev Outcome := Option (Option Parsed × Str)

/-- The characters an emitted call passes as `lit` for a literal of the grammar. The call
is written with the C++ string literal `"` + `escape_string(literal)` + `"` (pgen.cpp
632, 634, 652, 654), which the C++ compiler reads back as the characters of the literal;
the parameter is a `std::string_view` built from that `const char *`, so it ends in front
of the first NUL character. -/
def c_string (literal : Str) : Str :=
  literal.takeWhile fun c => c != '\x00'

/-- The call `generate_rule` emits as the condition for an item (pgen.cpp 629-640 and
649-660): `$parse_negate_literal` or `$parse_literal` with the literal for a Literal,
`$parse_<group name>` for a Group, and `$parse_<identifier>` otherwise. `call seq name
ptype` is the function `generate_rule(seq, name, ptype)` emits; for a group it is the one
`generate_code` emits for the group itself (pgen.cpp 1091-1095), for an identifier the
one of the rule of that name (pgen.cpp 1083-1087). -/
def emitted_call (rules : List Rule)
    (call : List RuleItem → Str → ParsedType → Str → Outcome) (it : RuleItem) (sc : Str) :
    Outcome :=
  if it.type = .Literal then
    if it.negate then some (emitted_parse_negate_literal sc (c_string it.literal))
    else some (emitted_parse_literal sc (c_string it.literal))
  else if it.type = .Group then call it.group.seq it.group.name .Group sc
  else
    match rules.find? fun r => r.name == it.identifier with
    | some r => call r.seq r.name .Identifier sc
    | none => none

/-- Where the run of an emitted block stands: inside the block with the local cursor `sc`
and the children collected so far, or behind a mandatory item that did not match, from
where nothing of the block is executed any more. -/
inductive BlockState where
  | run (sc : Str) (group : List Parsed)
  | skip

/-- The emitted loop `while (auto v = P(sc, e)) { result.group.push_back(...); }`
(pgen.cpp 645-666) for the condition `P`. -/
def exec_while (P : Str → Outcome) : Nat → Str → List Parsed → Option (Str × List Parsed)
  | 0, _, _ => none
  | n + 1, sc, group =>
    match P sc with
    | none => none
    | some (some v, sc) => exec_while P n sc (group ++ [v])
    | some (none, sc) => some (sc, group)

/-- The code emitted for one item (pgen.cpp 627-671): `if (auto v = P(sc, e))` with the
`push_back` and, for a `multiple` item, the `while` loop in its body. The `if` of an
`optional` item is closed at once, so the code behind it is reached either way; the `if`
of a mandatory item stays open (`++level`), so the rest of the block is inside it and is
not reached when the item does not match. -/
def exec_item (P : RuleItem → Str → Outcome) (n : Nat) (it : RuleItem) (sc : Str)
    (group : List Parsed) : Option BlockState :=
  match P it sc with
  | none => none
  | some (some v, sc) =>
    if it.multiple then
      match exec_while (P it) n sc (group ++ [v]) with
      | none => none
      | some (sc, group) => some (.run sc group)
    else some (.run sc (group ++ [v]))
  | some (none, sc) => if it.optional then some (.run sc group) else some .skip

/-- The blocks `generate_rule` emits for the items from an index on (the two `for` loops,
pgen.cpp 609-684), followed in textual order. Inside a block an `Or` item ends the inner
loop and the commit `s = sc; return result;` is reached, as at the end of the sequence.
Behind a failed mandatory item the rest of the block is passed over; at its `Or` the outer
loop starts the next block, if an item is left, with `const char *sc = s;` and
`result.group.clear();`. When no block is left, `return std::nullopt;` is reached. The
outcome is the committed cursor and child list, or no match. -/
def exec_seq (P : RuleItem → Str → Outcome) (n : Nat) (s : Str) :
    List RuleItem → BlockState → Option (Option (Str × List Parsed))
  | [], .run sc group => some (some (sc, group))
  | [], .skip => some none
  | it :: rest, .run sc group =>
    if it.type = .Or then some (some (sc, group))
    else
      match exec_item P n it sc group with
      | none => none
      | some st => exec_seq P n s rest st
  | it :: rest, .skip =>
    if it.type = .Or then
      if rest.isEmpty then some none else exec_seq P n s rest (.run s [])
    else exec_seq P n s rest .skip

/-- The function `$parse_<name>` that `generate_rule(seq, name, ptype)` emits (pgen.cpp
592-690), in the program `generate_code` emits for `rules`: it returns the optional node
and the caller's cursor, which is written at the commit only. Where `generate_code` has
no result for the functions of `rules`, or `generate_rule` none for `seq`, because `dump`
has none, no function is emitted and the call has no outcome. -/
def emitted_parse (rules : List Rule) :
    Nat → List RuleItem → Str → ParsedType → Str → Outcome
  | 0, _, _, _, _ => none
  | fuel + 1, seq, name, ptype, s =>
    if (generate_code rules).functions.isNone || (dump_seq seq).isNone then none
    else
      match
        (if seq.isEmpty then some none
        else exec_seq
          (emitted_call rules fun seq name ptype sc => emitted_parse rules fuel seq name ptype sc)
          fuel s seq (.run s [])) with
      | none => none
      | some (some (sc, group)) => some (some (.mk ptype name [] group), sc)
      | some none => some (none, s)

/-! ### Ordered choice, in the words of the specification -/

/-- The alternatives of a sequence: its parts between the `Or` items. -/
def alternatives (seq : List RuleItem) : List (List RuleItem) :=
  seq.splitOnP fun v => v.type == .Or

/-- The alternatives for which a block is emitted: all of them, but not an empty one at
the very end (behind a last `|`, and for the empty sequence). -/
def emitted_blocks : List (List RuleItem) → List (List RuleItem)
  | [] => []
  | [a] => if a.isEmpty then [] else [a]
  | a :: b :: as => a :: emitted_blocks (b :: as)

/-- One alternative tried from a cursor with a child list: its items in order; a
mandatory item that does not match ends the attempt without a match. -/
def match_alternative (P : RuleItem → Str → Outcome) (n : Nat) :
    List RuleItem → Str → List Parsed → Option (Option (Str × List Parsed))
  | [], sc, group => some (some (sc, group))
  | it :: rest, sc, group =>
    match exec_item P n it sc group with
    | none => none
    | some (.run sc group) => match_alternative P n rest sc group
    | some .skip => some none

/-- Ordered choice: the alternatives are tried in order, each from the caller's cursor `s`
with an empty child list; the first that matches gives the result and the later ones are
not tried. -/
def first_match (P : RuleItem → Str → Outcome) (n : Nat) (s : Str) :
    List (List RuleItem) → Option (Option (Str × List Parsed))
  | [] => some none
  | a :: as =>
    match match_alternative P n a s [] with
    | none => none
    | some (some r) => some (some r)
    | some none => first_match P n s as

/-! ## Notions used to state what the generator emits -/

/-- The entries of an emitted list in braces: its lines that begin with a tab, without the
tab in front and the comma and line end behind. -/
def entries (lines : List Str) : List Str :=
  lines.filterMap fun l =>
    match l with
    | '\t' :: r => some r.dropLast.dropLast
    | _ => none

/-- A piece of text that begins like the head of an emitted parsing function. -/
def is_function_head (l : Str) : Bool :=
  "std::optional<$Parsed> $parse_".toList.isPrefixOf l

/-- The names `generate_code` works through: those of the rules in the order of the rule
list, then those of the groups. -/
def generated_names (rules : List Rule) : List Str :=
  rules.map (fun rule => rule.name) ++ (collect_all_groups rules).map fun group => group.name

/-- Pre-order on chains of ordinal positions: a chain comes before every chain it begins,
and otherwise the chain with the smaller position at the first difference comes first. -/
def path_before : List Nat → List Nat → Bool
  | [], [] => false
  | [], _ :: _ => true
  | _ :: _, [] => false
  | a :: p, b :: q => decide (a < b) || (a == b && path_before p q)

/-- A chain with its first position moved on by one. -/
def bump : List Nat → List Nat
  | [] => []
  | k :: ks => (k + 1) :: ks

mutual
/-- The chains of positions of all groups of a sequence, at any depth, in pre-order. -/
def group_paths : List RuleItem → List (List Nat)
  | [] => []
  | v :: seq =>
    group_paths_item v ++
      (if v.type = .Group then (group_paths seq).map bump else group_paths seq)
/-- The chains of a first item: position 0 for the item if it is a group, then the chains
into it. -/
def group_paths_item : RuleItem → List (List Nat)
  | .mk t _ _ (.mk _ seq) _ _ _ =>
    if t = .Group then [0] :: (group_paths seq).map (List.cons 0) else []
end

/-! ## Lexical primitives: escaping round trip and failure without advance -/

theorem parse_string_loop_escaped (c : Char) (sc result : Str) (h : c ≠ 'x') :
    parse_string_loop (c :: sc) true result =
      if c == '"' || c == '\\' then parse_string_loop sc false (result ++ [c])
      else parse_string_loop sc false (result ++ [unescape_char c]) := by
  rw [parse_string_loop.eq_def]
  simp [h]

theorem parse_string_loop_escape (str rest acc : Str) :
    parse_string_loop (escape_string str ++ '"' :: rest) false acc = some (acc ++ str, rest) := by
  induction str generalizing acc with
  | nil => simp [escape_string, parse_string_loop]
  | cons c str ih =>
    simp only [escape_string, escape_char]
    split_ifs with h1 h2 h3 h4 h5 h6 h7 h8 h9 <;>
      simp_all [parse_string_loop, parse_string_loop_escaped, unescape_char, ih]

theorem parse_string_escape (str rest : Str) :
    parse_string ('"' :: (escape_string str ++ '"' :: rest)) = (some str, rest) := by
  simp [parse_string, parse_literal, parse_literal_loop, is_eof, parse_string_loop_escape]

/-- C1. Escaping round trip: for every string `str` (with or without the NUL character),
`parse_string` applied to the buffer made of a double quote, `escape_string str` and a
double quote succeeds, returns exactly `str`, and leaves the cursor at the end of the
buffer. -/
theorem escape_string_round_trip (str : Str) :
    parse_string (['"'] ++ escape_string str ++ ['"']) = (some str, []) := by
  simpa using parse_string_escape str []

theorem parse_identifier_loop_eq (s result : Str) :
    parse_identifier_loop s result =
      (result ++ s.takeWhile is_identifier, s.dropWhile is_identifier) := by
  induction s generalizing result with
  | nil => simp [parse_identifier_loop]
  | cons c s ih =>
    by_cases h : is_identifier c <;> simp [parse_identifier_loop, h, ih]

theorem parse_newline_fail (s : Str) (h : (parse_newline s).1 = false) :
    (parse_newline s).2 = s := by
  match s with
  | [] => rfl
  | [c] => by_cases h1 : c = '\r' <;> by_cases h2 : c = '\n' <;> simp_all [parse_newline]
  | c :: c2 :: sc =>
    by_cases h1 : c = '\r' <;> by_cases h2 : c = '\n' <;> by_cases h3 : c2 = '\n' <;>
      simp_all [parse_newline]

theorem parse_two_newlines_fail (s : Str) (h : (parse_two_newlines s).1 = false) :
    (parse_two_newlines s).2 = s := by
  unfold parse_two_newlines at *
  split
  · split <;> simp_all
  · rfl

theorem parse_literal_fail (s lit : Str) (h : (parse_literal s lit).1 = false) :
    (parse_literal s lit).2 = s := by
  unfold parse_literal at *
  split_ifs at * <;> simp_all

theorem parse_identifier_fail (s : Str) (h : (parse_identifier s).1 = none) :
    (parse_identifier s).2 = s := by
  simp only [parse_identifier, parse_identifier_loop_eq, List.nil_append] at *
  split_ifs at h ⊢ with h1
  · cases s with
    | nil => rfl
    | cons c s =>
      by_cases hc : is_identifier c <;> simp_all [List.takeWhile, List.dropWhile]

theorem parse_string_fail (s : Str) (h : (parse_string s).1 = none) :
    (parse_string s).2 = s := by
  unfold parse_string at *
  split
  · rfl
  · split <;> simp_all

/-- C2. No partial advance on failure: for every remaining input `s` (every buffer and
cursor position) and every literal text `lit`, whenever `parse_newline`,
`parse_two_newlines`, `parse_literal`, `parse_identifier` or `parse_string` signals no
match (`false` / `nullopt`), the cursor the caller gets back is the one it passed in. -/
theorem scanners_no_partial_advance (s lit : Str) :
    ((parse_newline s).1 = false → (parse_newline s).2 = s) ∧
    ((parse_two_newlines s).1 = false → (parse_two_newlines s).2 = s) ∧
    ((parse_literal s lit).1 = false → (parse_literal s lit).2 = s) ∧
    ((parse_identifier s).1 = none → (parse_identifier s).2 = s) ∧
    ((parse_string s).1 = none → (parse_string s).2 = s) :=
  ⟨parse_newline_fail s, parse_two_newlines_fail s, parse_literal_fail s lit,
    parse_identifier_fail s, parse_string_fail s⟩

/-- On the input `\n\r"a` with the literal `\n\n` every one of the five scanners reads
at least one character before it fails (`parse_newline` is tried on `\r"a`, where the
second scanner calls it), and the cursor they return has not moved. -/
theorem scanners_no_partial_advance_witness :
    (parse_newline "\r\"a".toList).2 = "\r\"a".toList ∧
    (parse_two_newlines "\n\r\"a".toList).2 = "\n\r\"a".toList ∧
    (parse_literal "\n\r\"a".toList "\n\n".toList).2 = "\n\r\"a".toList ∧
    (parse_identifier "\n\r\"a".toList).2 = "\n\r\"a".toList ∧
    (parse_string "\"a".toList).2 = "\"a".toList :=
  ⟨(scanners_no_partial_advance "\r\"a".toList []).1 (by decide),
    (scanners_no_partial_advance "\n\r\"a".toList []).2.1 (by decide),
    (scanners_no_partial_advance "\n\r\"a".toList "\n\n".toList).2.2.1 (by decide),
    (scanners_no_partial_advance "\n\r\"a".toList []).2.2.2.1 (by decide),
    (scanners_no_partial_advance "\"a".toList []).2.2.2.2 (by decide)⟩

/-! ## Lexical primitives: how far the cursor moves -/

theorem skip_whitespace_length_le (s : Str) : (skip_whitespace s).length ≤ s.length := by
  induction s with
  | nil => simp [skip_whitespace]
  | cons c s ih =>
    simp only [skip_whitespace]
    split_ifs
    · simp only [List.length_cons]; omega
    · simp

theorem parse_literal_single (s : Str) (c : Char) :
    parse_literal s [c] =
      match s with
      | [] => (false, [])
      | d :: t => if d = c then (true, t) else (false, d :: t) := by
  cases s with
  | nil => simp [parse_literal, is_eof]
  | cons d t =>
    by_cases h : d = c <;> simp [parse_literal, is_eof, parse_literal_loop, h]

theorem parse_literal_single_true (s s1 : Str) (c : Char)
    (h : parse_literal s [c] = (true, s1)) : s = c :: s1 := by
  rw [parse_literal_single] at h
  cases s with
  | nil => simp at h
  | cons d t =>
    by_cases hd : d = c <;> simp_all

theorem parse_literal_single_false (s s1 : Str) (c : Char)
    (h : parse_literal s [c] = (false, s1)) : s1 = s ∧ s.head? ≠ some c := by
  rw [parse_literal_single] at h
  cases s with
  | nil => simp_all
  | cons d t =>
    by_cases hd : d = c
    · simp_all
    · simp only [hd, if_false, Prod.mk.injEq, true_and] at h
      subst h
      simpa using hd

theorem parse_string_loop_length_aux (n : Nat) :
    ∀ (sc : Str) (escape : Bool) (result v s1 : Str), sc.length ≤ n →
      parse_string_loop sc escape result = some (v, s1) → s1.length < sc.length := by
  induction n using Nat.strong_induction_on with
  | _ n ih =>
    intro sc escape result v s1 hn h
    rw [parse_string_loop.eq_def] at h
    split at h
    · simp at h
    · rename_i c sc
      simp only [List.length_cons] at hn ⊢
      split_ifs at h with h1 h2
      · split at h
        · rename_i c0 c1 sc2
          have := ih sc2.length (by simp at hn; omega) sc2 _ _ _ _ le_rfl h
          simp; omega
        · simp at h
      · have := ih sc.length (by omega) sc _ _ _ _ le_rfl h
        omega
      · have := ih sc.length (by omega) sc _ _ _ _ le_rfl h
        omega
    · rename_i c sc
      simp only [List.length_cons] at hn ⊢
      split_ifs at h with h1 h2
      · simp only [Option.some.injEq, Prod.mk.injEq] at h
        rw [← h.2]; omega
      · have := ih sc.length (by omega) sc _ _ _ _ le_rfl h
        omega
      · have := ih sc.length (by omega) sc _ _ _ _ le_rfl h
        omega

theorem parse_string_length (s v s1 : Str) (h : parse_string s = (some v, s1)) :
    s1.length < s.length := by
  unfold parse_string at h
  split at h
  · simp at h
  · rename_i sc hsc
    have hs := parse_literal_single_true _ _ _ hsc
    split at h
    · rename_i result sc2 hl
      simp only [Prod.mk.injEq, Option.some.injEq] at h
      have := parse_string_loop_length_aux _ _ _ _ _ _ le_rfl hl
      rw [← h.2, hs]; simp; omega
    · simp at h

theorem parse_string_none (s s1 : Str) (h : parse_string s = (none, s1)) : s1 = s := by
  have := parse_string_fail s (by rw [h])
  rw [h] at this; exact this

theorem parse_identifier_eq (s : Str) :
    parse_identifier s =
      if s.takeWhile is_identifier = [] then (none, s)
      else (some (s.takeWhile is_identifier), s.dropWhile is_identifier) := by
  simp only [parse_identifier, parse_identifier_loop_eq, List.nil_append]
  by_cases h : List.takeWhile is_identifier s = []
  · have : List.dropWhile is_identifier s = s := by
      cases s with
      | nil => rfl
      | cons c s => by_cases hc : is_identifier c <;> simp_all [List.takeWhile, List.dropWhile]
    simp [h, this]
  · simp [h]

theorem parse_identifier_some (s v s1 : Str) (h : parse_identifier s = (some v, s1)) :
    v = s.takeWhile is_identifier ∧ s1 = s.dropWhile is_identifier ∧ v ≠ [] ∧
      s = v ++ s1 := by
  rw [parse_identifier_eq] at h
  split_ifs at h with h1
  · simp at h
  simp only [Prod.mk.injEq, Option.some.injEq] at h
  refine ⟨h.1.symm, h.2.symm, by rw [← h.1]; exact h1, ?_⟩
  rw [← h.1, ← h.2, List.takeWhile_append_dropWhile]

theorem parse_identifier_none (s s1 : Str) (h : parse_identifier s = (none, s1)) :
    s1 = s ∧ s.takeWhile is_identifier = [] := by
  rw [parse_identifier_eq] at h
  split_ifs at h with h1
  · simp only [Prod.mk.injEq, true_and] at h
    exact ⟨h.symm, h1⟩
  · simp at h

theorem parse_identifier_length (s v s1 : Str) (h : parse_identifier s = (some v, s1)) :
    s1.length < s.length := by
  obtain ⟨_, _, h3, h4⟩ := parse_identifier_some s v s1 h
  have : 0 < v.length := List.length_pos.mpr h3
  rw [h4]; simp; omega

theorem parse_newline_length (s : Str) : (parse_newline s).2.length ≤ s.length := by
  match s with
  | [] => simp [parse_newline]
  | [c] => by_cases h1 : c = '\r' <;> by_cases h2 : c = '\n' <;> simp_all [parse_newline]
  | c :: c2 :: sc =>
    by_cases h1 : c = '\r' <;> by_cases h2 : c = '\n' <;> by_cases h3 : c2 = '\n' <;>
      (simp_all [parse_newline]; try omega)

theorem parse_two_newlines_length (s : Str) : (parse_two_newlines s).2.length ≤ s.length := by
  unfold parse_two_newlines
  split
  · rename_i sc h1
    have l1 := parse_newline_length s
    rw [h1] at l1
    split
    · rename_i sc2 h2
      have l2 := parse_newline_length sc
      rw [h2] at l2
      simp at l1 l2 ⊢; omega
    · simp
  · simp

theorem parse_comment_loop_length (s : Str) : (parse_comment_loop s).length ≤ s.length := by
  induction s with
  | nil => simp [parse_comment_loop]
  | cons c s ih =>
    simp only [parse_comment_loop]
    split
    · rename_i s1 h1
      have := parse_newline_length (c :: s)
      rw [h1] at this; exact this
    · simp; omega

/-! ## The step budget: more budget never changes a result -/

theorem fuel_succ (fuel : Nat) :
    (∀ s p i, parse_group fuel s p i ≠ .error .out_of_fuel →
      parse_group (fuel + 1) s p i = parse_group fuel s p i) ∧
    (∀ s n i seq, parse_group_loop fuel s n i seq ≠ .error .out_of_fuel →
      parse_group_loop (fuel + 1) s n i seq = parse_group_loop fuel s n i seq) ∧
    (∀ s p i, parse_ruleitem fuel s p i ≠ .error .out_of_fuel →
      parse_ruleitem (fuel + 1) s p i = parse_ruleitem fuel s p i) := by
  induction fuel with
  | zero => simp [parse_group, parse_group_loop, parse_ruleitem]
  | succ fuel ih =>
    obtain ⟨ihg, ihl, ihr⟩ := ih
    refine ⟨?_, ?_, ?_⟩
    · intro s p i hne
      simp only [parse_group] at hne ⊢
      split
      · rfl
      · rename_i s1 hs1
        simp only [hs1] at hne
        have h1 : parse_group_loop fuel (skip_whitespace s1)
            (p ++ ['_', '$', 'g'] ++ to_string i) 0 [] ≠ .error .out_of_fuel := by
          intro h; rw [h] at hne; exact hne rfl
        rw [ihl _ _ _ _ h1]
    · intro s n i seq hne
      simp only [parse_group_loop] at hne ⊢
      split
      · rfl
      · rename_i hs
        simp only [hs] at hne
        split
        · rfl
        · rename_i s1 hs1
          simp only [hs1] at hne
          have h1 : parse_ruleitem fuel s1 n i ≠ .error .out_of_fuel := by
            intro h; rw [h] at hne; exact hne rfl
          rw [ihr _ _ _ h1]
          cases hr : parse_ruleitem fuel s1 n i with
          | error a => rfl
          | ok v =>
            obtain ⟨o, s2, i2⟩ := v
            cases o with
            | none => rfl
            | some r =>
              simp only [hr] at hne ⊢
              cases hf : fold_item seq r with
              | error a => rfl
              | ok seq2 =>
                simp only [hf] at hne ⊢
                exact ihl _ _ _ _ hne
    · intro s p i hne
      simp only [parse_ruleitem] at hne ⊢
      split
      · rfl
      · rename_i hs
        simp only [hs] at hne
        split
        · rfl
        · rename_i s1 hs1
          simp only [hs1] at hne
          split
          · rfl
          · rename_i s2 hs2
            simp only [hs2] at hne
            have h1 : parse_group fuel s2 p i ≠ .error .out_of_fuel := by
              intro h; rw [h] at hne; exact hne rfl
            rw [ihg _ _ _ h1]

/-! ## Progress: every stored item consumes input -/

theorem parse_group_none (fuel : Nat) (s p : Str) (i : Nat) (s1 : Str) (i1 : Nat)
    (h : parse_group fuel s p i = .ok (none, s1, i1)) :
    s1 = s ∧ i1 = i ∧ s.head? ≠ some '(' := by
  cases fuel with
  | zero => simp [parse_group] at h
  | succ fuel =>
    simp only [parse_group] at h
    split at h
    · rename_i s2 hs2
      have e := parse_literal_single_false _ _ _ hs2
      simp only [Except.ok.injEq, Prod.mk.injEq, true_and] at h
      exact ⟨by rw [← h.1, e.1], h.2.symm, e.2⟩
    · split at h <;> simp at h

theorem parse_progress (fuel : Nat) :
    (∀ s p i g s1 i1, parse_group fuel s p i = .ok (some g, s1, i1) →
      s1.length < s.length) ∧
    (∀ s n i seq seq1 s1, parse_group_loop fuel s n i seq = .ok (seq1, s1) →
      s1.length ≤ s.length) ∧
    (∀ s p i r s1 i1, parse_ruleitem fuel s p i = .ok (some r, s1, i1) →
      s1.length < s.length) := by
  induction fuel with
  | zero => simp [parse_group, parse_group_loop, parse_ruleitem]
  | succ fuel ih =>
    obtain ⟨ihg, ihl, ihr⟩ := ih
    refine ⟨?_, ?_, ?_⟩
    · intro s p i g s1 i1 h
      simp only [parse_group] at h
      split at h
      · simp at h
      · rename_i s2 hs2
        have e := parse_literal_single_true _ _ _ hs2
        split at h
        · simp at h
        · rename_i seq s3 hl
          have l1 := ihl _ _ _ _ _ _ hl
          have l2 := skip_whitespace_length_le s2
          simp only [Except.ok.injEq, Prod.mk.injEq] at h
          rw [← h.2.1, e]; simp; omega
    · intro s n i seq seq1 s1 h
      simp only [parse_group_loop] at h
      split at h
      · simp only [Except.ok.injEq, Prod.mk.injEq] at h
        rw [h.2]
      · split at h
        · rename_i s2 hs2
          have e := parse_literal_single_true _ _ _ hs2
          simp only [Except.ok.injEq, Prod.mk.injEq] at h
          rw [← h.2, e]; simp
        · rename_i s2 hs2
          have e := (parse_literal_single_false _ _ _ hs2).1
          split at h
          · simp at h
          · simp at h
          · rename_i r s3 i3 hr
            have l1 := ihr _ _ _ _ _ _ hr
            split at h
            · simp at h
            · have l2 := ihl _ _ _ _ _ _ h
              have l3 := skip_whitespace_length_le s3
              rw [e] at l1; omega
    · intro s p i r s1 i1 h
      simp only [parse_ruleitem] at h
      split at h
      · simp at h
      · split at h
        · rename_i v s2 hs2
          simp only [Except.ok.injEq, Prod.mk.injEq] at h
          rw [← h.2.1]; exact parse_string_length _ _ _ hs2
        · rename_i s2 hs2
          have e2 := parse_string_none _ _ hs2
          subst e2
          split at h
          · rename_i v s3 hs3
            simp only [Except.ok.injEq, Prod.mk.injEq] at h
            rw [← h.2.1]; exact parse_identifier_length _ _ _ hs3
          · rename_i s3 hs3
            have e3 := (parse_identifier_none _ _ hs3).1
            subst e3
            split at h
            · simp at h
            · rename_i v s4 i4 hg
              simp only [Except.ok.injEq, Prod.mk.injEq] at h
              rw [← h.2.1]; exact ihg _ _ _ _ _ _ hg
            · rename_i s4 i4 hg
              obtain ⟨e4, -, -⟩ := parse_group_none _ _ _ _ _ _ hg
              subst e4
              split at h
              · rename_i s5 hs5
                have e := parse_literal_single_true _ _ _ hs5
                simp only [Except.ok.injEq, Prod.mk.injEq] at h
                rw [← h.2.1, e]; simp
              · rename_i s5 hs5
                have e5 := (parse_literal_single_false _ _ _ hs5).1
                subst e5
                split at h
                · rename_i s6 hs6
                  have e := parse_literal_single_true _ _ _ hs6
                  simp only [Except.ok.injEq, Prod.mk.injEq] at h
                  rw [← h.2.1, e]; simp
                · rename_i s6 hs6
                  have e6 := (parse_literal_single_false _ _ _ hs6).1
                  subst e6
                  split at h
                  · rename_i s7 hs7
                    have e := parse_literal_single_true _ _ _ hs7
                    simp only [Except.ok.injEq, Prod.mk.injEq] at h
                    rw [← h.2.1, e]; simp
                  · rename_i s7 hs7
                    have e7 := (parse_literal_single_false _ _ _ hs7).1
                    subst e7
                    split at h
                    · rename_i s8 hs8
                      have e := parse_literal_single_true _ _ _ hs8
                      simp only [Except.ok.injEq, Prod.mk.injEq] at h
                      rw [← h.2.1, e]; simp
                    · rename_i s8 hs8
                      have e8 := (parse_literal_single_false _ _ _ hs8).1
                      subst e8
                      split at h
                      · rename_i s9 hs9
                        have e := parse_literal_single_true _ _ _ hs9
                        simp only [Except.ok.injEq, Prod.mk.injEq] at h
                        rw [← h.2.1, e]; simp
                      · simp at h

/-! ## The step budget: three steps for each character are enough -/

theorem fold_item_ne_out_of_fuel (seq : List RuleItem) (r : RuleItem) :
    fold_item seq r ≠ .error .out_of_fuel := by
  unfold fold_item
  split_ifs
  · simp
  · simp
  · simp
  · split
    · simp
    · split_ifs <;> simp
  · simp

theorem is_eof_false_length (s : Str) (h : ¬ is_eof s = true) : 0 < s.length := by
  cases s with
  | nil => simp [is_eof] at h
  | cons c s => simp

theorem fuel_enough (fuel : Nat) :
    (∀ s p i, 3 * s.length ≤ fuel + 1 → 0 < fuel →
      parse_group fuel s p i ≠ .error .out_of_fuel) ∧
    (∀ s n i seq, 3 * s.length + 1 ≤ fuel →
      parse_group_loop fuel s n i seq ≠ .error .out_of_fuel) ∧
    (∀ s p i, 3 * s.length ≤ fuel → 0 < fuel →
      parse_ruleitem fuel s p i ≠ .error .out_of_fuel) := by
  induction fuel with
  | zero =>
    refine ⟨?_, ?_, ?_⟩
    · intro s p i _ h; omega
    · intro s n i seq h; omega
    · intro s p i _ h; omega
  | succ fuel ih =>
    obtain ⟨ihg, ihl, ihr⟩ := ih
    refine ⟨?_, ?_, ?_⟩
    · intro s p i hlen _
      simp only [parse_group]
      split
      · simp
      · rename_i s2 hs2
        have e := parse_literal_single_true _ _ _ hs2
        have l2 := skip_whitespace_length_le s2
        have hl := ihl (skip_whitespace s2) (p ++ ['_', '$', 'g'] ++ to_string i) 0 []
          (by rw [e] at hlen; simp at hlen; omega)
        split
        · rename_i a ha
          intro h
          simp only [Except.error.injEq] at h
          rw [ha, h] at hl; exact hl rfl
        · simp
    · intro s n i seq hlen
      simp only [parse_group_loop]
      split
      · simp
      · rename_i hs
        have hpos := is_eof_false_length s hs
        split
        · simp
        · rename_i s2 hs2
          have e := (parse_literal_single_false _ _ _ hs2).1
          subst e
          have hr := ihr s2 n i (by omega) (by omega)
          split
          · rename_i a ha
            intro h
            simp only [Except.error.injEq] at h
            rw [ha, h] at hr; exact hr rfl
          · simp
          · rename_i r s3 i3 hr3
            have l1 := (parse_progress fuel).2.2 _ _ _ _ _ _ hr3
            have l3 := skip_whitespace_length_le s3
            split
            · rename_i a ha
              intro h
              simp only [Except.error.injEq] at h
              rw [h] at ha; exact fold_item_ne_out_of_fuel _ _ ha
            · exact ihl _ _ _ _ (by omega)
    · intro s p i hlen _
      simp only [parse_ruleitem]
      split
      · simp
      · rename_i hs
        have hpos := is_eof_false_length s hs
        split
        · simp
        · rename_i s2 hs2
          have e2 := parse_string_none _ _ hs2
          subst e2
          split
          · simp
          · rename_i s3 hs3
            have e3 := (parse_identifier_none _ _ hs3).1
            subst e3
            have hg := ihg s3 p i (by omega) (by omega)
            split
            · rename_i a ha
              intro h
              simp only [Except.error.injEq] at h
              rw [ha, h] at hg; exact hg rfl
            · simp
            · repeat' split
              all_goals simp

/-! ## The loops of `parse_rule` and `parse`: budget and progress -/

theorem parse_rule_loop_succ (fuel : Nat) :
    ∀ s n i seq, parse_rule_loop fuel s n i seq ≠ .error .out_of_fuel →
      parse_rule_loop (fuel + 1) s n i seq = parse_rule_loop fuel s n i seq := by
  induction fuel with
  | zero => simp [parse_rule_loop]
  | succ fuel ih =>
    intro s n i seq hne
    simp only [parse_rule_loop] at hne ⊢
    split
    · rfl
    · rename_i hs
      simp only [hs] at hne
      have h1 : parse_ruleitem fuel s n i ≠ .error .out_of_fuel := by
        intro h; rw [h] at hne; exact hne rfl
      rw [(fuel_succ fuel).2.2 _ _ _ h1]
      cases hr : parse_ruleitem fuel s n i with
      | error a => rfl
      | ok v =>
        obtain ⟨o, s2, i2⟩ := v
        cases o with
        | none => rfl
        | some r =>
          simp only [hr] at hne ⊢
          cases hf : fold_item seq r with
          | error a => rfl
          | ok seq2 =>
            simp only [hf] at hne ⊢
            split
            · rfl
            · rename_i s3 hs3
              simp only [hs3] at hne
              exact ih _ _ _ _ hne

theorem parse_rule_succ (fuel : Nat) (s : Str)
    (hne : parse_rule fuel s ≠ .error .out_of_fuel) :
    parse_rule (fuel + 1) s = parse_rule fuel s := by
  simp only [parse_rule] at hne ⊢
  split
  · rfl
  · rename_i name s1 hs1
    simp only [hs1] at hne
    split
    · rfl
    · rename_i s2 hs2
      simp only [hs2] at hne
      have h1 : parse_rule_loop fuel (skip_whitespace s2) name 0 [] ≠ .error .out_of_fuel := by
        intro h; rw [h] at hne; exact hne rfl
      rw [parse_rule_loop_succ _ _ _ _ _ h1]

theorem parse_loop_succ (fuel : Nat) :
    ∀ s result, parse_loop fuel s result ≠ .error .out_of_fuel →
      parse_loop (fuel + 1) s result = parse_loop fuel s result := by
  induction fuel with
  | zero => simp [parse_loop]
  | succ fuel ih =>
    intro s result hne
    simp only [parse_loop] at hne ⊢
    split
    · rfl
    · rename_i hs
      simp only [hs] at hne
      split
      · rename_i s1 hs1
        simp only [hs1] at hne
        exact ih _ _ hne
      · rename_i s1 hs1
        simp only [hs1] at hne
        have h1 : parse_rule fuel s1 ≠ .error .out_of_fuel := by
          intro h; rw [h] at hne; exact hne rfl
        rw [parse_rule_succ _ _ h1]
        cases hr : parse_rule fuel s1 with
        | error a => rfl
        | ok v =>
          obtain ⟨o, s2⟩ := v
          cases o with
          | none => rfl
          | some r =>
            simp only [hr] at hne ⊢
            exact ih _ _ hne

theorem parse_ruleitem_fuel_le (f g : Nat) (hfg : f ≤ g) (s p : Str) (i : Nat)
    (hne : parse_ruleitem f s p i ≠ .error .out_of_fuel) :
    parse_ruleitem g s p i = parse_ruleitem f s p i := by
  induction g, hfg using Nat.le_induction with
  | base => rfl
  | succ g _ ih => rw [(fuel_succ g).2.2 _ _ _ (by rw [ih]; exact hne), ih]

theorem parse_group_loop_fuel_le (f g : Nat) (hfg : f ≤ g) (s n : Str) (i : Nat)
    (seq : List RuleItem) (hne : parse_group_loop f s n i seq ≠ .error .out_of_fuel) :
    parse_group_loop g s n i seq = parse_group_loop f s n i seq := by
  induction g, hfg using Nat.le_induction with
  | base => rfl
  | succ g _ ih => rw [(fuel_succ g).2.1 _ _ _ _ (by rw [ih]; exact hne), ih]

theorem parse_rule_loop_fuel_le (f g : Nat) (hfg : f ≤ g) (s n : Str) (i : Nat)
    (seq : List RuleItem) (hne : parse_rule_loop f s n i seq ≠ .error .out_of_fuel) :
    parse_rule_loop g s n i seq = parse_rule_loop f s n i seq := by
  induction g, hfg using Nat.le_induction with
  | base => rfl
  | succ g _ ih => rw [parse_rule_loop_succ g _ _ _ _ (by rw [ih]; exact hne), ih]

theorem parse_rule_fuel_le (f g : Nat) (hfg : f ≤ g) (s : Str)
    (hne : parse_rule f s ≠ .error .out_of_fuel) :
    parse_rule g s = parse_rule f s := by
  induction g, hfg using Nat.le_induction with
  | base => rfl
  | succ g _ ih => rw [parse_rule_succ g _ (by rw [ih]; exact hne), ih]

theorem parse_loop_fuel_le (f g : Nat) (hfg : f ≤ g) (s : Str) (result : List Rule)
    (hne : parse_loop f s result ≠ .error .out_of_fuel) :
    parse_loop g s result = parse_loop f s result := by
  induction g, hfg using Nat.le_induction with
  | base => rfl
  | succ g _ ih => rw [parse_loop_succ g _ _ (by rw [ih]; exact hne), ih]

theorem parse_rule_loop_progress (fuel : Nat) :
    ∀ s n i seq seq1 s1, parse_rule_loop fuel s n i seq = .ok (seq1, s1) →
      s1.length ≤ s.length := by
  induction fuel with
  | zero => simp [parse_rule_loop]
  | succ fuel ih =>
    intro s n i seq seq1 s1 h
    simp only [parse_rule_loop] at h
    split at h
    · simp only [Except.ok.injEq, Prod.mk.injEq] at h
      rw [h.2]
    · split at h
      · simp at h
      · simp at h
      · rename_i r s3 i3 hr
        have l1 := (parse_progress fuel).2.2 _ _ _ _ _ _ hr
        split at h
        · simp at h
        · have l2 := parse_two_newlines_length s3
          split at h
          · rename_i s4 hs4
            rw [hs4] at l2
            simp only [Except.ok.injEq, Prod.mk.injEq] at h
            rw [← h.2]; simp at l2; omega
          · rename_i s4 hs4
            rw [hs4] at l2
            have l3 := ih _ _ _ _ _ _ h
            have l4 := skip_whitespace_length_le s4
            simp at l2; omega

theorem parse_rule_progress (fuel : Nat) (s : Str) (rule : Option Rule) (s1 : Str)
    (h : parse_rule fuel s = .ok (rule, s1)) : s1.length < s.length := by
  simp only [parse_rule] at h
  split at h
  · simp at h
  · rename_i name s2 hs2
    have l1 := parse_identifier_length _ _ _ hs2
    split at h
    · simp at h
    · rename_i s3 hs3
      have e := parse_literal_single_true _ _ _ hs3
      have l2 := skip_whitespace_length_le s2
      have l3 := skip_whitespace_length_le s3
      rw [e] at l2
      split at h
      · simp at h
      · rename_i seq s4 hl
        have l4 := parse_rule_loop_progress _ _ _ _ _ _ _ hl
        split_ifs at h
        simp only [Except.ok.injEq, Prod.mk.injEq] at h
        rw [← h.2]; simp at l2; omega

theorem parse_rule_loop_fuel_enough (fuel : Nat) :
    ∀ s n i seq, 3 * s.length + 1 ≤ fuel →
      parse_rule_loop fuel s n i seq ≠ .error .out_of_fuel := by
  induction fuel with
  | zero => intro s n i seq h; omega
  | succ fuel ih =>
    intro s n i seq hlen
    simp only [parse_rule_loop]
    split
    · simp
    · rename_i hs
      have hpos := is_eof_false_length s hs
      have hr := (fuel_enough fuel).2.2 s n i (by omega) (by omega)
      split
      · rename_i a ha
        intro h
        simp only [Except.error.injEq] at h
        rw [ha, h] at hr; exact hr rfl
      · simp
      · rename_i r s3 i3 hr3
        have l1 := (parse_progress fuel).2.2 _ _ _ _ _ _ hr3
        split
        · rename_i a ha
          intro h
          simp only [Except.error.injEq] at h
          rw [h] at ha; exact fold_item_ne_out_of_fuel _ _ ha
        · have l2 := parse_two_newlines_length s3
          split
          · simp
          · rename_i s4 hs4
            rw [hs4] at l2
            have l4 := skip_whitespace_length_le s4
            simp at l2
            exact ih _ _ _ _ (by omega)

theorem parse_rule_fuel_enough (fuel : Nat) (s : Str) (hlen : 3 * s.length ≤ fuel) :
    parse_rule fuel s ≠ .error .out_of_fuel := by
  simp only [parse_rule]
  split
  · simp
  · rename_i name s2 hs2
    have l1 := parse_identifier_length _ _ _ hs2
    split
    · simp
    · rename_i s3 hs3
      have e := parse_literal_single_true _ _ _ hs3
      have l2 := skip_whitespace_length_le s2
      have l3 := skip_whitespace_length_le s3
      rw [e] at l2
      simp at l2
      have hl := parse_rule_loop_fuel_enough fuel (skip_whitespace s3) name 0 [] (by omega)
      split
      · rename_i a ha
        intro h
        simp only [Except.error.injEq] at h
        rw [ha, h] at hl; exact hl rfl
      · split_ifs <;> simp

theorem parse_loop_fuel_enough (fuel : Nat) :
    ∀ s result, 3 * s.length + 1 ≤ fuel →
      parse_loop fuel s result ≠ .error .out_of_fuel := by
  induction fuel with
  | zero => intro s result h; omega
  | succ fuel ih =>
    intro s result hlen
    simp only [parse_loop]
    split
    · simp
    · rename_i hs
      have hpos := is_eof_false_length s hs
      split
      · rename_i s1 hs1
        have e := parse_literal_single_true _ _ _ hs1
        have l1 := parse_comment_loop_length s1
        have l2 := skip_whitespace_length_le (parse_comment_loop s1)
        rw [e] at hlen
        simp at hlen
        exact ih _ _ (by omega)
      · rename_i s1 hs1
        have e := (parse_literal_single_false _ _ _ hs1).1
        subst e
        have hr := parse_rule_fuel_enough fuel s1 (by omega)
        split
        · rename_i a ha
          intro h
          simp only [Except.error.injEq] at h
          rw [ha, h] at hr; exact hr rfl
        · simp
        · rename_i rule s2 hr2
          have l1 := parse_rule_progress _ _ _ _ hr2
          have l2 := skip_whitespace_length_le s2
          exact ih _ _ (by omega)

/-- The budget `parse` starts with is never used up: `parse` returns a rule list or
leaves by one of the two exceptions of the C++ code. -/
theorem parse_ne_out_of_fuel (str : Str) : parse str ≠ .error .out_of_fuel := by
  have := skip_whitespace_length_le str
  exact parse_loop_fuel_enough _ _ _ (by omega)

/-- A run of the main loop with any budget that does not run out is the run of
`parse`. -/
theorem parse_eq_of_fuel (fuel : Nat) (str : Str) (r : Except Abort (List Rule))
    (h : parse_loop fuel (skip_whitespace str) [] = r) (hr : r ≠ .error .out_of_fuel) :
    parse str = r := by
  subst h
  unfold parse
  rcases Nat.le_total fuel (3 * str.length + 3) with hle | hle
  · exact parse_loop_fuel_le _ _ hle _ _ hr
  · exact (parse_loop_fuel_le _ _ hle _ _ (parse_ne_out_of_fuel str)).symm

/-! ## Running the item parser and the rule loop on known text -/

theorem parse_string_ne_quote (s : Str) (h : s.head? ≠ some '"') :
    parse_string s = (none, s) := by
  unfold parse_string
  rw [parse_literal_single]
  cases s with
  | nil => rfl
  | cons d t =>
    have : d ≠ '"' := by simpa using h
    simp [this]

theorem is_identifier_takeWhile (n rest : Str) (hid : ∀ c ∈ n, is_identifier c = true)
    (hrest : ∀ c, rest.head? = some c → is_identifier c = false) :
    (n ++ rest).takeWhile is_identifier = n ∧ (n ++ rest).dropWhile is_identifier = rest := by
  induction n with
  | nil =>
    cases rest with
    | nil => simp
    | cons c rest =>
      have := hrest c rfl
      simp [List.takeWhile, List.dropWhile, this]
  | cons d n ih =>
    have hd := hid d (by simp)
    have := ih (fun c hc => hid c (by simp [hc]))
    simp [List.takeWhile, List.dropWhile, hd, this]

theorem parse_identifier_append (n rest : Str) (hn : n ≠ [])
    (hid : ∀ c ∈ n, is_identifier c = true)
    (hrest : ∀ c, rest.head? = some c → is_identifier c = false) :
    parse_identifier (n ++ rest) = (some n, rest) := by
  obtain ⟨h1, h2⟩ := is_identifier_takeWhile n rest hid hrest
  rw [parse_identifier_eq, h1, h2]
  simp [hn]

theorem parse_ruleitem_some_ne_nil (fuel : Nat) (s p : Str) (i : Nat) (r : RuleItem)
    (s1 : Str) (i1 : Nat) (h : parse_ruleitem fuel s p i = .ok (some r, s1, i1)) :
    is_eof s = false := by
  cases fuel with
  | zero => simp [parse_ruleitem] at h
  | succ fuel =>
    simp only [parse_ruleitem] at h
    split at h
    · simp at h
    · rename_i hs; simpa using hs

theorem parse_ruleitem_literal (fuel : Nat) (s p : Str) (i : Nat) (v s1 : Str)
    (h : parse_string s = (some v, s1)) :
    parse_ruleitem (fuel + 1) s p i = .ok (some (.of_literal v), s1, i) := by
  have hs : is_eof s = false := by
    cases s with
    | nil => simp [parse_string, parse_literal, is_eof] at h
    | cons c s => rfl
  simp [parse_ruleitem, hs, h]

theorem parse_ruleitem_identifier (fuel : Nat) (s p : Str) (i : Nat) (v s1 : Str)
    (hq : s.head? ≠ some '"') (h : parse_identifier s = (some v, s1)) :
    parse_ruleitem (fuel + 1) s p i = .ok (some (.of_identifier v), s1, i) := by
  have hs : is_eof s = false := by
    cases s with
    | nil => simp [parse_identifier, parse_identifier_loop] at h
    | cons c s => rfl
  simp [parse_ruleitem, hs, parse_string_ne_quote s hq, h]

theorem parse_group_paren (fuel : Nat) (s p : Str) (i : Nat) :
    parse_group (fuel + 1) ('(' :: s) p i =
      match parse_group_loop fuel (skip_whitespace s) (p ++ ['_', '$', 'g'] ++ to_string i) 0 [] with
      | .error a => .error a
      | .ok (seq, s1) => .ok (some (.mk (p ++ ['_', '$', 'g'] ++ to_string i) seq), s1, i + 1) := by
  simp [parse_group, parse_literal_single]

theorem parse_ruleitem_paren (fuel : Nat) (s p : Str) (i : Nat) :
    parse_ruleitem (fuel + 2) ('(' :: s) p i =
      match parse_group_loop fuel (skip_whitespace s) (p ++ ['_', '$', 'g'] ++ to_string i) 0 [] with
      | .error a => .error a
      | .ok (seq, s1) =>
        .ok (some (.of_group (.mk (p ++ ['_', '$', 'g'] ++ to_string i) seq)), s1, i + 1) := by
  have h1 : parse_string ('(' :: s) = (none, '(' :: s) := parse_string_ne_quote _ (by simp)
  have h2 : parse_identifier ('(' :: s) = (none, '(' :: s) := by
    rw [parse_identifier_eq]; simp [List.takeWhile, is_identifier]
  simp only [parse_ruleitem, is_eof, List.isEmpty_cons, Bool.false_eq_true, if_false, h1, h2,
    parse_group_paren]
  cases parse_group_loop fuel (skip_whitespace s) (p ++ ['_', '$', 'g'] ++ to_string i) 0 [] with
  | error a => rfl
  | ok v => rfl

/-- The five one-character tokens of `parse_ruleitem` (pgen.cpp 352-375). -/
theorem parse_ruleitem_marker (fuel : Nat) (c : Char) (t : RuleItemType) (s p : Str) (i : Nat)
    (h : (c = '|' ∧ t = .Or) ∨ (c = '*' ∧ t = .ZeroOrMore) ∨ (c = '+' ∧ t = .OneOrMore) ∨
      (c = '?' ∧ t = .ZeroOrOne) ∨ (c = '^' ∧ t = .Negate)) :
    parse_ruleitem (fuel + 2) (c :: s) p i = .ok (some (.marker t), s, i) := by
  have h1 : parse_string (c :: s) = (none, c :: s) :=
    parse_string_ne_quote _ (by rcases h with h | h | h | h | h <;> simp [h.1])
  have h2 : parse_identifier (c :: s) = (none, c :: s) := by
    rw [parse_identifier_eq]
    rcases h with h | h | h | h | h <;> simp [List.takeWhile, is_identifier, h.1]
  have h3 : parse_group (fuel + 1) (c :: s) p i = .ok (none, c :: s, i) := by
    simp only [parse_group, parse_literal_single]
    rcases h with h | h | h | h | h <;> simp [h.1]
  simp only [parse_ruleitem, is_eof, List.isEmpty_cons, Bool.false_eq_true, if_false, h1, h2, h3,
    parse_literal_single]
  rcases h with h | h | h | h | h <;> simp [h.1, h.2]

theorem parse_rule_loop_step (fuel : Nat) (s n : Str) (i : Nat) (seq seq1 : List RuleItem)
    (r : RuleItem) (s1 : Str) (i1 : Nat)
    (hr : parse_ruleitem fuel s n i = .ok (some r, s1, i1))
    (hf : fold_item seq r = .ok seq1) :
    parse_rule_loop (fuel + 1) s n i seq =
      match parse_two_newlines s1 with
      | (true, s2) => .ok (seq1, s2)
      | (false, s2) => parse_rule_loop fuel (skip_whitespace s2) n i1 seq1 := by
  have hs := parse_ruleitem_some_ne_nil _ _ _ _ _ _ _ hr
  simp only [parse_rule_loop, hs, Bool.false_eq_true, if_false, hr, hf]

theorem parse_group_loop_step (fuel : Nat) (s n : Str) (i : Nat) (seq seq1 : List RuleItem)
    (r : RuleItem) (s1 : Str) (i1 : Nat) (hp : s.head? ≠ some ')')
    (hr : parse_ruleitem fuel s n i = .ok (some r, s1, i1))
    (hf : fold_item seq r = .ok seq1) :
    parse_group_loop (fuel + 1) s n i seq =
      parse_group_loop fuel (skip_whitespace s1) n i1 seq1 := by
  have hs := parse_ruleitem_some_ne_nil _ _ _ _ _ _ _ hr
  have hl : parse_literal s [')'] = (false, s) := by
    rw [parse_literal_single]
    cases s with
    | nil => rfl
    | cons d t =>
      have : d ≠ ')' := by simpa using hp
      simp [this]
  simp only [parse_group_loop, hs, Bool.false_eq_true, if_false, hl, hr, hf]

theorem skip_whitespace_of_head (s : Str) (h : ∀ c, s.head? = some c → is_whitespace c = false) :
    skip_whitespace s = s := by
  cases s with
  | nil => rfl
  | cons c s => simp [skip_whitespace, h c rfl]

theorem skip_whitespace_append (w s : Str) (hw : ∀ c ∈ w, is_whitespace c = true) :
    skip_whitespace (w ++ s) = skip_whitespace s := by
  induction w with
  | nil => rfl
  | cons c w ih =>
    have hc := hw c (by simp)
    simp [skip_whitespace, hc, ih (fun d hd => hw d (by simp [hd]))]

theorem is_whitespace_blank (w : Str) (hw : ∀ c ∈ w, c = ' ' ∨ c = '\t') :
    ∀ c ∈ w, is_whitespace c = true := by
  intro c hc
  rcases hw c hc with h | h <;> simp [h, is_whitespace]

theorem is_identifier_not_whitespace (c : Char) (h : is_identifier c = true) :
    is_whitespace c = false := by
  cases hw : is_whitespace c with
  | false => rfl
  | true =>
    simp only [is_whitespace, Bool.or_eq_true, beq_iff_eq] at hw
    rcases hw with ((hw | hw) | hw) | hw <;> (subst hw; revert h; decide)

theorem parse_newline_of_head (s : Str)
    (h : ∀ c, s.head? = some c → c ≠ '\r' ∧ c ≠ '\n') : parse_newline s = (false, s) := by
  cases s with
  | nil => rfl
  | cons c s =>
    obtain ⟨h1, h2⟩ := h c rfl
    simp [parse_newline, h1, h2]

theorem parse_two_newlines_of_head (s : Str)
    (h : ∀ c, s.head? = some c → c ≠ '\r' ∧ c ≠ '\n') : parse_two_newlines s = (false, s) := by
  simp [parse_two_newlines, parse_newline_of_head s h]

theorem parse_ruleitem_fresh (fuel : Nat) (s p : Str) (i : Nat) (r : RuleItem) (s1 : Str)
    (i1 : Nat) (h : parse_ruleitem fuel s p i = .ok (some r, s1, i1)) :
    r = .mk r.type r.literal r.identifier r.group false false false := by
  cases fuel with
  | zero => simp [parse_ruleitem] at h
  | succ fuel =>
    simp only [parse_ruleitem] at h
    repeat' split at h
    all_goals first
      | (simp at h; done)
      | (simp only [Except.ok.injEq, Prod.mk.injEq, Option.some.injEq] at h
         rw [← h.1]; rfl)

theorem parse_ruleitem_head (fuel : Nat) (s p : Str) (i : Nat) (r : RuleItem) (s1 : Str)
    (i1 : Nat) (h : parse_ruleitem fuel s p i = .ok (some r, s1, i1)) :
    ∀ c, s.head? = some c → is_whitespace c = false := by
  intro c hc
  cases s with
  | nil => simp at hc
  | cons d t =>
    simp only [List.head?_cons, Option.some.injEq] at hc
    subst hc
    cases hw : is_whitespace d with
    | false => rfl
    | true =>
      exfalso
      cases fuel with
      | zero => simp [parse_ruleitem] at h
      | succ fuel =>
        have hd : d = ' ' ∨ d = '\t' ∨ d = '\r' ∨ d = '\n' := by
          simpa [is_whitespace, or_assoc] using hw
        have h1 : parse_string (d :: t) = (none, d :: t) :=
          parse_string_ne_quote _ (by rcases hd with h | h | h | h <;> simp [h])
        have h2 : parse_identifier (d :: t) = (none, d :: t) := by
          rw [parse_identifier_eq]
          rcases hd with h | h | h | h <;> simp [List.takeWhile, is_identifier, h]
        simp only [parse_ruleitem, is_eof, List.isEmpty_cons, Bool.false_eq_true, if_false,
          h1, h2] at h
        cases fuel with
        | zero => simp [parse_group] at h
        | succ fuel =>
          have h3 : parse_group (fuel + 1) (d :: t) p i = .ok (none, d :: t, i) := by
            simp only [parse_group, parse_literal_single]
            rcases hd with h | h | h | h <;> simp [h]
          simp only [h3, parse_literal_single] at h
          rcases hd with h' | h' | h' | h' <;> simp [h'] at h

theorem parse_ruleitem_head_ne_paren (fuel : Nat) (s p : Str) (i : Nat) (r : RuleItem)
    (s1 : Str) (i1 : Nat) (h : parse_ruleitem fuel s p i = .ok (some r, s1, i1)) :
    s.head? ≠ some ')' := by
  intro hc
  cases s with
  | nil => simp at hc
  | cons d t =>
    simp only [List.head?_cons, Option.some.injEq] at hc
    subst hc
    cases fuel with
    | zero => simp [parse_ruleitem] at h
    | succ fuel =>
      have h1 : parse_string (')' :: t) = (none, ')' :: t) := parse_string_ne_quote _ (by simp)
      have h2 : parse_identifier (')' :: t) = (none, ')' :: t) := by
        rw [parse_identifier_eq]; simp [List.takeWhile, is_identifier]
      simp only [parse_ruleitem, is_eof, List.isEmpty_cons, Bool.false_eq_true, if_false,
        h1, h2] at h
      cases fuel with
      | zero => simp [parse_group] at h
      | succ fuel =>
        have h3 : parse_group (fuel + 1) (')' :: t) p i = .ok (none, ')' :: t, i) := by
          simp [parse_group, parse_literal_single]
        simp [h3, parse_literal_single] at h

theorem is_identifier_false_of_whitespace (c : Char) (h : is_whitespace c = true) :
    is_identifier c = false := by
  cases hi : is_identifier c with
  | false => rfl
  | true => rw [is_identifier_not_whitespace c hi] at h; simp at h

theorem parse_rule_of_loop (fuel : Nat) (n w body : Str) (seq : List RuleItem) (s1 : Str)
    (hn : n ≠ []) (hid : ∀ c ∈ n, is_identifier c = true)
    (hw : ∀ c ∈ w, is_whitespace c = true)
    (hl : parse_rule_loop fuel (skip_whitespace body) n 0 [] = .ok (seq, s1))
    (hseq : seq ≠ []) :
    parse_rule fuel (n ++ w ++ [':'] ++ body) = .ok (some ⟨n, seq⟩, s1) := by
  have h1 : parse_identifier (n ++ (w ++ ':' :: body)) = (some n, w ++ ':' :: body) := by
    apply parse_identifier_append n _ hn hid
    intro c hc
    cases w with
    | nil =>
      simp only [List.nil_append, List.head?_cons, Option.some.injEq] at hc
      subst hc; decide
    | cons d w =>
      simp only [List.cons_append, List.head?_cons, Option.some.injEq] at hc
      subst hc
      exact is_identifier_false_of_whitespace _ (hw _ (by simp))
  have h2 : skip_whitespace (w ++ ':' :: body) = ':' :: body := by
    rw [skip_whitespace_append _ _ hw]
    exact skip_whitespace_of_head _ (by intro c hc; simp at hc; subst hc; decide)
  have hne : seq.isEmpty = false := by
    cases seq with
    | nil => exact absurd rfl hseq
    | cons a l => rfl
  simp only [List.append_assoc, List.singleton_append, parse_rule, h1, h2, parse_literal_single,
    if_true, hl, hne, Bool.false_eq_true, if_false]

theorem parse_loop_rule (fuel : Nat) (s : Str) (result : List Rule) (rule : Rule) (s1 : Str)
    (hs : is_eof s = false) (hh : s.head? ≠ some '#')
    (hr : parse_rule fuel s = .ok (some rule, s1)) :
    parse_loop (fuel + 1) s result = parse_loop fuel (skip_whitespace s1) (result ++ [rule]) := by
  have hl : parse_literal s ['#'] = (false, s) := by
    rw [parse_literal_single]
    cases s with
    | nil => rfl
    | cons d t =>
      have : d ≠ '#' := by simpa using hh
      simp [this]
  simp only [parse_loop, hs, Bool.false_eq_true, if_false, hl, hr]

theorem parse_loop_nil (fuel : Nat) (result : List Rule) :
    parse_loop (fuel + 1) [] result = .ok result := by
  simp [parse_loop, is_eof]

theorem parse_rule_loop_nil (fuel : Nat) (n : Str) (i : Nat) (seq : List RuleItem) :
    parse_rule_loop (fuel + 1) [] n i seq = .ok (seq, []) := by
  simp [parse_rule_loop, is_eof]

theorem head_identifier (n rest : Str) (hn : n ≠ []) (hid : ∀ c ∈ n, is_identifier c = true) :
    ∃ c, (n ++ rest).head? = some c ∧ is_identifier c = true := by
  cases n with
  | nil => exact absurd rfl hn
  | cons c n => exact ⟨c, rfl, hid c (by simp)⟩

/-- A text that is one rule, a name, a colon and a body the rule loop reads to the end
of the input, parses to that one rule. -/
theorem parse_one_rule (fuel : Nat) (n w body : Str) (seq : List RuleItem)
    (hn : n ≠ []) (hid : ∀ c ∈ n, is_identifier c = true)
    (hw : ∀ c ∈ w, is_whitespace c = true)
    (hl : parse_rule_loop fuel (skip_whitespace body) n 0 [] = .ok (seq, []))
    (hseq : seq ≠ []) :
    parse (n ++ w ++ [':'] ++ body) = .ok [⟨n, seq⟩] := by
  apply parse_eq_of_fuel (fuel + 2) _ _ _ (by simp)
  obtain ⟨c, hc, hci⟩ := head_identifier n (w ++ [':'] ++ body) hn hid
  have hcw := is_identifier_not_whitespace c hci
  have hsk : skip_whitespace (n ++ w ++ [':'] ++ body) = n ++ w ++ [':'] ++ body := by
    apply skip_whitespace_of_head
    intro d hd
    simp only [List.append_assoc] at hd hc
    rw [hc] at hd
    simp only [Option.some.injEq] at hd
    subst hd; exact hcw
  rw [hsk]
  have hr := parse_rule_of_loop (fuel + 1) n w body seq [] hn hid hw
    (by rw [parse_rule_loop_fuel_le fuel (fuel + 1) (by omega) _ _ _ _ (by rw [hl]; simp), hl])
    hseq
  rw [parse_loop_rule (fuel + 1) _ [] _ _ ?_ ?_ hr]
  · simp [skip_whitespace, parse_loop_nil]
  · cases n with
    | nil => exact absurd rfl hn
    | cons c n => rfl
  · simp only [List.append_assoc] at hc ⊢
    rw [hc]
    intro h
    simp only [Option.some.injEq] at h
    subst h
    revert hci; decide

/-! ## Quantifier and negation markers -/

theorem fold_item_push (seq : List RuleItem) (r : RuleItem)
    (h : r.type = .Literal ∨ r.type = .Identifier ∨ r.type = .Group ∨ r.type = .Or) :
    fold_item seq r = .ok (seq ++ [r]) := by
  unfold fold_item
  rcases h with h | h | h | h <;> simp [h]

theorem update_back_append (seq : List RuleItem) (b : RuleItem) (f : RuleItem → RuleItem) :
    update_back (seq ++ [b]) f = seq ++ [f b] := by
  simp [update_back]

theorem update_back_singleton (b : RuleItem) (f : RuleItem → RuleItem) :
    update_back [b] f = [f b] := rfl

theorem update_back_nil (f : RuleItem → RuleItem) : update_back [] f = [] := rfl

/-- C3. Quantifier folding: for every rule text `n: X q`, where the item parser reads `X` as
one item `it` of type literal, identifier or group and `q` is one of `*`, `+`, `?`
(blanks allowed after the colon and between `X` and `q`), `parse` returns the single
rule `n` whose sequence holds exactly one item, `it` itself with no marker item, with
`optional = true, multiple = true` for `*`, `multiple = true, optional = false` for `+`
and `optional = true, multiple = false` for `?`. -/
theorem quantifier_folding (n w0 X w : Str) (q : Char) (fuel : Nat) (it : RuleItem) (gid : Nat)
    (hn : n ≠ []) (hid : ∀ c ∈ n, is_identifier c = true)
    (hw0 : ∀ c ∈ w0, c = ' ' ∨ c = '\t') (hw : ∀ c ∈ w, c = ' ' ∨ c = '\t')
    (hq : q = '*' ∨ q = '+' ∨ q = '?')
    (hX : parse_ruleitem fuel (X ++ w ++ [q]) n 0 = .ok (some it, w ++ [q], gid))
    (ht : it.type = .Literal ∨ it.type = .Identifier ∨ it.type = .Group) :
    parse (n ++ [':'] ++ w0 ++ X ++ w ++ [q]) =
      .ok [⟨n, [.mk it.type it.literal it.identifier it.group
        (q == '*' || q == '?') (q == '*' || q == '+') false]⟩] := by
  have hfresh := parse_ruleitem_fresh _ _ _ _ _ _ _ hX
  obtain ⟨t, l, i, g, o, m, ng⟩ := it
  simp only [RuleItem.type, RuleItem.literal, RuleItem.identifier, RuleItem.group,
    RuleItem.mk.injEq, true_and] at hfresh ht ⊢
  obtain ⟨rfl, rfl, rfl⟩ := hfresh
  generalize hit : RuleItem.mk t l i g false false false = it at hX
  have ht : it.type = .Literal ∨ it.type = .Identifier ∨ it.type = .Group := by
    rw [← hit]; exact ht
  have hhead := parse_ruleitem_head _ _ _ _ _ _ _ hX
  have hqnl : q ≠ '\r' ∧ q ≠ '\n' ∧ is_whitespace q = false := by
    rcases hq with h | h | h <;> subst h <;> decide
  have hbody : skip_whitespace (w0 ++ (X ++ w ++ [q])) = X ++ w ++ [q] := by
    rw [skip_whitespace_append _ _ (is_whitespace_blank w0 hw0)]
    exact skip_whitespace_of_head _ hhead
  have htn : parse_two_newlines (w ++ [q]) = (false, w ++ [q]) := by
    apply parse_two_newlines_of_head
    intro c hc
    cases w with
    | nil =>
      simp only [List.nil_append, List.head?_cons, Option.some.injEq] at hc
      subst hc; exact ⟨hqnl.1, hqnl.2.1⟩
    | cons d w =>
      simp only [List.cons_append, List.head?_cons, Option.some.injEq] at hc
      subst hc
      rcases hw d (by simp) with h | h <;> subst h <;> decide
  have hsk : skip_whitespace (w ++ [q]) = [q] := by
    rw [skip_whitespace_append _ _ (is_whitespace_blank w hw)]
    exact skip_whitespace_of_head _ (by intro c hc; simp at hc; subst hc; exact hqnl.2.2)
  have hX2 : parse_ruleitem (fuel + 3) (X ++ w ++ [q]) n 0 = .ok (some it, w ++ [q], gid) := by
    rw [parse_ruleitem_fuel_le fuel (fuel + 3) (by omega) _ _ _ (by rw [hX]; simp), hX]
  have hloop : parse_rule_loop (fuel + 4) (skip_whitespace (w0 ++ (X ++ w ++ [q]))) n 0 [] =
      .ok ([.mk t l i g (q == '*' || q == '?') (q == '*' || q == '+') false], []) := by
    rw [hbody, parse_rule_loop_step (fuel + 3) _ _ _ [] [it] it _ _ hX2
      (by simpa using fold_item_push [] it (by tauto))]
    simp only [htn, hsk]
    rcases hq with h | h | h <;> subst h
    · rw [parse_rule_loop_step (fuel + 2) _ _ _ [it] _ _ _ _
        (parse_ruleitem_marker fuel '*' .ZeroOrMore [] n gid (by simp)) rfl]
      simp only [parse_two_newlines, parse_newline, skip_whitespace, parse_rule_loop_nil]
      rw [update_back_singleton, ← hit]; rfl
    · rw [parse_rule_loop_step (fuel + 2) _ _ _ [it] _ _ _ _
        (parse_ruleitem_marker fuel '+' .OneOrMore [] n gid (by simp)) rfl]
      simp only [parse_two_newlines, parse_newline, skip_whitespace, parse_rule_loop_nil]
      rw [update_back_singleton, ← hit]; rfl
    · rw [parse_rule_loop_step (fuel + 2) _ _ _ [it] _ _ _ _
        (parse_ruleitem_marker fuel '?' .ZeroOrOne [] n gid (by simp)) rfl]
      simp only [parse_two_newlines, parse_newline, skip_whitespace, parse_rule_loop_nil]
      rw [update_back_singleton, ← hit]; rfl
  have := parse_one_rule (fuel + 4) n [] (w0 ++ (X ++ w ++ [q])) _ hn hid (by simp) hloop
    (by simp)
  simpa [List.append_assoc] using this

/-- The spec's examples `"a"*`, `"a"+`, `"a"?` in the rule `r`, and an identifier and a
group under `*`. -/
theorem quantifier_folding_witness :
    parse "r: \"a\"*".toList =
      .ok [⟨['r'], [.mk .Literal ['a'] [] (.mk [] []) true true false]⟩] ∧
    parse "r: \"a\"+".toList =
      .ok [⟨['r'], [.mk .Literal ['a'] [] (.mk [] []) false true false]⟩] ∧
    parse "r: \"a\"?".toList =
      .ok [⟨['r'], [.mk .Literal ['a'] [] (.mk [] []) true false false]⟩] ∧
    parse "r:id *".toList =
      .ok [⟨['r'], [.mk .Identifier [] ['i', 'd'] (.mk [] []) true true false]⟩] ∧
    parse "r: (\"a\")*".toList =
      .ok [⟨['r'], [.mk .Group [] [] (.mk "r_$g0".toList [.of_literal ['a']])
        true true false]⟩] :=
  ⟨quantifier_folding ['r'] [' '] "\"a\"".toList [] '*' 5 (.of_literal ['a']) 0
      (by decide) (by decide) (by decide) (by decide) (by decide) (by rfl) (by decide),
    quantifier_folding ['r'] [' '] "\"a\"".toList [] '+' 5 (.of_literal ['a']) 0
      (by decide) (by decide) (by decide) (by decide) (by decide) (by rfl) (by decide),
    quantifier_folding ['r'] [' '] "\"a\"".toList [] '?' 5 (.of_literal ['a']) 0
      (by decide) (by decide) (by decide) (by decide) (by decide) (by rfl) (by decide),
    quantifier_folding ['r'] [] "id".toList [' '] '*' 5 (.of_identifier ['i', 'd']) 0
      (by decide) (by decide) (by decide) (by decide) (by decide) (by rfl) (by decide),
    quantifier_folding ['r'] [' '] "(\"a\")".toList [] '*' 5
      (.of_group (.mk "r_$g0".toList [.of_literal ['a']])) 1
      (by decide) (by decide) (by decide) (by decide) (by decide) (by rfl) (by decide)⟩

/-- C4, counterexample. In `r: * "a"` and in `r: (+ "a")` a quantifier is the first item of
a rule body and of a group body, and `parse` returns a rule list; it does not abort. -/
theorem quantifier_first_counterexample :
    parse "r: * \"a\"".toList = .ok [⟨['r'], [.of_literal ['a']]⟩] ∧
    parse "r: (+ \"a\")".toList =
      .ok [⟨['r'], [.of_group (.mk "r_$g0".toList [.of_literal ['a']])]⟩] ∧
    (∀ a, parse "r: * \"a\"".toList ≠ .error a) ∧
    (∀ a, parse "r: (+ \"a\")".toList ≠ .error a) := by
  have h1 : parse "r: * \"a\"".toList = .ok [⟨['r'], [.of_literal ['a']]⟩] := by rfl
  have h2 : parse "r: (+ \"a\")".toList =
      .ok [⟨['r'], [.of_group (.mk "r_$g0".toList [.of_literal ['a']])]⟩] := by rfl
  refine ⟨h1, h2, ?_, ?_⟩
  · intro a h; rw [h1] at h; simp at h
  · intro a h; rw [h2] at h; simp at h

theorem quantifier_first_in_loops (fuel : Nat) (q : Char) (rest name : Str) (gid : Nat)
    (hq : q = '*' ∨ q = '+' ∨ q = '?') :
    parse_rule_loop (fuel + 3) (q :: rest) name gid [] =
      (match parse_two_newlines rest with
      | (true, s) => .ok ([], s)
      | (false, s) => parse_rule_loop (fuel + 2) (skip_whitespace s) name gid []) ∧
    parse_group_loop (fuel + 3) (q :: rest) name gid [] =
      parse_group_loop (fuel + 2) (skip_whitespace rest) name gid [] := by
  rcases hq with h | h | h <;> subst h
  · exact ⟨parse_rule_loop_step (fuel + 2) _ _ _ [] [] _ _ _
        (parse_ruleitem_marker fuel '*' .ZeroOrMore rest name gid (by simp)) rfl,
      parse_group_loop_step (fuel + 2) _ _ _ [] [] _ _ _ (by simp)
        (parse_ruleitem_marker fuel '*' .ZeroOrMore rest name gid (by simp)) rfl⟩
  · exact ⟨parse_rule_loop_step (fuel + 2) _ _ _ [] [] _ _ _
        (parse_ruleitem_marker fuel '+' .OneOrMore rest name gid (by simp)) rfl,
      parse_group_loop_step (fuel + 2) _ _ _ [] [] _ _ _ (by simp)
        (parse_ruleitem_marker fuel '+' .OneOrMore rest name gid (by simp)) rfl⟩
  · exact ⟨parse_rule_loop_step (fuel + 2) _ _ _ [] [] _ _ _
        (parse_ruleitem_marker fuel '?' .ZeroOrOne rest name gid (by simp)) rfl,
      parse_group_loop_step (fuel + 2) _ _ _ [] [] _ _ _ (by simp)
        (parse_ruleitem_marker fuel '?' .ZeroOrOne rest name gid (by simp)) rfl⟩

/-- C4, amended. A quantifier marker (`*`, `+` or `?`) that is the first item of a rule body
or of a group body is no error: under the guard `if (!result.seq.empty())` nothing is
changed, the marker is dropped, and the loop goes on with the sequence still empty (in a
rule after the test for a blank line, in a group after the white space). So the rule
`n: q X`, with `X` read by the item parser as one literal, identifier or group, parses to
the rule `n` with that one item, and `n: (q X)` to the rule with the group of that one
item. -/
theorem quantifier_first_is_dropped :
    (∀ (fuel : Nat) (q : Char) (rest name : Str) (gid : Nat),
      (q = '*' ∨ q = '+' ∨ q = '?') →
      parse_rule_loop (fuel + 3) (q :: rest) name gid [] =
        (match parse_two_newlines rest with
        | (true, s) => .ok ([], s)
        | (false, s) => parse_rule_loop (fuel + 2) (skip_whitespace s) name gid []) ∧
      parse_group_loop (fuel + 3) (q :: rest) name gid [] =
        parse_group_loop (fuel + 2) (skip_whitespace rest) name gid []) ∧
    (∀ (fuel : Nat) (q : Char) (n w0 X : Str) (it : RuleItem) (gid : Nat),
      (q = '*' ∨ q = '+' ∨ q = '?') →
      n ≠ [] → (∀ c ∈ n, is_identifier c = true) → (∀ c ∈ w0, c = ' ' ∨ c = '\t') →
      parse_ruleitem fuel X n 0 = .ok (some it, [], gid) →
      (it.type = .Literal ∨ it.type = .Identifier ∨ it.type = .Group) →
      parse (n ++ [':'] ++ w0 ++ [q, ' '] ++ X) = .ok [⟨n, [it]⟩]) ∧
    (∀ (fuel : Nat) (q : Char) (n w0 X : Str) (it : RuleItem) (gid : Nat),
      (q = '*' ∨ q = '+' ∨ q = '?') →
      n ≠ [] → (∀ c ∈ n, is_identifier c = true) → (∀ c ∈ w0, c = ' ' ∨ c = '\t') →
      parse_ruleitem fuel (X ++ [')']) (n ++ ['_', '$', 'g'] ++ to_string 0) 0 =
        .ok (some it, [')'], gid) →
      (it.type = .Literal ∨ it.type = .Identifier ∨ it.type = .Group) →
      parse (n ++ [':'] ++ w0 ++ ['(', q, ' '] ++ X ++ [')']) =
        .ok [⟨n, [.of_group (.mk (n ++ ['_', '$', 'g'] ++ to_string 0) [it])]⟩]) := by
  refine ⟨quantifier_first_in_loops, ?_, ?_⟩
  · intro fuel q n w0 X it gid hq hn hid hw0 hX ht
    have hqw : is_whitespace q = false := by rcases hq with h | h | h <;> subst h <;> decide
    have hbody : skip_whitespace (w0 ++ (q :: ' ' :: X)) = q :: ' ' :: X := by
      rw [skip_whitespace_append _ _ (is_whitespace_blank w0 hw0)]
      exact skip_whitespace_of_head _ (by intro c hc; simp at hc; subst hc; exact hqw)
    have hX2 : parse_ruleitem (fuel + 3) X n 0 = .ok (some it, [], gid) := by
      rw [parse_ruleitem_fuel_le fuel (fuel + 3) (by omega) _ _ _ (by rw [hX]; simp), hX]
    have hsk : skip_whitespace (' ' :: X) = X := by
      rw [skip_whitespace]
      simp only [is_whitespace, beq_self_eq_true, Bool.true_or, if_true]
      exact skip_whitespace_of_head _ (parse_ruleitem_head _ _ _ _ _ _ _ hX)
    have hloop : parse_rule_loop (fuel + 5) (skip_whitespace (w0 ++ (q :: ' ' :: X))) n 0 [] =
        .ok ([it], []) := by
      rw [hbody, (quantifier_first_in_loops (fuel + 2) q (' ' :: X) n 0 hq).1,
        parse_two_newlines_of_head _ (by intro c hc; simp at hc; subst hc; decide)]
      simp only
      rw [hsk, parse_rule_loop_step (fuel + 3) _ _ _ [] [it] it _ _ hX2
        (by simpa using fold_item_push [] it (by tauto))]
      simp [parse_two_newlines, parse_newline, skip_whitespace, parse_rule_loop_nil]
    have := parse_one_rule (fuel + 5) n [] (w0 ++ (q :: ' ' :: X)) _ hn hid (by simp) hloop
      (by simp)
    simpa [List.append_assoc] using this
  · intro fuel q n w0 X it gid hq hn hid hw0 hX ht
    have hqw : is_whitespace q = false := by rcases hq with h | h | h <;> subst h <;> decide
    have hbody : skip_whitespace (w0 ++ ('(' :: q :: ' ' :: (X ++ [')']))) =
        '(' :: q :: ' ' :: (X ++ [')']) := by
      rw [skip_whitespace_append _ _ (is_whitespace_blank w0 hw0)]
      exact skip_whitespace_of_head _ (by intro c hc; simp at hc; subst hc; decide)
    have hX2 : parse_ruleitem (fuel + 3) (X ++ [')']) (n ++ ['_', '$', 'g'] ++ to_string 0) 0 =
        .ok (some it, [')'], gid) := by
      rw [parse_ruleitem_fuel_le fuel (fuel + 3) (by omega) _ _ _ (by rw [hX]; simp), hX]
    have hsk : skip_whitespace (' ' :: (X ++ [')'])) = X ++ [')'] := by
      rw [skip_whitespace]
      simp only [is_whitespace, beq_self_eq_true, Bool.true_or, if_true]
      exact skip_whitespace_of_head _ (parse_ruleitem_head _ _ _ _ _ _ _ hX)
    have hgl : parse_group_loop (fuel + 5) (q :: ' ' :: (X ++ [')']))
        (n ++ ['_', '$', 'g'] ++ to_string 0) 0 [] = .ok ([it], []) := by
      rw [(quantifier_first_in_loops (fuel + 2) q (' ' :: (X ++ [')'])) _ 0 hq).2, hsk,
        parse_group_loop_step (fuel + 3) _ _ _ [] [it] it _ _
          (parse_ruleitem_head_ne_paren _ _ _ _ _ _ _ hX) hX2
          (by simpa using fold_item_push [] it (by tauto))]
      simp [skip_whitespace, is_whitespace, parse_group_loop, is_eof, parse_literal_single]
    have hitem : parse_ruleitem (fuel + 7) ('(' :: q :: ' ' :: (X ++ [')'])) n 0 =
        .ok (some (.of_group (.mk (n ++ ['_', '$', 'g'] ++ to_string 0) [it])), [], 1) := by
      rw [parse_ruleitem_paren, skip_whitespace_of_head (q :: ' ' :: (X ++ [')']))
        (by intro c hc; simp at hc; subst hc; exact hqw), hgl]
    have hloop : parse_rule_loop (fuel + 8)
        (skip_whitespace (w0 ++ ('(' :: q :: ' ' :: (X ++ [')'])))) n 0 [] =
        .ok ([.of_group (.mk (n ++ ['_', '$', 'g'] ++ to_string 0) [it])], []) := by
      rw [hbody, parse_rule_loop_step (fuel + 7) _ _ _ []
        [.of_group (.mk (n ++ ['_', '$', 'g'] ++ to_string 0) [it])] _ _ _ hitem rfl]
      simp [parse_two_newlines, parse_newline, skip_whitespace, parse_rule_loop_nil]
    have := parse_one_rule (fuel + 8) n [] (w0 ++ ('(' :: q :: ' ' :: (X ++ [')']))) _ hn hid
      (by simp) hloop (by simp)
    simpa [List.append_assoc] using this

/-- The rule loop on `* "a"` with an empty sequence goes on behind the marker and stores
the literal alone; `r: * "a"` and `r: (+ "a")` parse to the rule with the literal and
with the group of the literal. -/
theorem quantifier_first_is_dropped_witness :
    parse_rule_loop 5 "* \"a\"".toList ['r'] 0 [] = .ok ([.of_literal ['a']], []) ∧
    parse "r: * \"a\"".toList = .ok [⟨['r'], [.of_literal ['a']]⟩] ∧
    parse "r: (+ \"a\")".toList =
      .ok [⟨['r'], [.of_group (.mk "r_$g0".toList [.of_literal ['a']])]⟩] :=
  ⟨((quantifier_first_is_dropped.1 2 '*' " \"a\"".toList ['r'] 0 (by decide)).1).trans (by rfl),
    quantifier_first_is_dropped.2.1 3 '*' ['r'] [' '] "\"a\"".toList (.of_literal ['a']) 0
      (by decide) (by decide) (by decide) (by decide) (by rfl) (by decide),
    quantifier_first_is_dropped.2.2 3 '+' ['r'] [' '] "\"a\"".toList (.of_literal ['a']) 0
      (by decide) (by decide) (by decide) (by decide) (by rfl) (by decide)⟩

theorem fold_item_negate_append (seq : List RuleItem) (b : RuleItem) :
    fold_item (seq ++ [b]) (.marker .Negate) =
      if b.type ≠ .Literal then .error .throw_2 else .ok (seq ++ [b.set_negate]) := by
  simp [fold_item, RuleItem.marker, RuleItem.type]

theorem parse_rule_of_loop_error (fuel : Nat) (n w body : Str) (a : Abort)
    (hn : n ≠ []) (hid : ∀ c ∈ n, is_identifier c = true)
    (hw : ∀ c ∈ w, is_whitespace c = true)
    (hl : parse_rule_loop fuel (skip_whitespace body) n 0 [] = .error a) :
    parse_rule fuel (n ++ w ++ [':'] ++ body) = .error a := by
  have h1 : parse_identifier (n ++ (w ++ ':' :: body)) = (some n, w ++ ':' :: body) := by
    apply parse_identifier_append n _ hn hid
    intro c hc
    cases w with
    | nil =>
      simp only [List.nil_append, List.head?_cons, Option.some.injEq] at hc
      subst hc; decide
    | cons d w =>
      simp only [List.cons_append, List.head?_cons, Option.some.injEq] at hc
      subst hc
      exact is_identifier_false_of_whitespace _ (hw _ (by simp))
  have h2 : skip_whitespace (w ++ ':' :: body) = ':' :: body := by
    rw [skip_whitespace_append _ _ hw]
    exact skip_whitespace_of_head _ (by intro c hc; simp at hc; subst hc; decide)
  simp only [List.append_assoc, List.singleton_append, parse_rule, h1, h2, parse_literal_single,
    if_true, hl]

/-- A text that starts with a rule whose body makes the rule loop leave by an exception
makes `parse` leave by that exception. -/
theorem parse_one_rule_error (fuel : Nat) (n w body : Str) (a : Abort)
    (hn : n ≠ []) (hid : ∀ c ∈ n, is_identifier c = true)
    (hw : ∀ c ∈ w, is_whitespace c = true)
    (hl : parse_rule_loop fuel (skip_whitespace body) n 0 [] = .error a)
    (ha : a ≠ .out_of_fuel) :
    parse (n ++ w ++ [':'] ++ body) = .error a := by
  apply parse_eq_of_fuel (fuel + 1) _ _ _ (by simpa using ha)
  obtain ⟨c, hc, hci⟩ := head_identifier n (w ++ [':'] ++ body) hn hid
  have hcw := is_identifier_not_whitespace c hci
  have hsk : skip_whitespace (n ++ w ++ [':'] ++ body) = n ++ w ++ [':'] ++ body := by
    apply skip_whitespace_of_head
    intro d hd
    simp only [List.append_assoc] at hd hc
    rw [hc] at hd
    simp only [Option.some.injEq] at hd
    subst hd; exact hcw
  rw [hsk]
  have hr := parse_rule_of_loop_error fuel n w body a hn hid hw hl
  have hs : is_eof (n ++ w ++ [':'] ++ body) = false := by
    cases n with
    | nil => exact absurd rfl hn
    | cons c n => rfl
  have hl : parse_literal (n ++ w ++ [':'] ++ body) ['#'] = (false, n ++ w ++ [':'] ++ body) := by
    rw [parse_literal_single]
    simp only [List.append_assoc] at hc ⊢
    cases hx : n ++ (w ++ ([':'] ++ body)) with
    | nil => rfl
    | cons d t =>
      rw [hx] at hc
      simp only [List.head?_cons, Option.some.injEq] at hc
      subst hc
      have : d ≠ '#' := by rintro rfl; revert hci; decide
      simp [this]
  simp only [parse_loop, hs, Bool.false_eq_true, if_false, hl, hr]

theorem parse_rule_loop_step_error (fuel : Nat) (s n : Str) (i : Nat) (seq : List RuleItem)
    (r : RuleItem) (s1 : Str) (i1 : Nat) (a : Abort)
    (hr : parse_ruleitem fuel s n i = .ok (some r, s1, i1))
    (hf : fold_item seq r = .error a) :
    parse_rule_loop (fuel + 1) s n i seq = .error a := by
  have hs := parse_ruleitem_some_ne_nil _ _ _ _ _ _ _ hr
  simp only [parse_rule_loop, hs, Bool.false_eq_true, if_false, hr, hf]

theorem parse_rule_loop_item_error (fuel : Nat) (s n : Str) (i : Nat) (seq : List RuleItem)
    (a : Abort) (hs : is_eof s = false) (hr : parse_ruleitem fuel s n i = .error a) :
    parse_rule_loop (fuel + 1) s n i seq = .error a := by
  simp only [parse_rule_loop, hs, Bool.false_eq_true, if_false, hr]

theorem negate_in_loops (fuel : Nat) (rest name : Str) (gid : Nat)
    (seq : List RuleItem) (b : RuleItem) :
    (b.type = .Literal →
      parse_rule_loop (fuel + 3) ('^' :: rest) name gid (seq ++ [b]) =
        (match parse_two_newlines rest with
        | (true, s) => .ok (seq ++ [b.set_negate], s)
        | (false, s) =>
          parse_rule_loop (fuel + 2) (skip_whitespace s) name gid (seq ++ [b.set_negate])) ∧
      parse_group_loop (fuel + 3) ('^' :: rest) name gid (seq ++ [b]) =
        parse_group_loop (fuel + 2) (skip_whitespace rest) name gid (seq ++ [b.set_negate])) ∧
    (b.type = .Identifier ∨ b.type = .Group →
      parse_rule_loop (fuel + 3) ('^' :: rest) name gid (seq ++ [b]) = .error .throw_2 ∧
      parse_group_loop (fuel + 3) ('^' :: rest) name gid (seq ++ [b]) = .error .throw_2) := by
  have hm := parse_ruleitem_marker fuel '^' .Negate rest name gid (by simp)
  constructor
  · intro hb
    have hf : fold_item (seq ++ [b]) (.marker .Negate) = .ok (seq ++ [b.set_negate]) := by
      rw [fold_item_negate_append]; simp [hb]
    exact ⟨parse_rule_loop_step (fuel + 2) _ _ _ _ _ _ _ _ hm hf,
      parse_group_loop_step (fuel + 2) _ _ _ _ _ _ _ _ (by simp) hm hf⟩
  · intro hb
    have hf : fold_item (seq ++ [b]) (.marker .Negate) = .error .throw_2 := by
      rw [fold_item_negate_append]
      rcases hb with hb | hb <;> simp [hb]
    constructor
    · simp [parse_rule_loop, is_eof, hm, hf]
    · simp [parse_group_loop, is_eof, parse_literal_single, hm, hf]

theorem negate_after_item_rule (fuel : Nat) (n X rest : Str) (it : RuleItem) (gid : Nat)
    (hX : parse_ruleitem fuel (X ++ '^' :: rest) n 0 = .ok (some it, '^' :: rest, gid))
    (ht : it.type = .Literal ∨ it.type = .Identifier ∨ it.type = .Group) :
    parse_rule_loop (fuel + 4) (X ++ '^' :: rest) n 0 [] =
      parse_rule_loop (fuel + 3) ('^' :: rest) n gid ([] ++ [it]) := by
  have hX2 : parse_ruleitem (fuel + 3) (X ++ '^' :: rest) n 0 = .ok (some it, '^' :: rest, gid) := by
    rw [parse_ruleitem_fuel_le fuel (fuel + 3) (by omega) _ _ _ (by rw [hX]; simp), hX]
  rw [parse_rule_loop_step (fuel + 3) _ _ _ [] [it] it _ _ hX2
    (by simpa using fold_item_push [] it (by tauto)),
    parse_two_newlines_of_head _ (by intro c hc; simp at hc; subst hc; decide)]
  simp [skip_whitespace, is_whitespace]

theorem negate_after_item_group (fuel : Nat) (P X rest : Str) (it : RuleItem) (gid : Nat)
    (hX : parse_ruleitem fuel (X ++ '^' :: rest) P 0 = .ok (some it, '^' :: rest, gid))
    (ht : it.type = .Literal ∨ it.type = .Identifier ∨ it.type = .Group) :
    parse_group_loop (fuel + 4) (X ++ '^' :: rest) P 0 [] =
      parse_group_loop (fuel + 3) ('^' :: rest) P gid ([] ++ [it]) := by
  have hX2 : parse_ruleitem (fuel + 3) (X ++ '^' :: rest) P 0 = .ok (some it, '^' :: rest, gid) := by
    rw [parse_ruleitem_fuel_le fuel (fuel + 3) (by omega) _ _ _ (by rw [hX]; simp), hX]
  rw [parse_group_loop_step (fuel + 3) _ _ _ [] [it] it _ _
    (parse_ruleitem_head_ne_paren _ _ _ _ _ _ _ hX) hX2
    (by simpa using fold_item_push [] it (by tauto))]
  simp [skip_whitespace, is_whitespace]

/-- C5. Negation is legal only on a literal. (1) In the rule loop and in the group loop,
with any sequence `seq ++ [b]` stored so far and the cursor at a `^`: when the last stored
item `b` is a Literal its `negate` flag is set and the loop goes on behind the marker;
when `b` is an Identifier or a Group the loop leaves by `throw 2`. (2) For a rule `n: X^`
whose `X` the item parser reads as one Literal, `parse` returns the rule with that
literal negated. (3) For every text that begins with a rule `n: X^` whose `X` is read as
an Identifier or a Group, and (4) for every text that begins with `n: (X^` with such an
`X` inside the group, `parse` aborts by `throw 2`. -/
theorem negate_only_on_literal :
    (∀ (fuel : Nat) (rest name : Str) (gid : Nat) (seq : List RuleItem) (b : RuleItem),
      (b.type = .Literal →
        parse_rule_loop (fuel + 3) ('^' :: rest) name gid (seq ++ [b]) =
          (match parse_two_newlines rest with
          | (true, s) => .ok (seq ++ [b.set_negate], s)
          | (false, s) =>
            parse_rule_loop (fuel + 2) (skip_whitespace s) name gid (seq ++ [b.set_negate])) ∧
        parse_group_loop (fuel + 3) ('^' :: rest) name gid (seq ++ [b]) =
          parse_group_loop (fuel + 2) (skip_whitespace rest) name gid
            (seq ++ [b.set_negate])) ∧
      (b.type = .Identifier ∨ b.type = .Group →
        parse_rule_loop (fuel + 3) ('^' :: rest) name gid (seq ++ [b]) = .error .throw_2 ∧
        parse_group_loop (fuel + 3) ('^' :: rest) name gid (seq ++ [b]) = .error .throw_2)) ∧
    (∀ (fuel : Nat) (n w0 X : Str) (it : RuleItem) (gid : Nat),
      n ≠ [] → (∀ c ∈ n, is_identifier c = true) → (∀ c ∈ w0, c = ' ' ∨ c = '\t') →
      parse_ruleitem fuel (X ++ ['^']) n 0 = .ok (some it, ['^'], gid) →
      it.type = .Literal →
      parse (n ++ [':'] ++ w0 ++ X ++ ['^']) = .ok [⟨n, [it.set_negate]⟩]) ∧
    (∀ (fuel : Nat) (n w0 X rest : Str) (it : RuleItem) (gid : Nat),
      n ≠ [] → (∀ c ∈ n, is_identifier c = true) → (∀ c ∈ w0, c = ' ' ∨ c = '\t') →
      parse_ruleitem fuel (X ++ '^' :: rest) n 0 = .ok (some it, '^' :: rest, gid) →
      (it.type = .Identifier ∨ it.type = .Group) →
      parse (n ++ [':'] ++ w0 ++ X ++ '^' :: rest) = .error .throw_2) ∧
    (∀ (fuel : Nat) (n w0 X rest : Str) (it : RuleItem) (gid : Nat),
      n ≠ [] → (∀ c ∈ n, is_identifier c = true) → (∀ c ∈ w0, c = ' ' ∨ c = '\t') →
      parse_ruleitem fuel (X ++ '^' :: rest) (n ++ ['_', '$', 'g'] ++ to_string 0) 0 =
        .ok (some it, '^' :: rest, gid) →
      (it.type = .Identifier ∨ it.type = .Group) →
      parse (n ++ [':'] ++ w0 ++ '(' :: X ++ '^' :: rest) = .error .throw_2) := by
  refine ⟨negate_in_loops, ?_, ?_, ?_⟩
  · intro fuel n w0 X it gid hn hid hw0 hX ht
    have hbody : skip_whitespace (w0 ++ (X ++ ['^'])) = X ++ ['^'] := by
      rw [skip_whitespace_append _ _ (is_whitespace_blank w0 hw0)]
      exact skip_whitespace_of_head _ (parse_ruleitem_head _ _ _ _ _ _ _ hX)
    have hloop : parse_rule_loop (fuel + 4) (skip_whitespace (w0 ++ (X ++ ['^']))) n 0 [] =
        .ok ([it.set_negate], []) := by
      rw [hbody, negate_after_item_rule fuel n X [] it gid hX (Or.inl ht),
        ((negate_in_loops fuel [] n gid [] it).1 ht).1]
      simp [parse_two_newlines, parse_newline, skip_whitespace, parse_rule_loop_nil]
    have := parse_one_rule (fuel + 4) n [] (w0 ++ (X ++ ['^'])) _ hn hid (by simp) hloop
      (by simp)
    simpa [List.append_assoc] using this
  · intro fuel n w0 X rest it gid hn hid hw0 hX ht
    have hbody : skip_whitespace (w0 ++ (X ++ '^' :: rest)) = X ++ '^' :: rest := by
      rw [skip_whitespace_append _ _ (is_whitespace_blank w0 hw0)]
      exact skip_whitespace_of_head _ (parse_ruleitem_head _ _ _ _ _ _ _ hX)
    have hloop : parse_rule_loop (fuel + 4) (skip_whitespace (w0 ++ (X ++ '^' :: rest))) n 0 [] =
        .error .throw_2 := by
      rw [hbody, negate_after_item_rule fuel n X rest it gid hX (Or.inr ht),
        ((negate_in_loops fuel rest n gid [] it).2 ht).1]
    have := parse_one_rule_error (fuel + 4) n [] (w0 ++ (X ++ '^' :: rest)) _ hn hid (by simp)
      hloop (by simp)
    simpa [List.append_assoc] using this
  · intro fuel n w0 X rest it gid hn hid hw0 hX ht
    have hbody : skip_whitespace (w0 ++ ('(' :: (X ++ '^' :: rest))) = '(' :: (X ++ '^' :: rest) := by
      rw [skip_whitespace_append _ _ (is_whitespace_blank w0 hw0)]
      exact skip_whitespace_of_head _ (by intro c hc; simp at hc; subst hc; decide)
    have hinner : skip_whitespace (X ++ '^' :: rest) = X ++ '^' :: rest :=
      skip_whitespace_of_head _ (parse_ruleitem_head _ _ _ _ _ _ _ hX)
    have hitem : parse_ruleitem (fuel + 6) ('(' :: (X ++ '^' :: rest)) n 0 = .error .throw_2 := by
      rw [parse_ruleitem_paren, hinner,
        negate_after_item_group fuel _ X rest it gid hX (Or.inr ht),
        ((negate_in_loops fuel rest _ gid [] it).2 ht).2]
    have hloop : parse_rule_loop (fuel + 7)
        (skip_whitespace (w0 ++ ('(' :: (X ++ '^' :: rest)))) n 0 [] = .error .throw_2 := by
      rw [hbody]
      exact parse_rule_loop_item_error (fuel + 6) _ n 0 [] _ rfl hitem
    have := parse_one_rule_error (fuel + 7) n [] (w0 ++ ('(' :: (X ++ '^' :: rest))) _ hn hid
      (by simp) hloop (by simp)
    simpa [List.append_assoc] using this

/-- The spec's examples: `"a"^` sets the flag of the literal, `id^` and `("a")^` abort
`parse` by `throw 2`, and so does `(id^)` inside a group; first the two loops at the
marker with one stored item. -/
theorem negate_only_on_literal_witness :
    parse_rule_loop 3 ['^'] ['r'] 0 [.of_literal ['a']] =
      .ok ([.mk .Literal ['a'] [] (.mk [] []) false false true], []) ∧
    parse_group_loop 3 "^)".toList "r_$g0".toList 1
      [.of_group (.mk "r_$g0_$g0".toList [.of_literal ['a']])] = .error .throw_2 ∧
    parse "r: \"a\"^".toList =
      .ok [⟨['r'], [.mk .Literal ['a'] [] (.mk [] []) false false true]⟩] ∧
    parse "r: id^".toList = .error .throw_2 ∧
    parse "r: (\"a\")^ b".toList = .error .throw_2 ∧
    parse "r: (id^)".toList = .error .throw_2 :=
  ⟨((negate_only_on_literal.1 0 [] ['r'] 0 [] (.of_literal ['a'])).1 rfl).1.trans (by rfl),
    ((negate_only_on_literal.1 0 [')'] "r_$g0".toList 1 []
      (.of_group (.mk "r_$g0_$g0".toList [.of_literal ['a']]))).2 (Or.inr rfl)).2,
    negate_only_on_literal.2.1 3 ['r'] [' '] "\"a\"".toList (.of_literal ['a']) 0
      (by decide) (by decide) (by decide) (by rfl) rfl,
    negate_only_on_literal.2.2.1 3 ['r'] [' '] "id".toList [] (.of_identifier ['i', 'd']) 0
      (by decide) (by decide) (by decide) (by rfl) (Or.inl rfl),
    negate_only_on_literal.2.2.1 5 ['r'] [' '] "(\"a\")".toList " b".toList
      (.of_group (.mk "r_$g0".toList [.of_literal ['a']])) 1
      (by decide) (by decide) (by decide) (by rfl) (Or.inr rfl),
    negate_only_on_literal.2.2.2 3 ['r'] [' '] "id".toList [')'] (.of_identifier ['i', 'd']) 0
      (by decide) (by decide) (by decide) (by rfl) (Or.inl rfl)⟩

/-! ## Rules ended by a blank line, and rules that are refused -/

theorem parse_string_loop_frame (n : Nat) :
    ∀ (u : Str) (escape : Bool) (acc v rest : Str), u.length ≤ n →
      parse_string_loop (u ++ ['"']) escape acc = some (v, []) →
      parse_string_loop (u ++ '"' :: rest) escape acc = some (v, rest) := by
  induction n using Nat.strong_induction_on with
  | _ n ih =>
    intro u escape acc v rest hn h
    cases u with
    | nil =>
      cases escape with
      | true =>
        rw [List.nil_append, parse_string_loop.eq_def] at h
        simp [parse_string_loop] at h
      | false =>
        simp only [List.nil_append, parse_string_loop, beq_self_eq_true, if_true,
          Option.some.injEq, Prod.mk.injEq, and_true] at h ⊢
        exact h
    | cons c u =>
      simp only [List.length_cons] at hn
      cases escape with
      | false =>
        simp only [List.cons_append, parse_string_loop] at h ⊢
        split_ifs at h ⊢ with h1 h2
        · simp only [Option.some.injEq, Prod.mk.injEq] at h
          simp at h
        · exact ih u.length (by omega) u _ _ _ _ le_rfl h
        · exact ih u.length (by omega) u _ _ _ _ le_rfl h
      | true =>
        by_cases hx : c = 'x'
        · subst hx
          match u, hn, h with
          | [], _, h => simp [parse_string_loop] at h
          | [c0], _, h => simp [parse_string_loop] at h
          | c0 :: c1 :: u2, hn, h =>
            simp only [List.cons_append, parse_string_loop, beq_self_eq_true, if_true] at h ⊢
            simp only [List.length_cons] at hn
            exact ih u2.length (by omega) u2 _ _ _ _ le_rfl h
        · rw [List.cons_append, parse_string_loop_escaped _ _ _ hx] at h ⊢
          split_ifs at h ⊢ with h1
          · exact ih u.length (by omega) u _ _ _ _ le_rfl h
          · exact ih u.length (by omega) u _ _ _ _ le_rfl h

/-- A quoted text that `parse_string` reads to its end as `v` is read as `v` in front of
any further input, which is left over. -/
theorem parse_string_frame (t v rest : Str)
    (h : parse_string ('"' :: t ++ ['"']) = (some v, [])) :
    parse_string ('"' :: t ++ '"' :: rest) = (some v, rest) := by
  simp only [parse_string, List.cons_append, parse_literal_single, if_true] at h ⊢
  cases hl : parse_string_loop (t ++ ['"']) false [] with
  | none => rw [hl] at h; simp at h
  | some r =>
    obtain ⟨v1, s1⟩ := r
    rw [hl] at h
    simp only [Prod.mk.injEq, Option.some.injEq] at h
    obtain ⟨rfl, rfl⟩ := h
    rw [parse_string_loop_frame _ _ _ _ _ rest le_rfl hl]

theorem parse_newline_text (a rest : Str) (ha : a = ['\n'] ∨ a = ['\r', '\n']) :
    parse_newline (a ++ rest) = (true, rest) := by
  rcases ha with h | h <;> subst h <;> simp [parse_newline]

theorem parse_two_newlines_text (a b rest : Str) (ha : a = ['\n'] ∨ a = ['\r', '\n'])
    (hb : b = ['\n'] ∨ b = ['\r', '\n']) :
    parse_two_newlines (a ++ b ++ rest) = (true, rest) := by
  simp [parse_two_newlines, List.append_assoc, parse_newline_text a _ ha,
    parse_newline_text b _ hb]

/-- The rule `n: "t"` followed by a blank line is read as the rule `n` with the one literal,
and the cursor is left behind the blank line. -/
theorem parse_rule_literal_blank (fuel : Nat) (n t v a b rest : Str)
    (hn : n ≠ []) (hid : ∀ c ∈ n, is_identifier c = true)
    (ht : parse_string ('"' :: t ++ ['"']) = (some v, []))
    (ha : a = ['\n'] ∨ a = ['\r', '\n']) (hb : b = ['\n'] ∨ b = ['\r', '\n']) :
    parse_rule (fuel + 2) (n ++ [':', ' '] ++ ('"' :: t ++ ['"']) ++ a ++ b ++ rest) =
      .ok (some ⟨n, [.of_literal v]⟩, rest) := by
  have hl : parse_rule_loop (fuel + 2)
      (skip_whitespace (' ' :: ('"' :: t ++ '"' :: (a ++ b ++ rest)))) n 0 [] =
      .ok ([.of_literal v], rest) := by
    have hs : skip_whitespace (' ' :: ('"' :: t ++ '"' :: (a ++ b ++ rest))) =
        '"' :: t ++ '"' :: (a ++ b ++ rest) := by
      simp [skip_whitespace, is_whitespace]
    rw [hs, parse_rule_loop_step (fuel + 1) _ _ _ [] [.of_literal v] _ _ _
      (parse_ruleitem_literal fuel _ n 0 v _ (parse_string_frame t v _ ht)) rfl]
    rw [parse_two_newlines_text a b rest ha hb]
  have := parse_rule_of_loop (fuel + 2) n [] _ _ _ hn hid (by simp) hl (by simp)
  simpa [List.append_assoc] using this

/-- C6. Blank-line rule termination: for all identifiers `n1`, `n2` and all literal
contents `x`, `y` (texts that `parse_string` reads between quotes as `vx`, `vy`), the text
`n1: "x"`, blank line, `n2: "y"`, blank line, where a blank line is two newlines (each
`\n` or `\r\n`) directly after the literal, parses to exactly two rules, `n1` and `n2`
in that order, each holding its single Literal item. -/
theorem blank_line_rule_termination (n1 n2 x y vx vy a1 b1 a2 b2 : Str)
    (hn1 : n1 ≠ []) (hid1 : ∀ c ∈ n1, is_identifier c = true)
    (hn2 : n2 ≠ []) (hid2 : ∀ c ∈ n2, is_identifier c = true)
    (hx : parse_string ('"' :: x ++ ['"']) = (some vx, []))
    (hy : parse_string ('"' :: y ++ ['"']) = (some vy, []))
    (ha1 : a1 = ['\n'] ∨ a1 = ['\r', '\n']) (hb1 : b1 = ['\n'] ∨ b1 = ['\r', '\n'])
    (ha2 : a2 = ['\n'] ∨ a2 = ['\r', '\n']) (hb2 : b2 = ['\n'] ∨ b2 = ['\r', '\n']) :
    parse (n1 ++ [':', ' '] ++ ('"' :: x ++ ['"']) ++ a1 ++ b1 ++
        (n2 ++ [':', ' '] ++ ('"' :: y ++ ['"']) ++ a2 ++ b2)) =
      .ok [⟨n1, [.of_literal vx]⟩, ⟨n2, [.of_literal vy]⟩] := by
  apply parse_eq_of_fuel 5 _ _ _ (by simp)
  have head_ok : ∀ (n rest : Str), n ≠ [] → (∀ c ∈ n, is_identifier c = true) →
      skip_whitespace (n ++ rest) = n ++ rest ∧ is_eof (n ++ rest) = false ∧
        (n ++ rest).head? ≠ some '#' := by
    intro n rest hn hid
    obtain ⟨c, hc, hci⟩ := head_identifier n rest hn hid
    refine ⟨skip_whitespace_of_head _ ?_, ?_, ?_⟩
    · intro d hd
      rw [hc] at hd
      simp only [Option.some.injEq] at hd
      subst hd; exact is_identifier_not_whitespace _ hci
    · cases n with
      | nil => exact absurd rfl hn
      | cons c n => rfl
    · rw [hc]
      intro h
      simp only [Option.some.injEq] at h
      subst h
      revert hci; decide
  have r1 := parse_rule_literal_blank 2 n1 x vx a1 b1
    (n2 ++ [':', ' '] ++ ('"' :: y ++ ['"']) ++ a2 ++ b2) hn1 hid1 hx ha1 hb1
  have r2 := parse_rule_literal_blank 1 n2 y vy a2 b2 [] hn2 hid2 hy ha2 hb2
  simp only [List.append_assoc, List.append_nil] at r1 r2 ⊢
  obtain ⟨k1, e1, g1⟩ := head_ok n1 (':' :: ' ' :: ('"' :: x ++ '"' :: (a1 ++ (b1 ++
    (n2 ++ (':' :: ' ' :: ('"' :: y ++ '"' :: (a2 ++ b2)))))))) hn1 hid1
  obtain ⟨k2, e2, g2⟩ := head_ok n2 (':' :: ' ' :: ('"' :: y ++ '"' :: (a2 ++ b2))) hn2 hid2
  simp only [List.cons_append, List.nil_append, List.singleton_append, List.append_assoc]
    at r1 r2 k1 e1 g1 k2 e2 g2 ⊢
  rw [k1, parse_loop_rule 4 _ [] _ _ e1 g1 r1, k2, parse_loop_rule 3 _ _ _ _ e2 g2 r2]
  simp [skip_whitespace, parse_loop_nil]

/-- The spec's example, the text `a: "x"\n\nb: "y"\n\n`. -/
theorem blank_line_rule_termination_witness :
    parse "a: \"x\"\n\nb: \"y\"\n\n".toList =
      .ok [⟨['a'], [.of_literal ['x']]⟩, ⟨['b'], [.of_literal ['y']]⟩] :=
  blank_line_rule_termination ['a'] ['b'] ['x'] ['y'] ['x'] ['y'] ['\n'] ['\n'] ['\n'] ['\n']
    (by decide) (by decide) (by decide) (by decide) (by rfl) (by rfl)
    (by decide) (by decide) (by decide) (by decide)

theorem parse_rule_seq_ne_nil (fuel : Nat) (s : Str) (rule : Rule) (s1 : Str)
    (h : parse_rule fuel s = .ok (some rule, s1)) : rule.seq ≠ [] := by
  simp only [parse_rule] at h
  split at h
  · simp at h
  · split at h
    · simp at h
    · split at h
      · simp at h
      · rename_i seq s4 hl
        split_ifs at h with he
        simp only [Except.ok.injEq, Prod.mk.injEq, Option.some.injEq] at h
        rw [← h.1]
        intro hnil
        simp only at hnil
        rw [hnil] at he
        simp at he

theorem parse_loop_seq_ne_nil (fuel : Nat) :
    ∀ s result rules, parse_loop fuel s result = .ok rules →
      (∀ r ∈ result, r.seq ≠ []) → ∀ r ∈ rules, r.seq ≠ [] := by
  induction fuel with
  | zero => simp [parse_loop]
  | succ fuel ih =>
    intro s result rules h hres
    simp only [parse_loop] at h
    split at h
    · simp only [Except.ok.injEq] at h
      rw [← h]; exact hres
    · split at h
      · exact ih _ _ _ h hres
      · split at h
        · simp at h
        · simp at h
        · rename_i rule s2 hr
          apply ih _ _ _ h
          intro r hr'
          simp only [List.mem_append, List.mem_singleton] at hr'
          rcases hr' with hr' | hr'
          · exact hres r hr'
          · rw [hr']; exact parse_rule_seq_ne_nil _ _ _ _ hr

theorem parse_identifier_some_head (s name s1 : Str)
    (h : parse_identifier s = (some name, s1)) :
    is_eof s = false ∧ parse_literal s ['#'] = (false, s) := by
  obtain ⟨h1, _, h3, _⟩ := parse_identifier_some s name s1 h
  cases s with
  | nil => rw [h1] at h3; simp at h3
  | cons c s =>
    refine ⟨rfl, ?_⟩
    have hc : c ≠ '#' := by
      rintro rfl
      rw [h1] at h3
      simp [List.takeWhile, is_identifier] at h3
    simp [parse_literal_single, hc]

/-- C10. Structural errors abort the whole parse. Whenever the main loop of `parse` stands
at a rule name (at the start of the text, or further on with any rules collected so far)
and the name is not followed, after optional white space, by `:`, or the body of the rule
ends with an empty stored sequence, `parse` leaves by `throw 2` and returns no rule list;
hence every rule in a list that `parse` returns has a non-empty sequence. -/
theorem structural_errors_abort :
    (∀ (fuel : Nat) (s name s1 : Str) (result : List Rule),
      parse_identifier s = (some name, s1) → (skip_whitespace s1).head? ≠ some ':' →
      parse_loop (fuel + 1) s result = .error .throw_2) ∧
    (∀ (fuel : Nat) (s name s1 s2 s3 : Str) (result : List Rule),
      parse_identifier s = (some name, s1) → skip_whitespace s1 = ':' :: s2 →
      parse_rule_loop fuel (skip_whitespace s2) name 0 [] = .ok ([], s3) →
      parse_loop (fuel + 1) s result = .error .throw_2) ∧
    (∀ (str name s1 : Str),
      parse_identifier (skip_whitespace str) = (some name, s1) →
      (skip_whitespace s1).head? ≠ some ':' →
      parse str = .error .throw_2) ∧
    (∀ (fuel : Nat) (str name s1 s2 s3 : Str),
      parse_identifier (skip_whitespace str) = (some name, s1) →
      skip_whitespace s1 = ':' :: s2 →
      parse_rule_loop fuel (skip_whitespace s2) name 0 [] = .ok ([], s3) →
      parse str = .error .throw_2) ∧
    (∀ (str : Str) (rules : List Rule), parse str = .ok rules → ∀ r ∈ rules, r.seq ≠ []) := by
  have p1 : ∀ (fuel : Nat) (s name s1 : Str) (result : List Rule),
      parse_identifier s = (some name, s1) → (skip_whitespace s1).head? ≠ some ':' →
      parse_loop (fuel + 1) s result = .error .throw_2 := by
    intro fuel s name s1 result hid hc
    obtain ⟨he, hh⟩ := parse_identifier_some_head s name s1 hid
    have hl : parse_literal (skip_whitespace s1) [':'] = (false, skip_whitespace s1) := by
      rw [parse_literal_single]
      cases hsk : skip_whitespace s1 with
      | nil => rfl
      | cons d t =>
        have : d ≠ ':' := by rw [hsk] at hc; simpa using hc
        simp [this]
    simp [parse_loop, he, hh, parse_rule, hid, hl]
  have p2 : ∀ (fuel : Nat) (s name s1 s2 s3 : Str) (result : List Rule),
      parse_identifier s = (some name, s1) → skip_whitespace s1 = ':' :: s2 →
      parse_rule_loop fuel (skip_whitespace s2) name 0 [] = .ok ([], s3) →
      parse_loop (fuel + 1) s result = .error .throw_2 := by
    intro fuel s name s1 s2 s3 result hid hc hl
    obtain ⟨he, hh⟩ := parse_identifier_some_head s name s1 hid
    simp [parse_loop, he, hh, parse_rule, hid, hc, parse_literal_single, hl]
  refine ⟨p1, p2, ?_, ?_, ?_⟩
  · intro str name s1 hid hc
    exact parse_eq_of_fuel 1 str _ (p1 0 _ name s1 [] hid hc) (by simp)
  · intro fuel str name s1 s2 s3 hid hc hl
    exact parse_eq_of_fuel (fuel + 1) str _ (p2 fuel _ name s1 s2 s3 [] hid hc hl) (by simp)
  · intro str rules h r hr
    exact parse_loop_seq_ne_nil _ _ _ _ h (by simp) r hr

/-- The rule `a "x"` has no colon and `a:` has no body, both behind the accepted rule
`b: "y"` and both at the start of a text; the accepted rule has its one item. -/
theorem structural_errors_abort_witness :
    parse_loop 4 "a \"x\"".toList [⟨['b'], [.of_literal ['y']]⟩] = .error .throw_2 ∧
    parse_loop 4 "a:".toList [⟨['b'], [.of_literal ['y']]⟩] = .error .throw_2 ∧
    parse " a \"x\"".toList = .error .throw_2 ∧
    parse "a :".toList = .error .throw_2 ∧
    (∀ r ∈ [(⟨['b'], [.of_literal ['y']]⟩ : Rule)], r.seq ≠ []) ∧
    parse "b: \"y\"\n\na \"x\"".toList = .error .throw_2 ∧
    parse "b: \"y\"\n\na:".toList = .error .throw_2 :=
  ⟨structural_errors_abort.1 3 "a \"x\"".toList ['a'] " \"x\"".toList _ (by rfl) (by decide),
    structural_errors_abort.2.1 3 "a:".toList ['a'] [':'] [] [] _ (by rfl) (by rfl) (by rfl),
    structural_errors_abort.2.2.1 " a \"x\"".toList ['a'] " \"x\"".toList (by rfl) (by decide),
    structural_errors_abort.2.2.2.1 1 "a :".toList ['a'] " :".toList [] [] (by rfl) (by rfl)
      (by rfl),
    structural_errors_abort.2.2.2.2 "b: \"y\"".toList _ (by rfl),
    by rfl, by rfl⟩

/-! ## The shape of the AST that `parse` builds -/

theorem direct_groups_append (seq : List RuleItem) (r : RuleItem) :
    direct_groups (seq ++ [r]) =
      direct_groups seq ++ (if r.type = .Group then [r.group] else []) := by
  induction seq with
  | nil => simp [direct_groups]
  | cons v seq ih =>
    by_cases hv : v.type = .Group <;> simp [direct_groups, hv, ih]

theorem canon_seq_append (P : Str) (seq : List RuleItem) (r : RuleItem) :
    ∀ k, canon_seq P k (seq ++ [r]) ↔
      canon_seq P k seq ∧ canon_item P (k + (direct_groups seq).length) r := by
  induction seq with
  | nil => intro k; simp [canon_seq, direct_groups]
  | cons v seq ih =>
    intro k
    by_cases hv : v.type = .Group
    · simp only [List.cons_append, canon_seq, List.append_eq, hv, if_true, ih, direct_groups,
        List.length_cons]
      rw [and_assoc, show k + 1 + (direct_groups seq).length = k + ((direct_groups seq).length + 1)
        by omega]
    · simp only [List.cons_append, canon_seq, List.append_eq, hv, if_false, ih, direct_groups]
      rw [and_assoc]

theorem canon_item_set_optional (P : Str) (k : Nat) (v : RuleItem) :
    canon_item P k v.set_optional ↔ canon_item P k v := by
  obtain ⟨t, l, i, ⟨name, gseq⟩, o, m, n⟩ := v
  cases t <;> simp [RuleItem.set_optional, canon_item]

theorem canon_item_set_multiple (P : Str) (k : Nat) (v : RuleItem) :
    canon_item P k v.set_multiple ↔ canon_item P k v := by
  obtain ⟨t, l, i, ⟨name, gseq⟩, o, m, n⟩ := v
  cases t <;> simp [RuleItem.set_multiple, canon_item]

theorem canon_item_set_negate (P : Str) (k : Nat) (v : RuleItem) (h : v.type = .Literal) :
    canon_item P k v.set_negate ↔ canon_item P k v := by
  obtain ⟨t, l, i, ⟨name, gseq⟩, o, m, n⟩ := v
  simp only [RuleItem.type] at h
  subst h
  simp [RuleItem.set_negate, canon_item]

theorem set_optional_type (v : RuleItem) :
    v.set_optional.type = v.type ∧ v.set_optional.group = v.group := by
  obtain ⟨t, l, i, g, o, m, n⟩ := v; exact ⟨rfl, rfl⟩

theorem set_multiple_type (v : RuleItem) :
    v.set_multiple.type = v.type ∧ v.set_multiple.group = v.group := by
  obtain ⟨t, l, i, g, o, m, n⟩ := v; exact ⟨rfl, rfl⟩

theorem set_negate_type (v : RuleItem) :
    v.set_negate.type = v.type ∧ v.set_negate.group = v.group := by
  obtain ⟨t, l, i, g, o, m, n⟩ := v; exact ⟨rfl, rfl⟩

/-- Replacing the last item by one of the same type and group in the shape of the old
one keeps the shape of the sequence and its groups. -/
theorem canon_seq_replace_back (P : Str) (seq : List RuleItem) (b c : RuleItem)
    (ht : c.type = b.type ∧ c.group = b.group)
    (hc : ∀ k, canon_item P k c ↔ canon_item P k b)
    (h : canon_seq P 0 (seq ++ [b])) :
    canon_seq P 0 (seq ++ [c]) ∧ direct_groups (seq ++ [c]) = direct_groups (seq ++ [b]) := by
  rw [canon_seq_append] at h ⊢
  rw [direct_groups_append, direct_groups_append, ht.1, ht.2]
  exact ⟨⟨h.1, (hc _).mpr h.2⟩, rfl⟩

theorem update_back_canon (P : Str) (seq : List RuleItem) (f : RuleItem → RuleItem)
    (ht : ∀ b, (f b).type = b.type ∧ (f b).group = b.group)
    (hc : ∀ k b, canon_item P k (f b) ↔ canon_item P k b)
    (h : canon_seq P 0 seq) :
    canon_seq P 0 (update_back seq f) ∧ direct_groups (update_back seq f) = direct_groups seq := by
  rcases List.eq_nil_or_concat seq with rfl | ⟨l, b, rfl⟩
  · exact ⟨h, rfl⟩
  · rw [List.concat_eq_append] at h ⊢
    rw [update_back_append]
    exact canon_seq_replace_back P l b (f b) (ht b) (fun k => hc k b) h

theorem fold_item_negate_concat (seq : List RuleItem) (b r : RuleItem) (hr : r.type = .Negate) :
    fold_item (seq ++ [b]) r =
      if b.type ≠ .Literal then .error .throw_2 else .ok (seq ++ [b.set_negate]) := by
  simp [fold_item, hr]

theorem fold_item_negate_nil (r : RuleItem) (hr : r.type = .Negate) :
    fold_item [] r = .ok [] := by
  simp [fold_item, hr]

/-- The fold policy keeps the shape: a marker changes flags of the last item only, any
other item is appended and must have the shape for the current counter. -/
theorem fold_item_canon (P : Str) (seq seq1 : List RuleItem) (r : RuleItem)
    (h : canon_seq P 0 seq) (hf : fold_item seq r = .ok seq1)
    (hr : (r.type = .ZeroOrMore ∨ r.type = .OneOrMore ∨ r.type = .ZeroOrOne ∨ r.type = .Negate) ∨
      canon_item P (direct_groups seq).length r) :
    canon_seq P 0 seq1 ∧
      (direct_groups seq1).length =
        (direct_groups seq).length + (if r.type = .Group then 1 else 0) := by
  by_cases h4 : r.type = .Negate
  · rcases List.eq_nil_or_concat seq with rfl | ⟨l, b, rfl⟩
    · rw [fold_item_negate_nil r h4] at hf
      simp only [Except.ok.injEq] at hf
      subst hf
      simp [h, h4]
    · rw [List.concat_eq_append] at h hf ⊢
      rw [fold_item_negate_concat l b r h4] at hf
      split_ifs at hf with hb
      simp only [ne_eq, Decidable.not_not] at hb
      simp only [Except.ok.injEq] at hf
      subst hf
      have := canon_seq_replace_back P l b b.set_negate (set_negate_type b)
        (fun k => canon_item_set_negate P k b hb) h
      simp [this.1, this.2, h4]
  unfold fold_item at hf
  split_ifs at hf with h1 h2 h3
  · simp only [Except.ok.injEq] at hf
    subst hf
    have := update_back_canon P seq (fun b => b.set_optional.set_multiple)
      (fun b => ⟨by rw [(set_multiple_type _).1, (set_optional_type _).1],
        by rw [(set_multiple_type _).2, (set_optional_type _).2]⟩)
      (fun k b => by rw [canon_item_set_multiple, canon_item_set_optional]) h
    simp [this.1, this.2, h1]
  · simp only [Except.ok.injEq] at hf
    subst hf
    have := update_back_canon P seq (fun b => b.set_multiple) (fun b => set_multiple_type b)
      (fun k b => canon_item_set_multiple P k b) h
    simp [this.1, this.2, h2]
  · simp only [Except.ok.injEq] at hf
    subst hf
    have := update_back_canon P seq (fun b => b.set_optional) (fun b => set_optional_type b)
      (fun k b => canon_item_set_optional P k b) h
    simp [this.1, this.2, h3]
  · simp only [Except.ok.injEq] at hf
    subst hf
    rcases hr with hr | hr
    · rcases hr with hr | hr | hr | hr <;> contradiction
    · rw [canon_seq_append, direct_groups_append]
      refine ⟨⟨h, by simpa using hr⟩, ?_⟩
      by_cases hg : r.type = .Group <;> simp [hg]

theorem canon_item_marker_or (P : Str) (k : Nat) : canon_item P k (.marker .Or) := by
  simp [RuleItem.marker, canon_item]

theorem canon_item_of_literal (P : Str) (k : Nat) (v : Str) : canon_item P k (.of_literal v) := by
  simp [RuleItem.of_literal, canon_item]

theorem canon_item_of_identifier (P : Str) (k : Nat) (v : Str) (hv : v ≠ [])
    (hid : ∀ c ∈ v, is_identifier c = true) : canon_item P k (.of_identifier v) := by
  simpa [RuleItem.of_identifier, canon_item] using ⟨hv, hid⟩

theorem takeWhile_is_identifier (s : Str) : ∀ c ∈ s.takeWhile is_identifier, is_identifier c = true :=
  fun _ hc => (List.mem_takeWhile_imp hc)

/-- What the item parser returns: a postfix marker with the counter unchanged, or an item
in the shape for the counter it was called with, the counter one higher behind a group. -/
theorem parse_canon (fuel : Nat) :
    (∀ s P i g s1 i1, parse_group fuel s P i = .ok (some g, s1, i1) →
      i1 = i + 1 ∧ g.name = P ++ ['_', '$', 'g'] ++ to_string i ∧ canon_seq g.name 0 g.seq) ∧
    (∀ s n i seq seq1 s1, parse_group_loop fuel s n i seq = .ok (seq1, s1) →
      canon_seq n 0 seq → (direct_groups seq).length = i → canon_seq n 0 seq1) ∧
    (∀ s P i r s1 i1, parse_ruleitem fuel s P i = .ok (some r, s1, i1) →
      ((r.type = .ZeroOrMore ∨ r.type = .OneOrMore ∨ r.type = .ZeroOrOne ∨ r.type = .Negate) ∨
        canon_item P i r) ∧ i1 = i + (if r.type = .Group then 1 else 0)) := by
  induction fuel with
  | zero => simp [parse_group, parse_group_loop, parse_ruleitem]
  | succ fuel ih =>
    obtain ⟨ihg, ihl, ihr⟩ := ih
    refine ⟨?_, ?_, ?_⟩
    · intro s P i g s1 i1 h
      simp only [parse_group] at h
      split at h
      · simp at h
      · split at h
        · simp at h
        · rename_i seq s3 hl
          simp only [Except.ok.injEq, Prod.mk.injEq, Option.some.injEq] at h
          obtain ⟨rfl, -, rfl⟩ := h
          exact ⟨rfl, rfl, ihl _ _ _ _ _ _ hl (by simp [canon_seq]) rfl⟩
    · intro s n i seq seq1 s1 h hc hi
      simp only [parse_group_loop] at h
      split at h
      · simp only [Except.ok.injEq, Prod.mk.injEq] at h
        rw [← h.1]; exact hc
      · split at h
        · simp only [Except.ok.injEq, Prod.mk.injEq] at h
          rw [← h.1]; exact hc
        · split at h
          · simp at h
          · simp at h
          · rename_i r s3 i3 hr
            obtain ⟨hr1, hr2⟩ := ihr _ _ _ _ _ _ hr
            split at h
            · simp at h
            · rename_i seq2 hf
              have := fold_item_canon n seq seq2 r hc hf (by rw [hi]; exact hr1)
              exact ihl _ _ _ _ _ _ h this.1 (by rw [this.2, hi, hr2])
    · intro s P i r s1 i1 h
      simp only [parse_ruleitem] at h
      split at h
      · simp at h
      · split at h
        · simp only [Except.ok.injEq, Prod.mk.injEq, Option.some.injEq] at h
          obtain ⟨rfl, -, rfl⟩ := h
          exact ⟨Or.inr (canon_item_of_literal _ _ _), by simp [RuleItem.of_literal, RuleItem.type]⟩
        · split at h
          · rename_i v s3 hs3
            simp only [Except.ok.injEq, Prod.mk.injEq, Option.some.injEq] at h
            obtain ⟨rfl, -, rfl⟩ := h
            obtain ⟨e1, -, e3, -⟩ := parse_identifier_some _ _ _ hs3
            exact ⟨Or.inr (canon_item_of_identifier _ _ _ e3
              (by rw [e1]; exact takeWhile_is_identifier _)),
              by simp [RuleItem.of_identifier, RuleItem.type]⟩
          · split at h
            · simp at h
            · rename_i v s4 i4 hg
              simp only [Except.ok.injEq, Prod.mk.injEq, Option.some.injEq] at h
              obtain ⟨rfl, -, rfl⟩ := h
              obtain ⟨e1, e2, e3⟩ := ihg _ _ _ _ _ _ hg
              obtain ⟨name, gseq⟩ := v
              simp only [RuleItemGroup.name, RuleItemGroup.seq] at e2 e3
              refine ⟨Or.inr ?_, by simp [RuleItem.of_group, RuleItem.type, e1]⟩
              subst e2
              simpa [RuleItem.of_group, canon_item] using e3
            · rename_i s4 i4 hg
              obtain ⟨-, e4, -⟩ := parse_group_none _ _ _ _ _ _ hg
              subst e4
              repeat' split at h
              all_goals first
                | (simp at h; done)
                | (simp only [Except.ok.injEq, Prod.mk.injEq, Option.some.injEq] at h
                   obtain ⟨rfl, -, rfl⟩ := h
                   simp [RuleItem.marker, RuleItem.type, canon_item])

theorem parse_rule_loop_canon (fuel : Nat) :
    ∀ s n i seq seq1 s1, parse_rule_loop fuel s n i seq = .ok (seq1, s1) →
      canon_seq n 0 seq → (direct_groups seq).length = i → canon_seq n 0 seq1 := by
  induction fuel with
  | zero => simp [parse_rule_loop]
  | succ fuel ih =>
    intro s n i seq seq1 s1 h hc hi
    simp only [parse_rule_loop] at h
    split at h
    · simp only [Except.ok.injEq, Prod.mk.injEq] at h
      rw [← h.1]; exact hc
    · split at h
      · simp at h
      · simp at h
      · rename_i r s3 i3 hr
        obtain ⟨hr1, hr2⟩ := (parse_canon fuel).2.2 _ _ _ _ _ _ hr
        split at h
        · simp at h
        · rename_i seq2 hf
          have := fold_item_canon n seq seq2 r hc hf (by rw [hi]; exact hr1)
          split at h
          · simp only [Except.ok.injEq, Prod.mk.injEq] at h
            rw [← h.1]; exact this.1
          · exact ih _ _ _ _ _ _ h this.1 (by rw [this.2, hi, hr2])

theorem parse_rule_canon (fuel : Nat) (s : Str) (rule : Rule) (s1 : Str)
    (h : parse_rule fuel s = .ok (some rule, s1)) : canon_rule rule := by
  have hne := parse_rule_seq_ne_nil _ _ _ _ h
  simp only [parse_rule] at h
  split at h
  · simp at h
  · rename_i name s2 hs2
    obtain ⟨e1, -, e3, -⟩ := parse_identifier_some _ _ _ hs2
    split at h
    · simp at h
    · split at h
      · simp at h
      · rename_i seq s4 hl
        split_ifs at h with he
        simp only [Except.ok.injEq, Prod.mk.injEq, Option.some.injEq] at h
        obtain ⟨rfl, -⟩ := h
        exact ⟨e3, by rw [e1]; exact takeWhile_is_identifier _, hne,
          parse_rule_loop_canon _ _ _ _ _ _ _ hl (by simp [canon_seq]) rfl⟩

theorem parse_loop_canon (fuel : Nat) :
    ∀ s result rules, parse_loop fuel s result = .ok rules →
      (∀ r ∈ result, canon_rule r) → ∀ r ∈ rules, canon_rule r := by
  induction fuel with
  | zero => simp [parse_loop]
  | succ fuel ih =>
    intro s result rules h hres
    simp only [parse_loop] at h
    split at h
    · simp only [Except.ok.injEq] at h
      rw [← h]; exact hres
    · split at h
      · exact ih _ _ _ h hres
      · split at h
        · simp at h
        · simp at h
        · rename_i rule s2 hr
          apply ih _ _ _ h
          intro r hr'
          simp only [List.mem_append, List.mem_singleton] at hr'
          rcases hr' with hr' | hr'
          · exact hres r hr'
          · rw [hr']; exact parse_rule_canon _ _ _ _ hr

/-- Every rule of a list that `parse` returns has the shape of `canon_rule`. -/
theorem parse_canon_rules (str : Str) (rules : List Rule) (h : parse str = .ok rules) :
    ∀ r ∈ rules, canon_rule r :=
  parse_loop_canon _ _ _ _ h (by simp)

/-! ## Group names -/

theorem canon_seq_direct_groups (P : Str) (seq : List RuleItem) :
    ∀ k j g, canon_seq P k seq → (direct_groups seq)[j]? = some g →
      g.name = P ++ ['_', '$', 'g'] ++ to_string (k + j) ∧ canon_seq g.name 0 g.seq := by
  induction seq with
  | nil => intro k j g _ hg; simp [direct_groups] at hg
  | cons v seq ih =>
    intro k j g h hg
    simp only [canon_seq] at h
    by_cases hv : v.type = .Group
    · simp only [direct_groups, hv, if_true] at hg h
      cases j with
      | zero =>
        simp only [List.getElem?_cons_zero, Option.some.injEq] at hg
        subst hg
        obtain ⟨t, l, i, ⟨name, gseq⟩, o, m, n⟩ := v
        simp only [RuleItem.type] at hv
        subst hv
        simp only [canon_item] at h
        simpa [RuleItem.group, RuleItemGroup.name, RuleItemGroup.seq] using h.1.2.2.2
      | succ j =>
        simp only [List.getElem?_cons_succ] at hg
        have := ih (k + 1) j g h.2 hg
        rwa [show k + 1 + j = k + (j + 1) by omega] at this
    · simp only [direct_groups, hv, if_false] at hg h
      exact ih k j g h.2 hg

mutual
theorem collect_groups_canon : ∀ (seq : List RuleItem) (P : Str) (k : Nat),
    canon_seq P k seq → ∀ G ∈ collect_groups seq, canon_seq G.name 0 G.seq
  | [], _, _, _, G, hG => by simp [collect_groups] at hG
  | v :: seq, P, k, h, G, hG => by
    simp only [collect_groups, List.mem_append] at hG
    simp only [canon_seq] at h
    rcases hG with hG | hG
    · exact collect_groups_item_canon v P k h.1 G hG
    · exact collect_groups_canon seq P _ h.2 G hG
theorem collect_groups_item_canon : ∀ (v : RuleItem) (P : Str) (k : Nat),
    canon_item P k v → ∀ G ∈ collect_groups_item v, canon_seq G.name 0 G.seq
  | .mk t l i (.mk name gseq) o m n, P, k, h, G, hG => by
    simp only [collect_groups_item] at hG
    split_ifs at hG with ht
    · subst ht
      simp only [canon_item] at h
      simp only [List.mem_cons] at hG
      rcases hG with rfl | hG
      · exact h.2.2.2.2
      · exact collect_groups_canon gseq name 0 h.2.2.2.2 G hG
    · simp at hG
end

theorem collect_all_groups_mem (rules : List Rule) (G : RuleItemGroup) :
    G ∈ collect_all_groups rules ↔ ∃ r ∈ rules, G ∈ collect_groups r.seq := by
  induction rules with
  | nil => simp [collect_all_groups]
  | cons r rules ih => simp [collect_all_groups, ih]

theorem group_at_name (path : List Nat) :
    ∀ (P : Str) (seq : List RuleItem) (g : RuleItemGroup), canon_seq P 0 seq →
      group_at seq path = some g → g.name = P ++ path_suffix path := by
  induction path with
  | nil => intro P seq g _ h; simp [group_at] at h
  | cons k ks ih =>
    intro P seq g hc h
    simp only [group_at] at h
    split at h
    · simp at h
    · rename_i g1 hg1
      obtain ⟨e1, e2⟩ := canon_seq_direct_groups P seq 0 k g1 hc hg1
      split_ifs at h with hks
      · simp only [Option.some.injEq] at h
        subst h
        have : ks = [] := by simpa using hks
        subst this
        simpa [path_suffix] using e1
      · have := ih g1.name g1.seq g e2 h
        rw [this, e1]
        simp [path_suffix, List.append_assoc]

/-- C7. Deterministic group naming: in every AST that `parse` returns, the `k`-th group
(counted from 0, in textual order) stored directly in the sequence of a rule named `P`,
or of a group named `P` at any depth, has the name `P` + `_$g` + decimal(`k`); the
counter starts at 0 in every rule body and every group body, so the name of the group
reached by a chain of ordinal positions is the rule name followed by `_$g<k>` for every
position of the chain, whatever else the grammar contains. -/
theorem group_naming (str : Str) (rules : List Rule) (h : parse str = .ok rules) :
    (∀ r ∈ rules, ∀ k g, (direct_groups r.seq)[k]? = some g →
      g.name = r.name ++ ['_', '$', 'g'] ++ to_string k) ∧
    (∀ r ∈ rules, ∀ G ∈ collect_groups r.seq, ∀ k g, (direct_groups G.seq)[k]? = some g →
      g.name = G.name ++ ['_', '$', 'g'] ++ to_string k) ∧
    (∀ r ∈ rules, ∀ path g, group_at r.seq path = some g →
      g.name = r.name ++ path_suffix path) := by
  have hc := parse_canon_rules str rules h
  refine ⟨?_, ?_, ?_⟩
  · intro r hr k g hg
    simpa using (canon_seq_direct_groups r.name r.seq 0 k g (hc r hr).2.2.2 hg).1
  · intro r hr G hG k g hg
    have := collect_groups_canon r.seq r.name 0 (hc r hr).2.2.2 G hG
    simpa using (canon_seq_direct_groups G.name G.seq 0 k g this hg).1
  · intro r hr path g hg
    exact group_at_name path r.name r.seq g (hc r hr).2.2.2 hg

end pgen
namespace pgen

/-- The grammar `r: (a (b)) (c)`: the second group of `r` is `r_$g1`, the first group inside
`r_$g0` is `r_$g0_$g0`, which is also the group at the chain of positions 0, 0. -/
theorem group_naming_witness :
    (RuleItemGroup.mk "r_$g1".toList [.of_identifier ['c']]).name =
      ['r'] ++ ['_', '$', 'g'] ++ to_string 1 ∧
    (RuleItemGroup.mk "r_$g0_$g0".toList [.of_identifier ['b']]).name =
      "r_$g0".toList ++ ['_', '$', 'g'] ++ to_string 0 ∧
    (RuleItemGroup.mk "r_$g0_$g0".toList [.of_identifier ['b']]).name =
      ['r'] ++ path_suffix [0, 0] :=
  have h : parse "r: (a (b)) (c)".toList = .ok [⟨['r'],
      [.of_group (.mk "r_$g0".toList [.of_identifier ['a'],
          .of_group (.mk "r_$g0_$g0".toList [.of_identifier ['b']])]),
        .of_group (.mk "r_$g1".toList [.of_identifier ['c']])]⟩] := by rfl
  ⟨(group_naming _ _ h).1 _ (List.Mem.head _) 1 _ (by rfl),
    (group_naming _ _ h).2.1 _ (List.Mem.head _) _ (List.Mem.head _) 0 _ (by rfl),
    (group_naming _ _ h).2.2 _ (List.Mem.head _) [0, 0] _ (by rfl)⟩

theorem takeWhile_append_of_head (p : Char → Bool) (a t : Str) (ha : ∀ c ∈ a, p c = true)
    (ht : ∀ c, t.head? = some c → p c = false) : (a ++ t).takeWhile p = a := by
  induction a with
  | nil =>
    cases t with
    | nil => rfl
    | cons c t => simp [List.takeWhile, ht c rfl]
  | cons d a ih =>
    simp [List.takeWhile, ha d (by simp), ih (fun c hc => ha c (by simp [hc]))]

theorem toDigitsCore_mem (p : Char → Prop) (hp : ∀ m, m < 10 → p (Nat.digitChar m)) :
    ∀ (fuel n : Nat) (ds : List Char), (∀ c ∈ ds, p c) →
      ∀ c ∈ Nat.toDigitsCore 10 fuel n ds, p c := by
  intro fuel
  induction fuel with
  | zero => intro n ds hds c hc; simpa [Nat.toDigitsCore] using hds c hc
  | succ fuel ih =>
    intro n ds hds c hc
    have hd : ∀ c ∈ Nat.digitChar (n % 10) :: ds, p c := by
      intro c hc
      rcases List.mem_cons.mp hc with h | h
      · rw [h]; exact hp _ (Nat.mod_lt _ (by decide))
      · exact hds c h
    simp only [Nat.toDigitsCore] at hc
    split_ifs at hc
    · exact hd c hc
    · exact ih _ _ hd c hc

theorem to_string_ne_underscore (n : Nat) : ∀ c ∈ to_string n, c ≠ '_' :=
  toDigitsCore_mem (fun c => c ≠ '_') (by decide) _ _ _ (by simp)

theorem digitChar_value : ∀ m, m < 10 → (Nat.digitChar m).toNat - 48 = m := by decide

theorem toDigitsCore_value (fuel : Nat) :
    ∀ (n : Nat) (ds : List Char), n < fuel →
      (Nat.toDigitsCore 10 fuel n ds).foldl (fun a c => 10 * a + (c.toNat - 48)) 0 =
        ds.foldl (fun a c => 10 * a + (c.toNat - 48)) n := by
  induction fuel with
  | zero => intro n ds h; omega
  | succ fuel ih =>
    intro n ds h
    have hv := digitChar_value (n % 10) (Nat.mod_lt _ (by decide))
    simp only [Nat.toDigitsCore]
    split_ifs with h0
    · simp only [List.foldl_cons, hv, Nat.mul_zero, Nat.zero_add]
      have : n % 10 = n := by omega
      rw [this]
    · rw [ih (n / 10) _ (by omega)]
      simp only [List.foldl_cons, hv]
      have : 10 * (n / 10) + n % 10 = n := by omega
      rw [this]

theorem to_string_injective (j k : Nat) (h : to_string j = to_string k) : j = k := by
  have hj := toDigitsCore_value (j + 1) j [] (by omega)
  have hk := toDigitsCore_value (k + 1) k [] (by omega)
  simp only [List.foldl_nil] at hj hk
  unfold to_string Nat.toDigits at h
  rw [← hj, ← hk, h]

theorem to_string_append_cancel (j k : Nat) (t u : Str) (ht : name_tail t) (hu : name_tail u)
    (h : to_string j ++ t = to_string k ++ u) : j = k := by
  have key : ∀ (n : Nat) (w : Str), name_tail w →
      (to_string n ++ w).takeWhile (fun c => c != '_') = to_string n := by
    intro n w hw
    apply takeWhile_append_of_head
    · intro c hc; simpa using to_string_ne_underscore n c hc
    · intro c hc
      rcases hw with rfl | ⟨x, rfl⟩
      · simp at hc
      · simp at hc; subst hc; rfl
  apply to_string_injective
  rw [← key j t ht, ← key k u hu, h]

mutual
theorem collect_groups_name_form : ∀ (seq : List RuleItem) (P : Str) (k : Nat),
    canon_seq P k seq → ∀ G ∈ collect_groups seq,
      ∃ j t, k ≤ j ∧ G.name = P ++ ['_', '$', 'g'] ++ to_string j ++ t ∧ name_tail t
  | [], _, _, _, G, hG => by simp [collect_groups] at hG
  | v :: seq, P, k, h, G, hG => by
    simp only [collect_groups, List.mem_append] at hG
    simp only [canon_seq] at h
    rcases hG with hG | hG
    · obtain ⟨t, h1, h2⟩ := collect_groups_item_name_form v P k h.1 G hG
      exact ⟨k, t, le_rfl, h1, h2⟩
    · obtain ⟨j, t, h0, h1, h2⟩ := collect_groups_name_form seq P _ h.2 G hG
      refine ⟨j, t, ?_, h1, h2⟩
      split_ifs at h0 <;> omega
theorem collect_groups_item_name_form : ∀ (v : RuleItem) (P : Str) (k : Nat),
    canon_item P k v → ∀ G ∈ collect_groups_item v,
      ∃ t, G.name = P ++ ['_', '$', 'g'] ++ to_string k ++ t ∧ name_tail t
  | .mk t l i (.mk name gseq) o m n, P, k, h, G, hG => by
    simp only [collect_groups_item] at hG
    split_ifs at hG with ht
    · subst ht
      simp only [canon_item] at h
      obtain ⟨-, -, -, hname, hseq⟩ := h
      simp only [List.mem_cons] at hG
      rcases hG with rfl | hG
      · exact ⟨[], by simpa [RuleItemGroup.name] using hname, Or.inl rfl⟩
      · obtain ⟨j, u, -, h1, -⟩ := collect_groups_name_form gseq name 0 hseq G hG
        refine ⟨['_', '$', 'g'] ++ to_string j ++ u, ?_, Or.inr ⟨_, rfl⟩⟩
        rw [h1, hname]
        simp [List.append_assoc]
    · simp at hG
end

theorem name_form_cancel (P : Str) (j k : Nat) (t u : Str) (ht : name_tail t) (hu : name_tail u)
    (h : P ++ ['_', '$', 'g'] ++ to_string j ++ t = P ++ ['_', '$', 'g'] ++ to_string k ++ u) :
    j = k := by
  simp only [List.append_assoc, List.append_cancel_left_eq] at h
  exact to_string_append_cancel j k t u ht hu h

mutual
theorem collect_groups_nodup : ∀ (seq : List RuleItem) (P : Str) (k : Nat),
    canon_seq P k seq → ((collect_groups seq).map RuleItemGroup.name).Nodup
  | [], _, _, _ => by simp [collect_groups]
  | v :: seq, P, k, h => by
    simp only [canon_seq] at h
    simp only [collect_groups, List.map_append]
    rw [List.nodup_append]
    refine ⟨collect_groups_item_nodup v P k h.1, collect_groups_nodup seq P _ h.2, ?_⟩
    intro x hx1 hx2
    obtain ⟨G1, hG1, rfl⟩ := List.mem_map.mp hx1
    obtain ⟨G2, hG2, e⟩ := List.mem_map.mp hx2
    have hv : v.type = .Group := by
      obtain ⟨t, l, i, ⟨name, gseq⟩, o, m, n⟩ := v
      by_contra hne
      simp only [RuleItem.type] at hne
      simp [collect_groups_item, hne] at hG1
    obtain ⟨t, h1, h2⟩ := collect_groups_item_name_form v P k h.1 G1 hG1
    obtain ⟨j, u, h0, h3, h4⟩ := collect_groups_name_form seq P _ h.2 G2 hG2
    rw [hv] at h0
    simp only [if_true] at h0
    rw [h1, h3] at e
    have := name_form_cancel P j k u t h4 h2 e
    omega
theorem collect_groups_item_nodup : ∀ (v : RuleItem) (P : Str) (k : Nat),
    canon_item P k v → ((collect_groups_item v).map RuleItemGroup.name).Nodup
  | .mk t l i (.mk name gseq) o m n, P, k, h => by
    simp only [collect_groups_item]
    split_ifs with ht
    · subst ht
      simp only [canon_item] at h
      obtain ⟨-, -, -, hname, hseq⟩ := h
      simp only [List.map_cons, List.nodup_cons, RuleItemGroup.name]
      refine ⟨?_, collect_groups_nodup gseq name 0 hseq⟩
      intro hx
      obtain ⟨G, hG, e⟩ := List.mem_map.mp hx
      obtain ⟨j, u, -, h1, -⟩ := collect_groups_name_form gseq name 0 hseq G hG
      rw [h1] at e
      have := congrArg List.length e
      simp at this
    · simp
end

theorem is_identifier_ne_dollar (n : Str) (hid : ∀ c ∈ n, is_identifier c = true) :
    ∀ c ∈ n, (c != '$') = true := by
  intro c hc
  have := hid c hc
  simp only [bne_iff_ne, ne_eq]
  rintro rfl
  revert this; decide

/-- The rule name is what stands in a group name before the first `_$`. -/
theorem rule_name_of_group_name (n m u w : Str) (hn : ∀ c ∈ n, is_identifier c = true)
    (hm : ∀ c ∈ m, is_identifier c = true)
    (h : n ++ ['_', '$', 'g'] ++ u = m ++ ['_', '$', 'g'] ++ w) : n = m := by
  have key : ∀ (a v : Str), (∀ c ∈ a, is_identifier c = true) →
      (a ++ ['_', '$', 'g'] ++ v).takeWhile (fun c => c != '$') = a ++ ['_'] := by
    intro a v ha
    have : a ++ ['_', '$', 'g'] ++ v = (a ++ ['_']) ++ ('$' :: 'g' :: v) := by simp
    rw [this]
    apply takeWhile_append_of_head
    · intro c hc
      rcases List.mem_append.mp hc with hc | hc
      · exact is_identifier_ne_dollar a ha c hc
      · simp at hc; subst hc; rfl
    · intro c hc; simp at hc; subst hc; rfl
  have := key n u hn
  rw [h, key m w hm] at this
  exact (List.append_cancel_right this).symm

theorem collect_all_groups_nodup (rules : List Rule) (hc : ∀ r ∈ rules, canon_rule r)
    (hd : (rules.map Rule.name).Nodup) :
    ((collect_all_groups rules).map RuleItemGroup.name).Nodup := by
  induction rules with
  | nil => simp [collect_all_groups]
  | cons r rules ih =>
    simp only [List.map_cons, List.nodup_cons] at hd
    simp only [collect_all_groups, List.map_append]
    rw [List.nodup_append]
    have hr := hc r (by simp)
    refine ⟨collect_groups_nodup r.seq r.name 0 hr.2.2.2,
      ih (fun x hx => hc x (by simp [hx])) hd.2, ?_⟩
    intro x hx1 hx2
    obtain ⟨G1, hG1, rfl⟩ := List.mem_map.mp hx1
    obtain ⟨G2, hG2, e⟩ := List.mem_map.mp hx2
    obtain ⟨r2, hr2, hG2⟩ := (collect_all_groups_mem rules G2).mp hG2
    have hr2c := hc r2 (by simp [hr2])
    obtain ⟨j1, t1, -, h1, -⟩ := collect_groups_name_form r.seq r.name 0 hr.2.2.2 G1 hG1
    obtain ⟨j2, t2, -, h2, -⟩ := collect_groups_name_form r2.seq r2.name 0 hr2c.2.2.2 G2 hG2
    rw [h1, h2] at e
    have := rule_name_of_group_name r2.name r.name (to_string j2 ++ t2) (to_string j1 ++ t1)
      hr2c.2.1 hr.2.1 (by simpa [List.append_assoc] using e)
    exact hd.1 (List.mem_map.mpr ⟨r2, hr2, this⟩)

/-- C8. Group names are unique within a grammar: for every grammar text that `parse`
accepts and whose rule names are pairwise distinct, the names of all groups, at every
depth and across all rules (the list `collect_groups` builds for `generate_code`), are
pairwise distinct, no group name is a rule name, and so the names behind the identifier
tags `$i_<name>`, rules first and groups after, are pairwise distinct. -/
theorem group_names_unique (str : Str) (rules : List Rule) (h : parse str = .ok rules)
    (hd : (rules.map Rule.name).Nodup) :
    ((collect_all_groups rules).map RuleItemGroup.name).Nodup ∧
    (∀ g ∈ collect_all_groups rules, ∀ r ∈ rules, g.name ≠ r.name) ∧
    (rules.map Rule.name ++ (collect_all_groups rules).map RuleItemGroup.name).Nodup := by
  have hc := parse_canon_rules str rules h
  have h1 := collect_all_groups_nodup rules hc hd
  have h2 : ∀ g ∈ collect_all_groups rules, ∀ r ∈ rules, g.name ≠ r.name := by
    intro g hg r hr e
    obtain ⟨r2, hr2, hg2⟩ := (collect_all_groups_mem rules g).mp hg
    obtain ⟨j, t, -, hn, -⟩ := collect_groups_name_form r2.seq r2.name 0 (hc r2 hr2).2.2.2 g hg2
    have hid := is_identifier_ne_dollar r.name (hc r hr).2.1 '$'
      (by rw [← e, hn]; simp)
    simp at hid
  refine ⟨h1, h2, ?_⟩
  rw [List.nodup_append]
  refine ⟨hd, h1, ?_⟩
  intro x hx1 hx2
  obtain ⟨r, hr, rfl⟩ := List.mem_map.mp hx1
  obtain ⟨g, hg, e⟩ := List.mem_map.mp hx2
  exact h2 g hg r hr e

/-- The grammar of two rules `r: (a (b)) (c)` and `s: (d)`: its four group names
`r_$g0`, `r_$g0_$g0`, `r_$g1`, `s_$g0` are pairwise distinct and none is `r` or `s`. -/
theorem group_names_unique_witness :
    ["r_$g0".toList, "r_$g0_$g0".toList, "r_$g1".toList, "s_$g0".toList].Nodup ∧
    (["r".toList, "s".toList] ++
      ["r_$g0".toList, "r_$g0_$g0".toList, "r_$g1".toList, "s_$g0".toList]).Nodup :=
  have h : parse "r: (a (b)) (c)\n\ns: (d)".toList = .ok [⟨['r'],
      [.of_group (.mk "r_$g0".toList [.of_identifier ['a'],
          .of_group (.mk "r_$g0_$g0".toList [.of_identifier ['b']])]),
        .of_group (.mk "r_$g1".toList [.of_identifier ['c']])]⟩,
      ⟨['s'], [.of_group (.mk "s_$g0".toList [.of_identifier ['d']])]⟩] := by rfl
  ⟨(group_names_unique _ _ h (by decide)).1, (group_names_unique _ _ h (by decide)).2.2⟩

/-! ## Dump round trip -/

theorem cut_blank_append_space (y : Str) : cut_blank (y ++ [' ']) = y := by
  simp [cut_blank]

theorem text_seq_loop_tail (seq : List RuleItem) :
    [' '] ++ text_seq_loop seq = text_tail seq ++ [' '] := by
  induction seq with
  | nil => simp [text_seq_loop, text_tail]
  | cons v seq ih =>
    simp only [text_seq_loop, text_tail, List.append_assoc]
    rw [ih]

theorem cut_blank_text_seq_loop (v : RuleItem) (seq : List RuleItem) :
    cut_blank (text_seq_loop (v :: seq)) = text_item v ++ dump_suffix v ++ text_tail seq := by
  have := text_seq_loop_tail seq
  simp only [text_seq_loop, List.append_assoc]
  rw [this, ← List.append_assoc, ← List.append_assoc, cut_blank_append_space]
  simp [List.append_assoc]

theorem skip_whitespace_text (seq : List RuleItem) (rest : Str) :
    skip_whitespace (cut_blank (text_seq_loop seq) ++ rest) =
      skip_whitespace (text_tail seq ++ rest) := by
  cases seq with
  | nil => simp [text_seq_loop, text_tail, cut_blank]
  | cons v seq =>
    rw [cut_blank_text_seq_loop]
    simp [text_tail, skip_whitespace, is_whitespace, List.append_assoc]

theorem dump_suffix_cases (v : RuleItem) :
    (dump_suffix v = [] ∧ v = v.unquantified) ∨
    (dump_suffix v = ['*'] ∧ v = v.unquantified.set_optional.set_multiple) ∨
    (dump_suffix v = ['+'] ∧ v = v.unquantified.set_multiple) ∨
    (dump_suffix v = ['?'] ∧ v = v.unquantified.set_optional) := by
  obtain ⟨t, l, i, g, o, m, n⟩ := v
  cases o <;> cases m <;>
    simp [dump_suffix, RuleItem.unquantified, RuleItem.set_optional, RuleItem.set_multiple,
      RuleItem.optional, RuleItem.multiple]

theorem skip_whitespace_marker (q : Char) (tail : Str) (hq : q = '*' ∨ q = '+' ∨ q = '?') :
    skip_whitespace (q :: tail) = q :: tail := by
  rcases hq with h | h | h <;> subst h <;> simp [skip_whitespace, is_whitespace]

theorem parse_two_newlines_marker (q : Char) (tail : Str) (hq : q = '*' ∨ q = '+' ∨ q = '?') :
    parse_two_newlines (q :: tail) = (false, q :: tail) := by
  apply parse_two_newlines_of_head
  intro c hc
  simp only [List.head?_cons, Option.some.injEq] at hc
  subst hc
  rcases hq with h | h | h <;> subst h <;> decide

/-- The group loop in front of an item and its quantifier suffix: once the item parser
reads the item, the loop stores it, folds the suffix into it and goes on behind. -/
theorem parse_group_loop_item (P : Str) (k k1 : Nat) (v : RuleItem) (acc : List RuleItem)
    (s tail : Str) (x : List RuleItem × Str) (f1 f2 : Nat)
    (hi : parse_ruleitem f1 s P k = .ok (some v.unquantified, dump_suffix v ++ tail, k1))
    (ht : v.type = .Literal ∨ v.type = .Identifier ∨ v.type = .Group ∨ v.type = .Or)
    (hl : parse_group_loop f2 (skip_whitespace tail) P k1 (acc ++ [v]) = .ok x) :
    ∃ f, parse_group_loop f s P k acc = .ok x := by
  refine ⟨f1 + f2 + 4, ?_⟩
  have hp := parse_ruleitem_head_ne_paren _ _ _ _ _ _ _ hi
  have hi2 : parse_ruleitem (f1 + f2 + 3) s P k =
      .ok (some v.unquantified, dump_suffix v ++ tail, k1) := by
    rw [parse_ruleitem_fuel_le f1 _ (by omega) _ _ _ (by rw [hi]; simp), hi]
  have hty : v.unquantified.type = v.type := by
    obtain ⟨t, l, i, g, o, m, n⟩ := v; rfl
  have hl2 : ∀ f, f2 ≤ f → parse_group_loop f (skip_whitespace tail) P k1 (acc ++ [v]) = .ok x := by
    intro f hf
    rw [parse_group_loop_fuel_le f2 f hf _ _ _ _ (by rw [hl]; simp), hl]
  rw [parse_group_loop_step (f1 + f2 + 3) s P k acc _ _ _ _ hp hi2
    (fold_item_push acc _ (by rw [hty]; exact ht))]
  rcases dump_suffix_cases v with ⟨h1, h2⟩ | ⟨h1, h2⟩ | ⟨h1, h2⟩ | ⟨h1, h2⟩
  · rw [h1, List.nil_append, ← h2]
    exact hl2 _ (by omega)
  · rw [h1, List.singleton_append, skip_whitespace_marker _ _ (by simp),
      parse_group_loop_step (f1 + f2 + 2) _ P k1 _ _ _ _ _ (by simp)
        (parse_ruleitem_marker (f1 + f2) '*' .ZeroOrMore tail P k1 (by simp)) rfl,
      update_back_append, ← h2]
    exact hl2 _ (by omega)
  · rw [h1, List.singleton_append, skip_whitespace_marker _ _ (by simp),
      parse_group_loop_step (f1 + f2 + 2) _ P k1 _ _ _ _ _ (by simp)
        (parse_ruleitem_marker (f1 + f2) '+' .OneOrMore tail P k1 (by simp)) rfl,
      update_back_append, ← h2]
    exact hl2 _ (by omega)
  · rw [h1, List.singleton_append, skip_whitespace_marker _ _ (by simp),
      parse_group_loop_step (f1 + f2 + 2) _ P k1 _ _ _ _ _ (by simp)
        (parse_ruleitem_marker (f1 + f2) '?' .ZeroOrOne tail P k1 (by simp)) rfl,
      update_back_append, ← h2]
    exact hl2 _ (by omega)

/-- The rule loop in front of an item and its quantifier suffix, as for the group loop;
behind the item the loop tests for the blank line before it goes on. -/
theorem parse_rule_loop_item (P : Str) (k k1 : Nat) (v : RuleItem) (acc : List RuleItem)
    (s tail : Str) (x : List RuleItem × Str) (f1 f2 : Nat)
    (hi : parse_ruleitem f1 s P k = .ok (some v.unquantified, dump_suffix v ++ tail, k1))
    (ht : v.type = .Literal ∨ v.type = .Identifier ∨ v.type = .Group ∨ v.type = .Or)
    (hl : (match parse_two_newlines tail with
      | (true, s2) => Except.ok (acc ++ [v], s2)
      | (false, s2) => parse_rule_loop f2 (skip_whitespace s2) P k1 (acc ++ [v])) = .ok x) :
    ∃ f, parse_rule_loop f s P k acc = .ok x := by
  refine ⟨f1 + f2 + 4, ?_⟩
  have hi2 : parse_ruleitem (f1 + f2 + 3) s P k =
      .ok (some v.unquantified, dump_suffix v ++ tail, k1) := by
    rw [parse_ruleitem_fuel_le f1 _ (by omega) _ _ _ (by rw [hi]; simp), hi]
  have hty : v.unquantified.type = v.type := by
    obtain ⟨t, l, i, g, o, m, n⟩ := v; rfl
  have hl2 : ∀ f, f2 ≤ f → (match parse_two_newlines tail with
      | (true, s2) => Except.ok (acc ++ [v], s2)
      | (false, s2) => parse_rule_loop f (skip_whitespace s2) P k1 (acc ++ [v])) = .ok x := by
    intro f hf
    cases hn : parse_two_newlines tail with
    | mk b s2 =>
      rw [hn] at hl
      cases b with
      | true => exact hl
      | false =>
        simp only at hl ⊢
        rw [parse_rule_loop_fuel_le f2 f hf _ _ _ _ (by rw [hl]; simp), hl]
  rw [parse_rule_loop_step (f1 + f2 + 3) s P k acc _ _ _ _ hi2
    (fold_item_push acc _ (by rw [hty]; exact ht))]
  rcases dump_suffix_cases v with ⟨h1, h2⟩ | ⟨h1, h2⟩ | ⟨h1, h2⟩ | ⟨h1, h2⟩
  · rw [h1, List.nil_append, ← h2]
    exact hl2 (f1 + f2 + 3) (by omega)
  · rw [h1, List.singleton_append, parse_two_newlines_marker _ _ (by simp)]
    simp only
    rw [skip_whitespace_marker _ _ (by simp),
      parse_rule_loop_step (f1 + f2 + 2) _ P k1 _ _ _ _ _
        (parse_ruleitem_marker (f1 + f2) '*' .ZeroOrMore tail P k1 (by simp)) rfl,
      update_back_append, ← h2]
    exact hl2 (f1 + f2 + 2) (by omega)
  · rw [h1, List.singleton_append, parse_two_newlines_marker _ _ (by simp)]
    simp only
    rw [skip_whitespace_marker _ _ (by simp),
      parse_rule_loop_step (f1 + f2 + 2) _ P k1 _ _ _ _ _
        (parse_ruleitem_marker (f1 + f2) '+' .OneOrMore tail P k1 (by simp)) rfl,
      update_back_append, ← h2]
    exact hl2 (f1 + f2 + 2) (by omega)
  · rw [h1, List.singleton_append, parse_two_newlines_marker _ _ (by simp)]
    simp only
    rw [skip_whitespace_marker _ _ (by simp),
      parse_rule_loop_step (f1 + f2 + 2) _ P k1 _ _ _ _ _
        (parse_ruleitem_marker (f1 + f2) '?' .ZeroOrOne tail P k1 (by simp)) rfl,
      update_back_append, ← h2]
    exact hl2 (f1 + f2 + 2) (by omega)

theorem head_after_item (v : RuleItem) (seq : List RuleItem) (d : Char) (rest : Str)
    (hd : is_identifier d = false) :
    ∀ c, (dump_suffix v ++ (text_tail seq ++ d :: rest)).head? = some c →
      is_identifier c = false := by
  intro c hc
  rcases dump_suffix_cases v with ⟨h1, -⟩ | ⟨h1, -⟩ | ⟨h1, -⟩ | ⟨h1, -⟩
  · rw [h1] at hc
    cases seq with
    | nil => simp [text_tail] at hc; subst hc; exact hd
    | cons w seq => simp [text_tail] at hc; subst hc; decide
  · rw [h1] at hc; simp at hc; subst hc; decide
  · rw [h1] at hc; simp at hc; subst hc; decide
  · rw [h1] at hc; simp at hc; subst hc; decide

mutual
/-- The item parser reads the text `dump` writes for an item in the shape of the parser,
of a grammar with literals, identifiers, groups and quantifiers only, back as that item
with its quantifier flags still off. -/
theorem parse_ruleitem_text : ∀ (v : RuleItem) (P : Str) (k : Nat) (rest : Str),
    canon_item P k v → uses_plain_item v = true →
    (∀ c, rest.head? = some c → is_identifier c = false) →
    ∃ fuel, parse_ruleitem fuel (text_item v ++ rest) P k =
      .ok (some v.unquantified, rest, k + (if v.type = .Group then 1 else 0))
  | .mk t l i (.mk name gseq) o m n, P, k, rest, hc, hp, hrest => by
    simp only [uses_plain_item, Bool.and_eq_true, Bool.or_eq_true, beq_iff_eq,
      Bool.not_eq_true'] at hp
    obtain ⟨⟨ht, hn⟩, hg⟩ := hp
    subst hn
    rcases ht with (ht | ht) | ht <;> subst ht
    · simp only [canon_item] at hc
      obtain ⟨rfl, rfl, rfl⟩ := hc
      refine ⟨1, ?_⟩
      have := parse_ruleitem_literal 0 _ P k l rest (parse_string_escape l rest)
      simpa [text_item, RuleItem.unquantified, RuleItem.of_literal, RuleItem.type] using this
    · simp only [canon_item] at hc
      obtain ⟨rfl, rfl, rfl, -, hne, hid⟩ := hc
      refine ⟨1, ?_⟩
      have hq : (i ++ rest).head? ≠ some '"' := by
        obtain ⟨c, hc1, hc2⟩ := head_identifier i rest hne hid
        rw [hc1]
        intro h
        simp only [Option.some.injEq] at h
        subst h
        revert hc2; decide
      have := parse_ruleitem_identifier 0 _ P k i rest hq
        (parse_identifier_append i rest hne hid hrest)
      simpa [text_item, RuleItem.unquantified, RuleItem.of_identifier, RuleItem.type] using this
    · simp only [canon_item] at hc
      obtain ⟨rfl, rfl, -, hname, hseq⟩ := hc
      obtain ⟨f, hf⟩ := parse_group_loop_text gseq name 0 [] rest hseq hg
      refine ⟨f + 2, ?_⟩
      simp only [text_item, List.append_assoc, List.singleton_append, List.cons_append,
        List.nil_append, parse_ruleitem_paren, skip_whitespace_text, ← hname, hf,
        RuleItem.unquantified, RuleItem.of_group, RuleItem.type, if_true]
theorem parse_group_loop_text : ∀ (seq : List RuleItem) (P : Str) (k : Nat)
    (acc : List RuleItem) (rest : Str), canon_seq P k seq → uses_plain_seq seq = true →
    ∃ fuel, parse_group_loop fuel (skip_whitespace (text_tail seq ++ ')' :: rest)) P k acc =
      .ok (acc ++ seq, rest)
  | [], P, k, acc, rest, _, _ => by
    refine ⟨1, ?_⟩
    simp [text_tail, skip_whitespace, is_whitespace, parse_group_loop, is_eof,
      parse_literal_single]
  | v :: seq, P, k, acc, rest, hc, hp => by
    simp only [canon_seq] at hc
    simp only [uses_plain_seq, Bool.and_eq_true] at hp
    obtain ⟨f1, hf1⟩ := parse_ruleitem_text v P k
      (dump_suffix v ++ (text_tail seq ++ ')' :: rest)) hc.1 hp.1
      (head_after_item v seq ')' rest (by decide))
    obtain ⟨f2, hf2⟩ := parse_group_loop_text seq P _ (acc ++ [v]) rest hc.2 hp.2
    have hty : v.type = .Literal ∨ v.type = .Identifier ∨ v.type = .Group ∨ v.type = .Or := by
      obtain ⟨t, l, i, ⟨name, gseq⟩, o, m, n⟩ := v
      simp only [uses_plain_item, Bool.and_eq_true, Bool.or_eq_true, beq_iff_eq] at hp
      simp only [RuleItem.type]
      tauto
    have hsk : skip_whitespace (text_tail (v :: seq) ++ ')' :: rest) =
        text_item v ++ (dump_suffix v ++ (text_tail seq ++ ')' :: rest)) := by
      have hh := parse_ruleitem_head _ _ _ _ _ _ _ hf1
      have e : text_tail (v :: seq) ++ ')' :: rest =
          ' ' :: (text_item v ++ (dump_suffix v ++ (text_tail seq ++ ')' :: rest))) := by
        simp [text_tail, List.append_assoc]
      rw [e, skip_whitespace]
      simp only [is_whitespace, beq_self_eq_true, Bool.true_or, if_true]
      exact skip_whitespace_of_head _ hh
    rw [hsk]
    have hk : (if v.type = .Group then k + 1 else k) =
        k + (if v.type = .Group then 1 else 0) := by
      split_ifs <;> rfl
    rw [hk] at hf2
    obtain ⟨f, hf⟩ := parse_group_loop_item P k _ v acc _ _ _ f1 f2 hf1 hty hf2
    exact ⟨f, by simpa [List.append_assoc] using hf⟩
end

theorem parse_rule_loop_text (P : Str) (rest : Str) :
    ∀ (seq : List RuleItem) (k : Nat) (acc : List RuleItem),
      canon_seq P k seq → uses_plain_seq seq = true →
      ∃ fuel, (match parse_two_newlines (text_tail seq ++ '\n' :: '\n' :: rest) with
        | (true, s2) => Except.ok (acc, s2)
        | (false, s2) => parse_rule_loop fuel (skip_whitespace s2) P k acc) =
          .ok (acc ++ seq, rest) := by
  intro seq
  induction seq with
  | nil =>
    intro k acc _ _
    refine ⟨0, ?_⟩
    have := parse_two_newlines_text ['\n'] ['\n'] rest (by simp) (by simp)
    simp only [List.singleton_append, List.cons_append, List.nil_append] at this
    simp [text_tail, this]
  | cons v seq ih =>
    intro k acc hc hp
    simp only [canon_seq] at hc
    simp only [uses_plain_seq, Bool.and_eq_true] at hp
    obtain ⟨f1, hf1⟩ := parse_ruleitem_text v P k
      (dump_suffix v ++ (text_tail seq ++ '\n' :: '\n' :: rest)) hc.1 hp.1
      (head_after_item v seq '\n' ('\n' :: rest) (by decide))
    have hk : (if v.type = .Group then k + 1 else k) =
        k + (if v.type = .Group then 1 else 0) := by
      split_ifs <;> rfl
    obtain ⟨f2, hf2⟩ := ih _ (acc ++ [v]) hc.2 hp.2
    rw [hk] at hf2
    have hty : v.type = .Literal ∨ v.type = .Identifier ∨ v.type = .Group ∨ v.type = .Or := by
      obtain ⟨t, l, i, ⟨name, gseq⟩, o, m, n⟩ := v
      simp only [uses_plain_item, Bool.and_eq_true, Bool.or_eq_true, beq_iff_eq] at hp
      simp only [RuleItem.type]
      tauto
    have e : text_tail (v :: seq) ++ '\n' :: '\n' :: rest =
        ' ' :: (text_item v ++ (dump_suffix v ++ (text_tail seq ++ '\n' :: '\n' :: rest))) := by
      simp [text_tail, List.append_assoc]
    have hh := parse_ruleitem_head _ _ _ _ _ _ _ hf1
    have hsk : skip_whitespace
        (' ' :: (text_item v ++ (dump_suffix v ++ (text_tail seq ++ '\n' :: '\n' :: rest)))) =
        text_item v ++ (dump_suffix v ++ (text_tail seq ++ '\n' :: '\n' :: rest)) := by
      rw [skip_whitespace]
      simp only [is_whitespace, beq_self_eq_true, Bool.true_or, if_true]
      exact skip_whitespace_of_head _ hh
    obtain ⟨f, hf⟩ := parse_rule_loop_item P k _ v acc _ _ _ f1 f2 hf1 hty hf2
    refine ⟨f, ?_⟩
    rw [e, parse_two_newlines_of_head _ (by intro c hc; simp at hc; subst hc; decide)]
    simp only
    rw [hsk, hf]
    simp [List.append_assoc]

theorem parse_rule_text (rule : Rule) (rest : Str) (hc : canon_rule rule)
    (hp : uses_plain_seq rule.seq = true) :
    ∃ fuel, parse_rule fuel (text_rule rule ++ ['\n', '\n'] ++ rest) = .ok (some rule, rest) := by
  obtain ⟨hn, hid, hne, hseq⟩ := hc
  obtain ⟨f, hf⟩ := parse_rule_loop_text rule.name rest rule.seq 0 [] hseq hp
  refine ⟨f, ?_⟩
  obtain ⟨name, seq⟩ := rule
  cases seq with
  | nil => exact absurd rfl hne
  | cons v seq =>
    simp only at hn hid hf
    have e : text_tail (v :: seq) ++ '\n' :: '\n' :: rest =
        ' ' :: (text_seq (v :: seq) ++ '\n' :: '\n' :: rest) := by
      simp [text_seq, cut_blank_text_seq_loop, text_tail, List.append_assoc]
    rw [e, parse_two_newlines_of_head _ (by intro c hc; simp at hc; subst hc; decide)] at hf
    simp only [List.nil_append] at hf
    have := parse_rule_of_loop f name [] (' ' :: (text_seq (v :: seq) ++ '\n' :: '\n' :: rest))
      (v :: seq) rest hn hid (by simp) hf (by simp)
    simpa [text_rule, List.append_assoc] using this

theorem text_head (rules : List Rule) (hc : ∀ r ∈ rules, canon_rule r) :
    ∀ c, (text_rules rules).head? = some c → is_identifier c = true := by
  intro c h
  cases rules with
  | nil => simp [text_rules] at h
  | cons r rules =>
    obtain ⟨hn, hid, -, -⟩ := hc r (by simp)
    obtain ⟨d, hd, hdi⟩ := head_identifier r.name
      ([':', ' '] ++ text_seq r.seq ++ ['\n', '\n'] ++ text_rules rules) hn hid
    simp only [text_rules, text_rule, List.append_assoc] at h hd
    rw [hd] at h
    simp only [Option.some.injEq] at h
    subst h; exact hdi

theorem parse_loop_text :
    ∀ (rules : List Rule) (acc : List Rule), (∀ r ∈ rules, canon_rule r) →
      uses_plain rules = true → ∃ fuel, parse_loop fuel (text_rules rules) acc = .ok (acc ++ rules) := by
  intro rules
  induction rules with
  | nil => intro acc _ _; exact ⟨1, by simp [text_rules, parse_loop_nil]⟩
  | cons r rules ih =>
    intro acc hc hp
    simp only [uses_plain, List.all_cons, Bool.and_eq_true] at hp
    have hcr := hc r (by simp)
    have hcs : ∀ x ∈ rules, canon_rule x := fun x hx => hc x (by simp [hx])
    obtain ⟨f1, hf1⟩ := parse_rule_text r (text_rules rules) hcr hp.1
    obtain ⟨f2, hf2⟩ := ih (acc ++ [r]) hcs hp.2
    refine ⟨f1 + f2 + 1, ?_⟩
    have hf1b : parse_rule (f1 + f2) (text_rules (r :: rules)) = .ok (some r, text_rules rules) := by
      rw [parse_rule_fuel_le f1 _ (by omega) _ (by rw [text_rules, hf1]; simp), text_rules, hf1]
    have hhead := text_head (r :: rules) hc
    have hne : is_eof (text_rules (r :: rules)) = false := by
      obtain ⟨hn, -, -, -⟩ := hcr
      cases hr : r.name with
      | nil => exact absurd hr hn
      | cons c n => simp [text_rules, text_rule, hr, is_eof]
    have hh : (text_rules (r :: rules)).head? ≠ some '#' := by
      intro h
      have := hhead '#' h
      revert this; decide
    rw [parse_loop_rule (f1 + f2) _ acc r _ hne hh hf1b,
      skip_whitespace_of_head _ (fun c h => is_identifier_not_whitespace c (text_head rules hcs c h)),
      parse_loop_fuel_le f2 _ (by omega) _ _ (by rw [hf2]; simp), hf2]
    simp [List.append_assoc]

/-- The text of the rule list of an accepted grammar that uses only literals, identifiers,
groups and quantifiers parses to that rule list. -/
theorem parse_text_rules (g : Str) (rules : List Rule) (h : parse g = .ok rules)
    (hp : uses_plain rules = true) : parse (text_rules rules) = .ok rules := by
  have hc := parse_canon_rules g rules h
  obtain ⟨f, hf⟩ := parse_loop_text rules [] hc hp
  apply parse_eq_of_fuel f _ _ _ (by simp)
  rw [skip_whitespace_of_head _
    (fun c h => is_identifier_not_whitespace c (text_head rules hc c h)), hf]
  simp

/-! ## Line comments -/

theorem parse_comment_loop_cons (d : Char) (t : Str) :
    parse_comment_loop (d :: t) =
      match parse_newline (d :: t) with
      | (true, s1) => s1
      | (false, _) => parse_comment_loop t := by
  rw [parse_comment_loop]

theorem parse_comment_loop_line (c g : Str) (hc : '\n' ∉ c) :
    parse_comment_loop (c ++ '\n' :: g) = g := by
  induction c with
  | nil => simp [parse_comment_loop, parse_newline]
  | cons d c ih =>
    have hd : d ≠ '\n' := by
      intro h; apply hc; simp [h]
    have hc2 : '\n' ∉ c := fun h => hc (by simp [h])
    have ih := ih hc2
    rw [List.cons_append, parse_comment_loop_cons]
    cases c with
    | nil =>
      by_cases hr : d = '\r'
      · subst hr; simp [parse_newline]
      · simp only [List.nil_append] at ih ⊢
        simp [parse_newline, hr, hd, ih]
    | cons e c =>
      have he : e ≠ '\n' := by
        intro h; apply hc; simp [h]
      have hn : parse_newline (d :: (e :: c ++ '\n' :: g)) = (false, d :: (e :: c ++ '\n' :: g)) := by
        by_cases hr : d = '\r'
        · subst hr; simp [parse_newline, he]
        · simp [parse_newline, hr, hd]
      rw [hn]
      exact ih

theorem parse_loop_comment (fuel : Nat) (t : Str) (result : List Rule) :
    parse_loop (fuel + 1) ('#' :: t) result =
      parse_loop fuel (skip_whitespace (parse_comment_loop t)) result := by
  simp only [parse_loop, is_eof, List.isEmpty_cons, Bool.false_eq_true, if_false,
    parse_literal_single, if_true]

/-- C11. Line comments between rules are ignored: for every grammar text `g` and every
comment body `c` without a line feed, `parse` applied to `#` + `c` + `\n` + `g` gives
the outcome of `parse` applied to `g`: the same rule list, or the same exception. -/
theorem comment_line_ignored (c g : Str) (hc : '\n' ∉ c) :
    parse (['#'] ++ c ++ ['\n'] ++ g) = parse g := by
  apply parse_eq_of_fuel (3 * g.length + 3 + 1) _ _ _ (parse_ne_out_of_fuel g)
  have hs : skip_whitespace (['#'] ++ c ++ ['\n'] ++ g) = '#' :: (c ++ '\n' :: g) := by
    simp [skip_whitespace, is_whitespace]
  rw [hs, parse_loop_comment, parse_comment_loop_line c g hc]
  rfl

/-- The comment `# two rules` in front of a grammar, and a comment that ends in a
carriage return in front of a text that is refused. -/
theorem comment_line_ignored_witness :
    parse "# two rules\na: \"x\"\n\nb: \"y\"".toList = parse "a: \"x\"\n\nb: \"y\"".toList ∧
    parse "#c\r\na b".toList = parse "a b".toList :=
  ⟨comment_line_ignored " two rules".toList "a: \"x\"\n\nb: \"y\"".toList (by decide),
    comment_line_ignored "c\r".toList "a b".toList (by decide)⟩

/-! ## Termination by progress -/

theorem parse_group_loop_iteration (fuel : Nat) (s n : Str) (i : Nat) (seq : List RuleItem)
    (hs : is_eof s = false) (hf : 3 * s.length ≤ fuel) :
    (∃ a, a ≠ .out_of_fuel ∧ parse_group_loop (fuel + 1) s n i seq = .error a) ∨
    (∃ s1, s1.length < s.length ∧ parse_group_loop (fuel + 1) s n i seq = .ok (seq, s1)) ∨
    (∃ s1 i1 seq1, s1.length < s.length ∧
      parse_group_loop (fuel + 1) s n i seq = parse_group_loop fuel s1 n i1 seq1) := by
  have hpos := is_eof_false_length s (by simp [hs])
  simp only [parse_group_loop, hs, Bool.false_eq_true, if_false]
  split
  · rename_i s2 hs2
    have e := parse_literal_single_true _ _ _ hs2
    exact Or.inr (Or.inl ⟨s2, by rw [e]; simp, rfl⟩)
  · rename_i s2 hs2
    have e := (parse_literal_single_false _ _ _ hs2).1
    subst e
    have hne := (fuel_enough fuel).2.2 s2 n i hf (by omega)
    split
    · rename_i a ha
      exact Or.inl ⟨a, by rintro rfl; exact hne ha, rfl⟩
    · exact Or.inl ⟨_, by simp, rfl⟩
    · rename_i r s3 i3 hr
      have l1 := (parse_progress fuel).2.2 _ _ _ _ _ _ hr
      have l2 := skip_whitespace_length_le s3
      split
      · rename_i a ha
        exact Or.inl ⟨a, by rintro rfl; exact fold_item_ne_out_of_fuel _ _ ha, rfl⟩
      · rename_i seq1 _
        exact Or.inr (Or.inr ⟨skip_whitespace s3, i3, seq1, by omega, rfl⟩)

theorem parse_rule_loop_iteration (fuel : Nat) (s n : Str) (i : Nat) (seq : List RuleItem)
    (hs : is_eof s = false) (hf : 3 * s.length ≤ fuel) :
    (∃ a, a ≠ .out_of_fuel ∧ parse_rule_loop (fuel + 1) s n i seq = .error a) ∨
    (∃ s1 seq1, s1.length < s.length ∧ parse_rule_loop (fuel + 1) s n i seq = .ok (seq1, s1)) ∨
    (∃ s1 i1 seq1, s1.length < s.length ∧
      parse_rule_loop (fuel + 1) s n i seq = parse_rule_loop fuel s1 n i1 seq1) := by
  have hpos := is_eof_false_length s (by simp [hs])
  simp only [parse_rule_loop, hs, Bool.false_eq_true, if_false]
  have hne := (fuel_enough fuel).2.2 s n i hf (by omega)
  split
  · rename_i a ha
    exact Or.inl ⟨a, by rintro rfl; exact hne ha, rfl⟩
  · exact Or.inl ⟨_, by simp, rfl⟩
  · rename_i r s3 i3 hr
    have l1 := (parse_progress fuel).2.2 _ _ _ _ _ _ hr
    split
    · rename_i a ha
      exact Or.inl ⟨a, by rintro rfl; exact fold_item_ne_out_of_fuel _ _ ha, rfl⟩
    · rename_i seq1 _
      have l2 := parse_two_newlines_length s3
      split
      · rename_i s4 hs4
        rw [hs4] at l2
        exact Or.inr (Or.inl ⟨s4, seq1, by simp at l2; omega, rfl⟩)
      · rename_i s4 hs4
        rw [hs4] at l2
        have l3 := skip_whitespace_length_le s4
        exact Or.inr (Or.inr ⟨skip_whitespace s4, i3, seq1, by simp at l2; omega, rfl⟩)

theorem parse_loop_iteration (fuel : Nat) (s : Str) (result : List Rule)
    (hs : is_eof s = false) (hf : 3 * s.length ≤ fuel) :
    (∃ a, a ≠ .out_of_fuel ∧ parse_loop (fuel + 1) s result = .error a) ∨
    (∃ s1 result1, s1.length < s.length ∧
      parse_loop (fuel + 1) s result = parse_loop fuel s1 result1) := by
  simp only [parse_loop, hs, Bool.false_eq_true, if_false]
  split
  · rename_i s1 hs1
    have e := parse_literal_single_true _ _ _ hs1
    have l1 := parse_comment_loop_length s1
    have l2 := skip_whitespace_length_le (parse_comment_loop s1)
    exact Or.inr ⟨_, result, by rw [e]; simp; omega, rfl⟩
  · rename_i s1 hs1
    have e := (parse_literal_single_false _ _ _ hs1).1
    subst e
    have hne := parse_rule_fuel_enough fuel s1 hf
    split
    · rename_i a ha
      exact Or.inl ⟨a, by rintro rfl; exact hne ha, rfl⟩
    · exact Or.inl ⟨_, by simp, rfl⟩
    · rename_i rule s2 hr
      have l1 := parse_rule_progress _ _ _ _ hr
      have l2 := skip_whitespace_length_le s2
      exact Or.inr ⟨_, _, by omega, rfl⟩

/-- C12. Termination by progress. `parse` terminates on every input: with three steps for
each character and three more the loops never use up their budget, so `parse` returns a
rule list or leaves by an exception of the C++ code, and every larger budget gives the
same outcome. The reason is progress: a successful `parse_ruleitem` and a successful
`parse_group` (the recursive calls) leave the cursor strictly nearer to the end, and
every iteration of the loops of `parse_group`, `parse_rule` and `parse`, entered with
input left, aborts with an exception, ends the loop behind consumed input, or goes on
to the next iteration with a strictly shorter remaining input. -/
theorem parse_terminates_by_progress :
    (∀ str : Str, parse str ≠ .error .out_of_fuel) ∧
    (∀ (str : Str) (fuel : Nat), 3 * str.length + 3 ≤ fuel →
      parse_loop fuel (skip_whitespace str) [] = parse str) ∧
    (∀ (fuel : Nat) (s p : Str) (i : Nat) (r : RuleItem) (s1 : Str) (i1 : Nat),
      parse_ruleitem fuel s p i = .ok (some r, s1, i1) → s1.length < s.length) ∧
    (∀ (fuel : Nat) (s p : Str) (i : Nat) (g : RuleItemGroup) (s1 : Str) (i1 : Nat),
      parse_group fuel s p i = .ok (some g, s1, i1) → s1.length < s.length) ∧
    (∀ (fuel : Nat) (s n : Str) (i : Nat) (seq : List RuleItem),
      is_eof s = false → 3 * s.length ≤ fuel →
      (∃ a, a ≠ .out_of_fuel ∧ parse_group_loop (fuel + 1) s n i seq = .error a) ∨
      (∃ s1, s1.length < s.length ∧ parse_group_loop (fuel + 1) s n i seq = .ok (seq, s1)) ∨
      (∃ s1 i1 seq1, s1.length < s.length ∧
        parse_group_loop (fuel + 1) s n i seq = parse_group_loop fuel s1 n i1 seq1)) ∧
    (∀ (fuel : Nat) (s n : Str) (i : Nat) (seq : List RuleItem),
      is_eof s = false → 3 * s.length ≤ fuel →
      (∃ a, a ≠ .out_of_fuel ∧ parse_rule_loop (fuel + 1) s n i seq = .error a) ∨
      (∃ s1 seq1, s1.length < s.length ∧
        parse_rule_loop (fuel + 1) s n i seq = .ok (seq1, s1)) ∨
      (∃ s1 i1 seq1, s1.length < s.length ∧
        parse_rule_loop (fuel + 1) s n i seq = parse_rule_loop fuel s1 n i1 seq1)) ∧
    (∀ (fuel : Nat) (s : Str) (result : List Rule),
      is_eof s = false → 3 * s.length ≤ fuel →
      (∃ a, a ≠ .out_of_fuel ∧ parse_loop (fuel + 1) s result = .error a) ∨
      (∃ s1 result1, s1.length < s.length ∧
        parse_loop (fuel + 1) s result = parse_loop fuel s1 result1)) :=
  ⟨parse_ne_out_of_fuel,
    fun str _ h => parse_loop_fuel_le _ _ h _ _ (parse_ne_out_of_fuel str),
    fun fuel => (parse_progress fuel).2.2,
    fun fuel => (parse_progress fuel).1,
    parse_group_loop_iteration, parse_rule_loop_iteration, parse_loop_iteration⟩

/-- On the unclosed text `a: ((b` the budget of `parse` is 24 steps; a budget of 100
steps gives the same outcome, and the item parser leaves 0 of the 3 characters of
`((b`. -/
theorem parse_terminates_by_progress_witness :
    parse_loop 100 (skip_whitespace "a: ((b".toList) [] = parse "a: ((b".toList ∧
    ([] : Str).length < "((b".toList.length :=
  ⟨parse_terminates_by_progress.2.1 "a: ((b".toList 100 (by decide),
    parse_terminates_by_progress.2.2.1 9 "((b".toList ['a'] 0
      (.of_group (.mk "a_$g0".toList
        [.of_group (.mk "a_$g0_$g0".toList [.of_identifier ['b']])])) [] 1 (by rfl)⟩

/-! ## Scanners in detail: hex escapes, identifiers, literals -/

theorem char_le_iff (a b : Char) : a ≤ b ↔ a.toNat ≤ b.toNat := Iff.rfl

theorem hex2num_lt (c : Char) : hex2num c < 16 := by
  unfold hex2num
  split_ifs with h1 h2 h3
  · simp only [Bool.and_eq_true, decide_eq_true_eq, ge_iff_le, char_le_iff] at h1
    have : 'f'.toNat = 102 := rfl
    have : 'a'.toNat = 97 := rfl
    omega
  · simp only [Bool.and_eq_true, decide_eq_true_eq, ge_iff_le, char_le_iff] at h2
    have : 'F'.toNat = 70 := rfl
    have : 'A'.toNat = 65 := rfl
    omega
  · simp only [Bool.and_eq_true, decide_eq_true_eq, ge_iff_le, char_le_iff] at h3
    have : '9'.toNat = 57 := rfl
    have : '0'.toNat = 48 := rfl
    omega
  · omega

theorem shift_or_low (a b : Nat) (ha : a < 16) (hb : b < 16) : ((a <<< 8) ||| b) % 256 = b := by
  interval_cases a <;> interval_cases b <;> rfl

theorem hex_escape_eq (c0 c1 : Char) : hex_escape c0 c1 = Char.ofNat (hex2num c1) := by
  unfold hex_escape
  rw [shift_or_low _ _ (hex2num_lt c0) (hex2num_lt c1)]

/-- C15, the code at the failing input. `parse_string` on the quoted text `\x41` returns the
one character with the value 1, not `A` (value 65 = 16 * 4 + 1): for all characters `h`
and `l` the escape `\xhl` gives the character with the value `hex2num l`, because
`hex2num(h) << 8` has no bit among the low eight bits that the conversion to `char`
keeps. -/
theorem hex_escape_keeps_low_digit :
    parse_string "\"\\x41\"".toList = (some [Char.ofNat 1], []) ∧
    16 * hex2num '4' + hex2num '1' = 'A'.toNat ∧
    Char.ofNat 1 ≠ 'A' ∧
    (∀ h l : Char, parse_string ['"', '\\', 'x', h, l, '"'] = (some [Char.ofNat (hex2num l)], [])) := by
  refine ⟨by rfl, by rfl, by decide, ?_⟩
  intro h l
  simp [parse_string, parse_literal_single, parse_string_loop, hex_escape_eq]

theorem is_identifier_iff (c : Char) :
    is_identifier c = true ↔
      ('a' ≤ c ∧ c ≤ 'z') ∨ ('A' ≤ c ∧ c ≤ 'Z') ∨ ('0' ≤ c ∧ c ≤ '9') ∨ c = '_' := by
  simp [is_identifier, or_assoc]

theorem takeWhile_prefix_max (p : Char → Bool) (s q : Str) (hq : q <+: s)
    (hall : ∀ c ∈ q, p c = true) : q <+: s.takeWhile p := by
  induction q generalizing s with
  | nil => exact List.nil_prefix
  | cons d q ih =>
    obtain ⟨t, rfl⟩ := hq
    have hd := hall d (by simp)
    simp only [List.cons_append, List.takeWhile, hd]
    exact (List.prefix_cons_inj d).mpr
      (ih (q ++ t) (List.prefix_append q t) (fun c hc => hall c (by simp [hc])))

theorem dropWhile_head (p : Char → Bool) (s : Str) :
    ∀ c, (s.dropWhile p).head? = some c → p c = false := by
  intro c hc
  induction s with
  | nil => simp at hc
  | cons d s ih =>
    by_cases hd : p d = true
    · simp only [List.dropWhile, hd] at hc
      exact ih hc
    · simp only [List.dropWhile, hd] at hc
      simp only [List.head?_cons, Option.some.injEq] at hc
      subst hc
      simpa using hd

/-- C19. `parse_identifier` is maximal munch. It returns none exactly when the cursor is at
the end of the input or at a character outside `[A-Za-z0-9_]`, and the cursor is then
unchanged; otherwise it returns a non-empty prefix `v` of the remaining input made of
characters of the class only, the longest such prefix (every prefix made of such
characters is a prefix of `v`), and leaves the cursor behind it, on a character outside
the class or at the end. The class is the one `is_identifier` tests. -/
theorem parse_identifier_maximal_munch (s : Str) :
    ((parse_identifier s).1 = none ↔
      s = [] ∨ ∃ c t, s = c :: t ∧ is_identifier c = false) ∧
    ((parse_identifier s).1 = none → (parse_identifier s).2 = s) ∧
    (∀ v, (parse_identifier s).1 = some v →
      v ≠ [] ∧ s = v ++ (parse_identifier s).2 ∧ (∀ c ∈ v, is_identifier c = true) ∧
      (∀ c, (parse_identifier s).2.head? = some c → is_identifier c = false) ∧
      (∀ q, q <+: s → (∀ c ∈ q, is_identifier c = true) → q <+: v)) ∧
    (∀ c : Char, is_identifier c = true ↔
      ('a' ≤ c ∧ c ≤ 'z') ∨ ('A' ≤ c ∧ c ≤ 'Z') ∨ ('0' ≤ c ∧ c ≤ '9') ∨ c = '_') := by
  refine ⟨?_, parse_identifier_fail s, ?_, is_identifier_iff⟩
  · rw [parse_identifier_eq]
    cases s with
    | nil => simp
    | cons c t =>
      by_cases hc : is_identifier c = true
      · simp [List.takeWhile, hc]
      · simp [List.takeWhile, hc]
  · intro v hv
    rw [parse_identifier_eq] at hv ⊢
    split_ifs at hv ⊢ with h
    simp only [Option.some.injEq] at hv
    subst hv
    exact ⟨h, (List.takeWhile_append_dropWhile _ _).symm, takeWhile_is_identifier s,
      dropWhile_head _ s, fun q hq hall => takeWhile_prefix_max _ s q hq hall⟩

/-- On `ab_1 c` the identifier `ab_1` is returned and the cursor is left on the blank; on
` c`, which starts outside the class, nothing is returned and the cursor stays. -/
theorem parse_identifier_maximal_munch_witness :
    ("ab_1".toList ≠ [] ∧ "ab_1 c".toList = "ab_1".toList ++ (parse_identifier "ab_1 c".toList).2 ∧
      (∀ c ∈ "ab_1".toList, is_identifier c = true) ∧
      (∀ c, (parse_identifier "ab_1 c".toList).2.head? = some c → is_identifier c = false) ∧
      (∀ q, q <+: "ab_1 c".toList → (∀ c ∈ q, is_identifier c = true) → q <+: "ab_1".toList)) ∧
    (parse_identifier " c".toList).2 = " c".toList :=
  ⟨(parse_identifier_maximal_munch "ab_1 c".toList).2.2.1 "ab_1".toList (by decide),
    (parse_identifier_maximal_munch " c".toList).2.1 (by decide)⟩

theorem parse_literal_loop_iff (lit : Str) : ∀ s : Str, parse_literal_loop s lit = true ↔ lit <+: s := by
  induction lit with
  | nil => intro s; simp [parse_literal_loop]
  | cons l lit ih =>
    intro s
    cases s with
    | nil => simp [parse_literal_loop]
    | cons c s =>
      by_cases h : c = l
      · subst h
        simp [parse_literal_loop, ih, List.cons_prefix_cons]
      · have h2 : ¬ l = c := fun e => h e.symm
        simp [parse_literal_loop, h, h2, List.cons_prefix_cons]

/-- C20, counterexample. At the end of the input `parse_literal` with the empty text
returns false, although the (empty) remaining input begins with the empty text. -/
theorem parse_literal_empty_at_end :
    (parse_literal [] []).1 = false ∧ ([] : Str) <+: ([] : Str) :=
  ⟨rfl, List.nil_prefix⟩

/-- C20, amended. `parse_literal` returns true exactly when the remaining input is not
empty and begins with `lit` (the first test of the function refuses every text, also
the empty one, at the end of the input); it then advances the cursor by exactly the
length of `lit`, past the copy of `lit`; otherwise it returns false and the cursor is
unchanged. -/
theorem parse_literal_exact_match (s lit : Str) :
    ((parse_literal s lit).1 = true ↔ s ≠ [] ∧ lit <+: s) ∧
    ((parse_literal s lit).1 = true →
      (parse_literal s lit).2 = s.drop lit.length ∧ s = lit ++ (parse_literal s lit).2) ∧
    ((parse_literal s lit).1 = false → (parse_literal s lit).2 = s) := by
  have key : (parse_literal s lit).1 = true ↔ s ≠ [] ∧ lit <+: s := by
    unfold parse_literal
    cases s with
    | nil => simp [is_eof]
    | cons c t =>
      simp only [is_eof, List.isEmpty_cons, Bool.false_eq_true, if_false, ne_eq,
        not_false_eq_true, true_and, reduceCtorEq]
      split_ifs with h1 h2
      · simp only [Bool.false_eq_true, false_iff]
        intro hp
        have := hp.length_le
        omega
      · simp only [Bool.not_eq_true'] at h2
        simp only [Bool.false_eq_true, false_iff, ← parse_literal_loop_iff, h2]
      · simp only [Bool.not_eq_true', Bool.not_eq_false] at h2
        simp [← parse_literal_loop_iff, h2]
  refine ⟨key, ?_, parse_literal_fail s lit⟩
  intro h
  obtain ⟨hs, t, ht⟩ := key.mp h
  have h2 : (parse_literal s lit).2 = s.drop lit.length := by
    unfold parse_literal at h ⊢
    split_ifs at h ⊢
    simp_all
  refine ⟨h2, ?_⟩
  rw [h2, ← ht]
  simp

/-- On `ab)` the text `ab` is matched and the cursor is left on `)`; the text `ac` is not
matched and the cursor stays. -/
theorem parse_literal_exact_match_witness :
    ((parse_literal "ab)".toList "ab".toList).2 = "ab)".toList.drop 2 ∧
      "ab)".toList = "ab".toList ++ (parse_literal "ab)".toList "ab".toList).2) ∧
    (parse_literal "ab)".toList "ac".toList).2 = "ab)".toList :=
  ⟨(parse_literal_exact_match "ab)".toList "ab".toList).2.1 (by decide),
    (parse_literal_exact_match "ab)".toList "ac".toList).2.2 (by decide)⟩

/-! ## Stored sequences, unclosed groups and the rendering of the dumper -/

/-- C18, the code at the failing input. On `("a"` with nothing behind it `parse_group` leaves
its loop at the end of the input and returns the group: the text it consumed, all five
characters, does not end with `)`, and `parse` applied to `r: ("a"` returns the rule
`r` with that Group item. -/
theorem unclosed_group_is_returned :
    parse_group 5 "(\"a\"".toList ['r'] 0 =
      .ok (some (.mk "r_$g0".toList [.of_literal ['a']]), [], 1) ∧
    "(\"a\"".toList.getLast? ≠ some ')' ∧
    parse "r: (\"a\"".toList =
      .ok [⟨['r'], [.of_group (.mk "r_$g0".toList [.of_literal ['a']])]⟩] ∧
    parse "r: (\"a\"".toList = parse "r: (\"a\")".toList :=
  ⟨by rfl, by decide, by rfl, by rfl⟩

theorem canon_item_stored (P : Str) (k : Nat) (v : RuleItem) (h : canon_item P k v) :
    v.type = .Literal ∨ v.type = .Identifier ∨ v.type = .Group ∨ v.type = .Or := by
  obtain ⟨t, l, i, ⟨name, gseq⟩, o, m, n⟩ := v
  cases t <;> simp [canon_item, RuleItem.type] at h ⊢

theorem canon_seq_stored (P : Str) (seq : List RuleItem) :
    ∀ k, canon_seq P k seq →
      ∀ v ∈ seq, v.type = .Literal ∨ v.type = .Identifier ∨ v.type = .Group ∨ v.type = .Or := by
  induction seq with
  | nil => intro k _ v hv; simp at hv
  | cons w seq ih =>
    intro k h v hv
    simp only [canon_seq] at h
    rcases List.mem_cons.mp hv with rfl | hv
    · exact canon_item_stored P k _ h.1
    · exact ih _ h.2 v hv

theorem update_back_length (seq : List RuleItem) (f : RuleItem → RuleItem) :
    (update_back seq f).length = seq.length := by
  rcases List.eq_nil_or_concat seq with rfl | ⟨l, b, rfl⟩
  · rfl
  · rw [List.concat_eq_append, update_back_append]; simp

/-- C17. Stored-sequence invariant: in every AST that `parse` returns, every item of every
rule sequence and of the sequence of every group, at any depth, has type Literal,
Identifier, Group or Or, so none has the type of a postfix marker; and when the fold
policy accepts a marker (`*`, `+`, `?` or `^`) the sequence being built keeps its
length. -/
theorem stored_sequence_invariant :
    (∀ (str : Str) (rules : List Rule), parse str = .ok rules → ∀ r ∈ rules,
      (∀ v ∈ r.seq,
        (v.type = .Literal ∨ v.type = .Identifier ∨ v.type = .Group ∨ v.type = .Or) ∧
        v.type ≠ .ZeroOrMore ∧ v.type ≠ .OneOrMore ∧ v.type ≠ .ZeroOrOne ∧ v.type ≠ .Negate) ∧
      (∀ G ∈ collect_groups r.seq, ∀ v ∈ G.seq,
        (v.type = .Literal ∨ v.type = .Identifier ∨ v.type = .Group ∨ v.type = .Or) ∧
        v.type ≠ .ZeroOrMore ∧ v.type ≠ .OneOrMore ∧ v.type ≠ .ZeroOrOne ∧ v.type ≠ .Negate)) ∧
    (∀ (seq seq1 : List RuleItem) (r : RuleItem),
      (r.type = .ZeroOrMore ∨ r.type = .OneOrMore ∨ r.type = .ZeroOrOne ∨ r.type = .Negate) →
      fold_item seq r = .ok seq1 → seq1.length = seq.length) := by
  have aux : ∀ t : RuleItemType, (t = .Literal ∨ t = .Identifier ∨ t = .Group ∨ t = .Or) →
      (t = .Literal ∨ t = .Identifier ∨ t = .Group ∨ t = .Or) ∧
        t ≠ .ZeroOrMore ∧ t ≠ .OneOrMore ∧ t ≠ .ZeroOrOne ∧ t ≠ .Negate := by
    intro t ht
    refine ⟨ht, ?_⟩
    rcases ht with h | h | h | h <;> subst h <;> simp
  refine ⟨?_, ?_⟩
  · intro str rules h r hr
    have hc := (parse_canon_rules str rules h r hr).2.2.2
    refine ⟨fun v hv => aux _ (canon_seq_stored _ _ _ hc v hv), ?_⟩
    intro G hG v hv
    exact aux _ (canon_seq_stored _ _ _ (collect_groups_canon r.seq r.name 0 hc G hG) v hv)
  · intro seq seq1 r hr hf
    by_cases h4 : r.type = .Negate
    · rcases List.eq_nil_or_concat seq with rfl | ⟨l, b, rfl⟩
      · rw [fold_item_negate_nil r h4] at hf
        simp only [Except.ok.injEq] at hf
        rw [← hf]
      · rw [List.concat_eq_append] at hf ⊢
        rw [fold_item_negate_concat l b r h4] at hf
        split_ifs at hf
        simp only [Except.ok.injEq] at hf
        rw [← hf]; simp
    · unfold fold_item at hf
      split_ifs at hf with h1 h2 h3
      · simp only [Except.ok.injEq] at hf
        rw [← hf, update_back_length]
      · simp only [Except.ok.injEq] at hf
        rw [← hf, update_back_length]
      · simp only [Except.ok.injEq] at hf
        rw [← hf, update_back_length]
      · rcases hr with hr | hr | hr | hr <;> contradiction

/-- The grammar `r: ("a"* | b)+ c?`: the items of `r` and of its group are a Group, an
Identifier, a Literal and an Or; folding `*` into the sequence of one literal leaves
one item. -/
theorem stored_sequence_invariant_witness :
    (∀ v ∈ [RuleItem.mk .Group [] [] (.mk "r_$g0".toList
          [.mk .Literal ['a'] [] (.mk [] []) true true false, .marker .Or,
            .of_identifier ['b']]) false true false,
        .mk .Identifier [] ['c'] (.mk [] []) true false false],
      (v.type = .Literal ∨ v.type = .Identifier ∨ v.type = .Group ∨ v.type = .Or) ∧
      v.type ≠ .ZeroOrMore ∧ v.type ≠ .OneOrMore ∧ v.type ≠ .ZeroOrOne ∧ v.type ≠ .Negate) ∧
    [RuleItem.mk .Literal ['a'] [] (.mk [] []) true true false].length =
      [RuleItem.of_literal ['a']].length :=
  have h : parse "r: (\"a\"* | b)+ c?".toList = .ok [⟨['r'],
      [.mk .Group [] [] (.mk "r_$g0".toList
          [.mk .Literal ['a'] [] (.mk [] []) true true false, .marker .Or,
            .of_identifier ['b']]) false true false,
        .mk .Identifier [] ['c'] (.mk [] []) true false false]⟩] := by rfl
  ⟨(stored_sequence_invariant.1 _ _ h _ (List.Mem.head _)).1,
    stored_sequence_invariant.2 [.of_literal ['a']] _ (.marker .ZeroOrMore) (Or.inl rfl)
      (by rfl)⟩

theorem intercalate_space_cons (r : Str) (rs : List Str) :
    [' '].intercalate (r :: rs) = r ++ (rs.map fun x => ' ' :: x).flatten := by
  induction rs generalizing r with
  | nil => simp [List.intercalate]
  | cons x rs ih =>
    have := ih x
    simp only [List.intercalate, List.intersperse, List.flatten_cons, List.map_cons] at this ⊢
    rw [this]
    simp

theorem text_tail_eq (seq : List RuleItem) :
    text_tail seq = (seq.map fun v => ' ' :: (text_item v ++ dump_suffix v)).flatten := by
  induction seq with
  | nil => rfl
  | cons v seq ih => simp [text_tail, ih]

theorem text_item_group (v : RuleItem) (h : v.type = .Group) :
    text_item v = ['('] ++ text_seq v.group.seq ++ [')'] := by
  obtain ⟨t, l, i, ⟨name, gseq⟩, o, m, n⟩ := v
  simp only [RuleItem.type] at h
  subst h
  simp [text_item, text_seq, RuleItem.group, RuleItemGroup.seq]

/-- The text of a non-empty sequence is the texts of its items with their suffixes, joined
by one space. -/
theorem text_seq_intercalate (seq : List RuleItem) (hseq : seq ≠ []) :
    text_seq seq = [' '].intercalate (seq.map fun v => text_item v ++ dump_suffix v) := by
  cases seq with
  | nil => exact absurd rfl hseq
  | cons v seq =>
    rw [text_seq, cut_blank_text_seq_loop, List.map_cons, intercalate_space_cons,
      text_tail_eq, List.map_map]
    rfl

/-! ## Generated parsers: ordered choice and the backtracking contract -/

theorem alternatives_cons (it : RuleItem) (rest : List RuleItem) :
    alternatives (it :: rest) =
      if it.type = .Or then [] :: alternatives rest
      else (alternatives rest).modifyHead (List.cons it) := by
  simp [alternatives, List.splitOnP_cons]

theorem alternatives_ne_nil (seq : List RuleItem) : alternatives seq ≠ [] :=
  List.splitOnP_ne_nil _ _

/-- Only the empty sequence has the one empty alternative as its split. -/
theorem alternatives_ne_single_nil (seq : List RuleItem) (h : seq ≠ []) :
    alternatives seq ≠ [[]] := by
  cases seq with
  | nil => exact absurd rfl h
  | cons it rest =>
    rw [alternatives_cons]
    have hr := alternatives_ne_nil rest
    cases hs : alternatives rest with
    | nil => exact absurd hs hr
    | cons a as => split_ifs <;> simp [List.modifyHead]

theorem emitted_blocks_cons (a : List RuleItem) (as : List (List RuleItem))
    (h : a ≠ [] ∨ as ≠ []) : emitted_blocks (a :: as) = a :: emitted_blocks as := by
  cases as with
  | nil =>
    cases a with
    | nil => simp at h
    | cons x xs => simp [emitted_blocks]
  | cons b bs => simp [emitted_blocks]

/-- What is left when a block is rerun from the caller's cursor: the first alternative,
then ordered choice over the blocks of the others. -/
theorem first_match_blocks (P : RuleItem → Str → Outcome) (n : Nat) (s : Str)
    (a : List RuleItem) (as : List (List RuleItem)) (h : a ≠ [] ∨ as ≠ []) :
    first_match P n s (emitted_blocks (a :: as)) =
      match match_alternative P n a s [] with
      | none => none
      | some (some r) => some (some r)
      | some none => first_match P n s (emitted_blocks as) := by
  rw [emitted_blocks_cons a as h, first_match]

/-- The emitted blocks, followed statement by statement, are ordered choice over the
alternatives of the sequence. -/
theorem exec_seq_first_match (P : RuleItem → Str → Outcome) (n : Nat) (s : Str) :
    ∀ (seq a : List RuleItem) (as : List (List RuleItem)), alternatives seq = a :: as →
      (∀ sc group, exec_seq P n s seq (.run sc group) =
        match match_alternative P n a sc group with
        | none => none
        | some (some r) => some (some r)
        | some none => first_match P n s (emitted_blocks as)) ∧
      exec_seq P n s seq .skip = first_match P n s (emitted_blocks as) := by
  intro seq
  induction seq with
  | nil =>
    intro a as h
    simp [alternatives] at h
    obtain ⟨rfl, rfl⟩ := h
    exact ⟨fun sc group => rfl, rfl⟩
  | cons it rest ih =>
    intro a as h
    rw [alternatives_cons] at h
    obtain ⟨a', as', hr⟩ := List.exists_cons_of_ne_nil (alternatives_ne_nil rest)
    obtain ⟨ihr, ihs⟩ := ih a' as' hr
    by_cases hor : it.type = .Or
    · rw [if_pos hor, hr] at h
      simp only [List.cons.injEq] at h
      obtain ⟨rfl, rfl⟩ := h
      refine ⟨fun sc group => by simp [exec_seq, hor, match_alternative], ?_⟩
      simp only [exec_seq, hor, if_true]
      cases rest with
      | nil =>
        simp [alternatives] at hr
        obtain ⟨rfl, rfl⟩ := hr
        rfl
      | cons x xs =>
        simp only [List.isEmpty_cons, Bool.false_eq_true, if_false]
        rw [ihr s [], first_match_blocks]
        by_cases ha : a' = []
        · right
          rintro rfl
          exact alternatives_ne_single_nil (x :: xs) (by simp) (by rw [hr, ha])
        · exact Or.inl ha
    · rw [if_neg hor, hr] at h
      simp only [List.modifyHead, List.cons.injEq] at h
      obtain ⟨rfl, rfl⟩ := h
      refine ⟨fun sc group => ?_, by simp only [exec_seq, hor, if_false]; exact ihs⟩
      simp only [exec_seq, hor, if_false, match_alternative]
      cases hi : exec_item P n it sc group with
      | none => rfl
      | some st =>
        cases st with
        | run sc2 group2 => exact ihr sc2 group2
        | skip => simpa using ihs

/-- The emitted function, where it is emitted, is ordered choice over the blocks of its
sequence, each tried from the caller's cursor with an empty child list. -/
theorem emitted_parse_first_match (rules : List Rule) (fuel : Nat) (seq : List RuleItem)
    (name : Str) (ptype : ParsedType) (s : Str) :
    emitted_parse rules (fuel + 1) seq name ptype s =
      if (generate_code rules).functions.isNone || (dump_seq seq).isNone then none
      else
        match first_match (emitted_call rules (emitted_parse rules fuel)) fuel s
            (emitted_blocks (alternatives seq)) with
        | none => none
        | some (some (sc, group)) => some (some (.mk ptype name [] group), sc)
        | some none => some (none, s) := by
  have key : (if seq.isEmpty then some none
      else exec_seq (emitted_call rules (emitted_parse rules fuel)) fuel s seq (.run s [])) =
      first_match (emitted_call rules (emitted_parse rules fuel)) fuel s
        (emitted_blocks (alternatives seq)) := by
    cases seq with
    | nil => rfl
    | cons x xs =>
      obtain ⟨a, as, hr⟩ := List.exists_cons_of_ne_nil (alternatives_ne_nil (x :: xs))
      simp only [List.isEmpty_cons, Bool.false_eq_true, if_false]
      rw [(exec_seq_first_match _ fuel s (x :: xs) a as hr).1 s [], hr, first_match_blocks]
      by_cases ha : a = []
      · right
        rintro rfl
        exact alternatives_ne_single_nil (x :: xs) (by simp) (by rw [hr, ha])
      · exact Or.inl ha
  rw [← key]
  rfl

/-- The first alternative that matches decides ordered choice, whatever stands behind
it. -/
theorem first_match_append (P : RuleItem → Str → Outcome) (n : Nat) (s : Str)
    (pre : List (List RuleItem)) (b : List RuleItem) (post : List (List RuleItem))
    (r : Str × List Parsed) (hpre : ∀ a ∈ pre, match_alternative P n a s [] = some none)
    (hb : match_alternative P n b s [] = some (some r)) :
    first_match P n s (pre ++ b :: post) = some (some r) := by
  induction pre with
  | nil => simp [first_match, hb]
  | cons a as ih =>
    have ha := hpre a (List.mem_cons_self a as)
    simp only [List.cons_append, first_match, ha]
    exact ih fun x hx => hpre x (List.mem_cons_of_mem a hx)

/-- The first block whose items all match gives the result of an emitted function: the
blocks behind it are not run, so the result is the same whatever they are, also when a
call in one of them would not return. -/
theorem emitted_parse_first_block (rules : List Rule) (fuel : Nat) (seq : List RuleItem)
    (name : Str) (ptype : ParsedType) (s sc : Str) (group : List Parsed)
    (pre : List (List RuleItem)) (b : List RuleItem) (post : List (List RuleItem))
    (hcode : (generate_code rules).functions.isNone = false)
    (hrule : (dump_seq seq).isNone = false)
    (hseq : emitted_blocks (alternatives seq) = pre ++ b :: post)
    (hpre : ∀ a ∈ pre,
      match_alternative (emitted_call rules (emitted_parse rules fuel)) fuel a s [] = some none)
    (hb : match_alternative (emitted_call rules (emitted_parse rules fuel)) fuel b s [] =
      some (some (sc, group))) :
    emitted_parse rules (fuel + 1) seq name ptype s =
      some (some (.mk ptype name [] group), sc) := by
  rw [emitted_parse_first_match, hcode, hrule, hseq,
    first_match_append _ _ _ pre b post _ hpre hb]
  rfl

/-- C13, the code at the failing input. The rule `r: "a" |` is accepted by `parse` and has
the two alternatives `"a"` and the empty one. On the text `b` the function emitted for it
reports no match, although all items of the empty alternative match there, as they do
when that alternative is run on its own: no block is emitted for an alternative that is
empty and the last one. An empty alternative in front, `r: | "a"`, has a block and wins
on the same text with no children. On the rule `r: "a" | "ab"` and the text `ab` the
first alternative wins and only `a` is consumed. -/
theorem last_empty_alternative_not_tried :
    parse "r: \"a\" |".toList = .ok [⟨['r'], [.of_literal ['a'], .marker .Or]⟩] ∧
    alternatives [.of_literal ['a'], .marker .Or] = [[.of_literal ['a']], []] ∧
    (∀ fuel, emitted_parse [⟨['r'], [.of_literal ['a'], .marker .Or]⟩] (fuel + 1)
      [.of_literal ['a'], .marker .Or] ['r'] .Identifier ['b'] = some (none, ['b'])) ∧
    (∀ P fuel, match_alternative P fuel [] ['b'] [] = some (some (['b'], []))) ∧
    (∀ fuel, emitted_parse [⟨['r'], [.marker .Or, .of_literal ['a']]⟩] (fuel + 1)
      [.marker .Or, .of_literal ['a']] ['r'] .Identifier ['b'] =
        some (some (.mk .Identifier ['r'] [] []), ['b'])) ∧
    (∀ fuel, emitted_parse [⟨['r'], [.of_literal ['a'], .marker .Or, .of_literal ['a', 'b']]⟩]
      (fuel + 1) [.of_literal ['a'], .marker .Or, .of_literal ['a', 'b']] ['r'] .Identifier
      ['a', 'b'] =
        some (some (.mk .Identifier ['r'] [] [.mk .Literal [] ['a'] []]), ['b'])) :=
  ⟨by rfl, by rfl, fun _ => by rfl, fun _ _ => by rfl, fun _ => by rfl, fun _ => by rfl⟩

/-- The emitted `$parse_negate_literal` by cases: at the end of the input and on an input
that begins with the literal it fails and returns the cursor it was given, everywhere
else it takes one character. -/
theorem emitted_parse_negate_literal_eq (s lit : Str) :
    emitted_parse_negate_literal s lit =
      match s with
      | [] => (none, [])
      | c :: t => if lit <+: c :: t then (none, c :: t) else (some (.mk .Literal [] [c] []), t) := by
  cases s with
  | nil => rfl
  | cons c t =>
    simp only [emitted_parse_negate_literal]
    by_cases h : lit <+: c :: t
    · have hl : lit.length ≤ t.length + 1 := by simpa using h.length_le
      have hp := (parse_literal_loop_iff lit (c :: t)).2 h
      simp [h, hp, hl]
    · have hp : parse_literal_loop (c :: t) lit = false := by
        cases hq : parse_literal_loop (c :: t) lit with
        | false => rfl
        | true => exact absurd ((parse_literal_loop_iff lit (c :: t)).1 hq) h
      simp [h, hp]

/-- C21. The emitted matcher `$parse_negate_literal` returns a node exactly when the input
is not at its end and does not begin with the literal. A node it returns is a Literal
node whose text is the first character of the input, and the cursor is then behind that
one character; when it returns no node the cursor is the one it was given. The call
`generate_rule` emits for a Literal item with `negate` set is this matcher with the
literal of the item up to its first NUL character, which is where the C++ string literal
of the call ends. -/
theorem negate_literal_matcher (s lit : Str) :
    ((emitted_parse_negate_literal s lit).1.isSome = true ↔ s ≠ [] ∧ ¬ lit <+: s) ∧
    (∀ p, (emitted_parse_negate_literal s lit).1 = some p →
      ∃ c, p = .mk .Literal [] [c] [] ∧ s = c :: (emitted_parse_negate_literal s lit).2) ∧
    ((emitted_parse_negate_literal s lit).1 = none → (emitted_parse_negate_literal s lit).2 = s) ∧
    (∀ rules call (it : RuleItem), it.type = .Literal → it.negate = true →
      emitted_call rules call it s =
        some (emitted_parse_negate_literal s (it.literal.takeWhile fun c => c != '\x00'))) := by
  refine ⟨?_, ?_, ?_, ?_⟩
  · rw [emitted_parse_negate_literal_eq]
    cases s with
    | nil => simp
    | cons c t => by_cases h : lit <+: c :: t <;> simp [h]
  · intro p hp
    rw [emitted_parse_negate_literal_eq] at hp ⊢
    cases s with
    | nil => simp at hp
    | cons c t =>
      by_cases h : lit <+: c :: t
      · simp [h] at hp
      · simp only [h, if_false, Option.some.injEq] at hp ⊢
        exact ⟨c, hp.symm, rfl⟩
  · intro hn
    rw [emitted_parse_negate_literal_eq] at hn ⊢
    cases s with
    | nil => rfl
    | cons c t =>
      by_cases h : lit <+: c :: t
      · simp [h]
      · simp [h] at hn
  · intro rules call it ht hneg
    simp [emitted_call, c_string, ht, hneg]

/-- C21 on the text `xy`: with the literal `ab` the matcher takes `x`, with the literal
`x` it fails and leaves the cursor. A negated Literal item whose literal is `x`, NUL, `z`
is matched by it with the literal `x`, and so fails on `xy`. -/
theorem negate_literal_matcher_witness :
    emitted_parse_negate_literal ['x', 'y'] ['a', 'b'] =
      (some (.mk .Literal [] ['x'] []), ['y']) ∧
    (∃ c, Parsed.mk .Literal [] ['x'] [] = .mk .Literal [] [c] [] ∧
      ['x', 'y'] = c :: (emitted_parse_negate_literal ['x', 'y'] ['a', 'b']).2) ∧
    (emitted_parse_negate_literal ['x', 'y'] ['x']).2 = ['x', 'y'] ∧
    emitted_call [] (fun _ _ _ _ => none) (RuleItem.of_literal ['x', '\x00', 'z']).set_negate
      ['x', 'y'] = some (none, ['x', 'y']) :=
  ⟨by rfl,
    (negate_literal_matcher ['x', 'y'] ['a', 'b']).2.1 _ (by rfl),
    (negate_literal_matcher ['x', 'y'] ['x']).2.2.1 (by rfl),
    ((negate_literal_matcher ['x', 'y'] []).2.2.2 [] (fun _ _ _ _ => none)
      (RuleItem.of_literal ['x', '\x00', 'z']).set_negate (by rfl) (by rfl)).trans (by rfl)⟩

/-! ## The lists of the generator: groups in pre-order, tags and names in parallel -/

theorem group_at_cons_group_zero (v : RuleItem) (seq : List RuleItem) (ks : List Nat)
    (hv : v.type = .Group) :
    group_at (v :: seq) (0 :: ks) =
      if ks.isEmpty then some v.group else group_at v.group.seq ks := by
  simp [group_at, direct_groups, hv]

theorem group_at_cons_group_succ (v : RuleItem) (seq : List RuleItem) (k : Nat)
    (ks : List Nat) (hv : v.type = .Group) :
    group_at (v :: seq) ((k + 1) :: ks) = group_at seq (k :: ks) := by
  simp [group_at, direct_groups, hv]

theorem group_at_cons_other (v : RuleItem) (seq : List RuleItem) (p : List Nat)
    (hv : v.type ≠ .Group) : group_at (v :: seq) p = group_at seq p := by
  cases p <;> simp [group_at, direct_groups, hv]

theorem group_paths_item_head (v : RuleItem) (p : List Nat) (h : p ∈ group_paths_item v) :
    ∃ ks, p = 0 :: ks := by
  obtain ⟨t, l, i, ⟨name, gseq⟩, o, m, n⟩ := v
  simp only [group_paths_item] at h
  split_ifs at h
  · simp only [List.mem_cons, List.mem_map] at h
    rcases h with rfl | ⟨q, _, rfl⟩
    · exact ⟨[], rfl⟩
    · exact ⟨q, rfl⟩
  · simp at h

theorem group_paths_ne_nil (seq : List RuleItem) : ∀ p ∈ group_paths seq, p ≠ [] := by
  induction seq with
  | nil => intro p h; simp [group_paths] at h
  | cons v seq ih =>
    intro p h
    simp only [group_paths, List.mem_append] at h
    rcases h with h | h
    · obtain ⟨ks, rfl⟩ := group_paths_item_head v p h
      simp
    · split_ifs at h
      · simp only [List.mem_map] at h
        obtain ⟨q, hq, rfl⟩ := h
        have := ih q hq
        cases q with
        | nil => exact absurd rfl this
        | cons k ks => simp [bump]
      · exact ih p h

theorem group_at_bump (v : RuleItem) (seq : List RuleItem) (p : List Nat) (hp : p ≠ [])
    (hv : v.type = .Group) : group_at (v :: seq) (bump p) = group_at seq p := by
  cases p with
  | nil => exact absurd rfl hp
  | cons k ks => exact group_at_cons_group_succ v seq k ks hv

mutual
/-- The groups `collect_groups` lists are, in its order, the groups at the chains of
`group_paths`. -/
theorem group_paths_map : ∀ seq : List RuleItem,
    (group_paths seq).map (group_at seq) = (collect_groups seq).map some
  | [] => rfl
  | v :: seq => by
    have ih := group_paths_map seq
    have ihv := group_paths_item_map v seq
    simp only [group_paths, collect_groups, List.map_append, ihv]
    congr 1
    by_cases hv : v.type = .Group
    · rw [if_pos hv, List.map_map, ← ih]
      apply List.map_congr_left
      intro p hp
      exact group_at_bump v seq p (group_paths_ne_nil seq p hp) hv
    · rw [if_neg hv, ← ih]
      apply List.map_congr_left
      intro p _
      exact group_at_cons_other v seq p hv
theorem group_paths_item_map : ∀ (v : RuleItem) (rest : List RuleItem),
    (group_paths_item v).map (group_at (v :: rest)) = (collect_groups_item v).map some
  | .mk t l i (.mk name gseq) o m n, rest => by
    have ih := group_paths_map gseq
    simp only [group_paths_item, collect_groups_item]
    split_ifs with ht
    · subst ht
      simp only [List.map_cons, List.map_map, ← ih]
      congr 1
      · rw [group_at_cons_group_zero _ _ _ (by rfl)]
        rfl
      · apply List.map_congr_left
        intro p hp
        have hne := group_paths_ne_nil gseq p hp
        simp only [Function.comp]
        rw [group_at_cons_group_zero _ _ _ (by rfl)]
        cases p with
        | nil => exact absurd rfl hne
        | cons k ks => rfl
    · rfl
end

theorem path_before_bump (p q : List Nat) (hp : p ≠ []) (hq : q ≠ []) :
    path_before (bump p) (bump q) = path_before p q := by
  cases p with
  | nil => exact absurd rfl hp
  | cons a p =>
    cases q with
    | nil => exact absurd rfl hq
    | cons b q => simp [bump, path_before]

mutual
/-- The chains of `group_paths` stand in pre-order. -/
theorem group_paths_pairwise : ∀ seq : List RuleItem,
    (group_paths seq).Pairwise fun p q => path_before p q = true
  | [] => List.Pairwise.nil
  | v :: seq => by
    have ih := group_paths_pairwise seq
    have ihv := group_paths_item_pairwise v
    simp only [group_paths]
    rw [List.pairwise_append]
    refine ⟨ihv, ?_, ?_⟩
    · split_ifs
      · rw [List.pairwise_map]
        refine ih.imp_of_mem ?_
        intro p q hp hq h
        rw [path_before_bump p q (group_paths_ne_nil seq p hp) (group_paths_ne_nil seq q hq)]
        exact h
      · exact ih
    · intro a ha b hb
      obtain ⟨x, rfl⟩ := group_paths_item_head v a ha
      have hv : v.type = .Group := by
        obtain ⟨t, l, i, ⟨name, gseq⟩, o, m, n⟩ := v
        by_contra hne
        simp only [RuleItem.type] at hne
        simp [group_paths_item, hne] at ha
      rw [if_pos hv, List.mem_map] at hb
      obtain ⟨q, hq, rfl⟩ := hb
      have := group_paths_ne_nil seq q hq
      cases q with
      | nil => exact absurd rfl this
      | cons k ks => simp [bump, path_before]
theorem group_paths_item_pairwise : ∀ v : RuleItem,
    (group_paths_item v).Pairwise fun p q => path_before p q = true
  | .mk t l i (.mk name gseq) o m n => by
    have ih := group_paths_pairwise gseq
    simp only [group_paths_item]
    split_ifs
    · rw [List.pairwise_cons]
      constructor
      · intro q hq
        simp only [List.mem_map] at hq
        obtain ⟨x, hx, rfl⟩ := hq
        have := group_paths_ne_nil gseq x hx
        cases x with
        | nil => exact absurd rfl this
        | cons k ks => simp [path_before]
      · rw [List.pairwise_map]
        refine ih.imp ?_
        intro p q h
        simpa [path_before] using h
    · exact List.Pairwise.nil
end

mutual
/-- Every chain that reaches a group is one of `group_paths`. -/
theorem group_paths_complete : ∀ (seq : List RuleItem) (p : List Nat),
    (group_at seq p).isSome = true → p ∈ group_paths seq
  | [], p, h => by
    cases p <;> simp [group_at, direct_groups] at h
  | v :: seq, p, h => by
    simp only [group_paths, List.mem_append]
    by_cases hv : v.type = .Group
    · cases p with
      | nil => simp [group_at] at h
      | cons k ks =>
        cases k with
        | zero => exact Or.inl (group_paths_item_complete v seq ks hv h)
        | succ k =>
          rw [group_at_cons_group_succ v seq k ks hv] at h
          right
          rw [if_pos hv, List.mem_map]
          exact ⟨k :: ks, group_paths_complete seq _ h, rfl⟩
    · rw [group_at_cons_other v seq p hv] at h
      right
      rw [if_neg hv]
      exact group_paths_complete seq p h
theorem group_paths_item_complete : ∀ (v : RuleItem) (rest : List RuleItem) (ks : List Nat),
    v.type = .Group → (group_at (v :: rest) (0 :: ks)).isSome = true →
      (0 :: ks) ∈ group_paths_item v
  | .mk t l i (.mk name gseq) o m n, rest, ks, hv, h => by
    simp only [RuleItem.type] at hv
    subst hv
    rw [group_at_cons_group_zero _ _ _ (by rfl)] at h
    simp only [RuleItem.group, RuleItemGroup.seq] at h
    simp only [group_paths_item, if_true, List.mem_cons, List.cons.injEq, true_and,
      List.mem_map]
    cases ks with
    | nil => exact Or.inl rfl
    | cons k ks =>
      right
      simp only [List.isEmpty_cons, Bool.false_eq_true, if_false] at h
      exact ⟨k :: ks, group_paths_complete gseq _ h, rfl⟩
end

/-- The chains of `group_paths` are the chains that reach a group. -/
theorem group_paths_mem (seq : List RuleItem) (p : List Nat) :
    p ∈ group_paths seq ↔ (group_at seq p).isSome = true := by
  refine ⟨fun h => ?_, group_paths_complete seq p⟩
  have hm : group_at seq p ∈ (group_paths seq).map (group_at seq) := List.mem_map_of_mem _ h
  rw [group_paths_map, List.mem_map] at hm
  obtain ⟨g, _, hg⟩ := hm
  rw [← hg]
  rfl

theorem entries_append (a b : List Str) : entries (a ++ b) = entries a ++ entries b := by
  simp [entries, List.filterMap_append]

theorem dropLast_two (x : Str) (a b : Char) : (x ++ [a, b]).dropLast.dropLast = x := by
  have h : x ++ [a, b] = (x ++ [a]) ++ [b] := by simp
  rw [h, List.dropLast_concat, List.dropLast_concat]

theorem entries_enum_lines (names : List Str) :
    entries (names.map enum_line) = names.map fun name => "$i_".toList ++ name := by
  induction names with
  | nil => rfl
  | cons x xs ih =>
    have hx : entries [enum_line x] = ["$i_".toList ++ x] := by
      have h : enum_line x = '\t' :: (("$i_".toList ++ x) ++ [',', '\n']) := by
        simp [enum_line]
      simp only [entries, List.filterMap_cons, h, dropLast_two, List.filterMap_nil]
    rw [List.map_cons, List.map_cons, ← List.singleton_append, entries_append, hx, ih]
    rfl

theorem entries_table_lines (names : List Str) :
    entries (names.map table_line) = names.map fun name => ['"'] ++ name ++ ['"'] := by
  induction names with
  | nil => rfl
  | cons x xs ih =>
    have hx : entries [table_line x] = [['"'] ++ x ++ ['"']] := by
      have h : table_line x = '\t' :: ((['"'] ++ x ++ ['"']) ++ [',', '\n']) := by
        simp [table_line]
      simp only [entries, List.filterMap_cons, h, dropLast_two, List.filterMap_nil]
    rw [List.map_cons, List.map_cons, ← List.singleton_append, entries_append, hx, ih]
    rfl

theorem entries_enum_map {α : Type} (f : α → Str) (l : List α) :
    entries (l.map fun x => enum_line (f x)) = l.map fun x => "$i_".toList ++ f x := by
  have := entries_enum_lines (l.map f)
  simpa [List.map_map, Function.comp] using this

theorem entries_table_map {α : Type} (f : α → Str) (l : List α) :
    entries (l.map fun x => table_line (f x)) = l.map fun x => ['"'] ++ f x ++ ['"'] := by
  have := entries_table_lines (l.map f)
  simpa [List.map_map, Function.comp] using this

theorem declaration_ne_blank (name : Str) : (declaration name != ['\n']) = true := by
  simp [declaration]

theorem filter_declarations (names : List Str) :
    (names.map declaration).filter (fun l => l != ['\n']) = names.map declaration := by
  rw [List.filter_eq_self]
  intro l hl
  obtain ⟨x, _, rfl⟩ := List.mem_map.1 hl
  exact declaration_ne_blank x

theorem path_before_irrefl (p : List Nat) : path_before p p = false := by
  induction p with
  | nil => rfl
  | cons a p ih => simp [path_before, ih]

theorem collect_all_groups_eq (rules : List Rule) :
    collect_all_groups rules = (rules.map fun rule => collect_groups rule.seq).flatten := by
  induction rules with
  | nil => rfl
  | cons r rules ih => simp [collect_all_groups, ih]

/-! ## The text of the emitted functions: one head for every call of `generate_rule` -/

theorem head_ne_function_head (l : Str) (h : l.head? ≠ some 's') :
    is_function_head l = false := by
  cases l with
  | nil => rfl
  | cons c l =>
    have hc : c ≠ 's' := by simpa using h
    have hp : "std::optional<$Parsed> $parse_".toList =
        's' :: "td::optional<$Parsed> $parse_".toList := by rfl
    simp only [is_function_head, hp, List.isPrefixOf]
    simp [Ne.symm hc]

theorem tabs_head (level : Nat) (a : Str) : (tabs level ++ '\t' :: a).head? = some '\t' := by
  cases level <;> simp [tabs, List.replicate]

theorem tabs_piece (level : Nat) (r : Str) :
    is_function_head (tabs level ++ '\t' :: r) = false := by
  apply head_ne_function_head
  rw [tabs_head]
  simp

theorem blank_piece : is_function_head ['\n'] = false := by rfl

theorem item_pieces_filter (level : Nat) (it : RuleItem) :
    (item_pieces level it).filter is_function_head = [] := by
  rw [List.filter_eq_nil_iff]
  intro l hl
  simp only [item_pieces, List.mem_append, List.mem_cons, List.mem_singleton,
    List.not_mem_nil, or_false] at hl
  rcases hl with (((rfl | rfl | rfl | rfl) | hl) | hl)
  · simp [blank_piece]
  · simp [tabs_piece]
  · simp [tabs_piece]
  · simp [tabs_piece]
  · split_ifs at hl
    · simp only [List.mem_cons, List.mem_singleton, List.not_mem_nil, or_false] at hl
      rcases hl with rfl | rfl | rfl | rfl | rfl | rfl
      · simp [blank_piece]
      · simp [tabs_piece]
      · simp [tabs_piece]
      · simp [tabs_piece]
      · simp [tabs_piece]
      · simp [blank_piece]
    · simp at hl
  · split_ifs at hl
    · simp only [List.mem_singleton] at hl
      subst hl
      simp [tabs_piece]
    · simp at hl

theorem closing_pieces_filter (level : Nat) :
    (closing_pieces level).filter is_function_head = [] := by
  induction level with
  | zero => rfl
  | succ n ih =>
    rw [closing_pieces, List.filter_cons, ih]
    simp [tabs_piece]

theorem commit_pieces_filter (level : Nat) :
    (commit_pieces level).filter is_function_head = [] := by
  simp only [commit_pieces, List.filter_append, closing_pieces_filter]
  simp [tabs_piece, blank_piece, List.filter_cons]
  rfl

theorem block_pieces_filter : block_pieces.filter is_function_head = [] := by rfl

theorem generate_blocks_filter : ∀ (seq : List RuleItem) (level : Nat),
    (generate_blocks level seq).filter is_function_head = []
  | [], level => by rw [generate_blocks, commit_pieces_filter]
  | it :: rest, level => by
    rw [generate_blocks]
    split_ifs
    · simp [List.filter_append, commit_pieces_filter]
    · simp [List.filter_append, commit_pieces_filter, block_pieces_filter,
        generate_blocks_filter rest]
    · simp [List.filter_append, item_pieces_filter, generate_blocks_filter rest]
    · simp [List.filter_append, item_pieces_filter, generate_blocks_filter rest]

/-- The text of one emitted function has one head, that of `$parse_<name>`. -/
theorem generate_rule_filter (seq : List RuleItem) (name ptype : Str) (function : List Str)
    (h : generate_rule seq name ptype = some function) :
    function.filter is_function_head =
      ["std::optional<$Parsed> $parse_".toList ++ name ++
        "(const char *&s, const char *e)\n".toList] := by
  simp only [generate_rule] at h
  cases hd : dump_seq seq with
  | none => simp [hd] at h
  | some rule =>
    simp only [hd, Option.some.injEq] at h
    have hhead : is_function_head ("std::optional<$Parsed> $parse_".toList ++ name ++
        "(const char *&s, const char *e)\n".toList) = true := by
      rw [is_function_head, List.append_assoc, List.isPrefixOf_iff_prefix]
      exact List.prefix_append _ _
    have h1 : is_function_head ("// Rule: ".toList ++ rule ++ "\n".toList) = false :=
      head_ne_function_head _ (by simp)
    have h2 : is_function_head "[[nodiscard]]\n".toList = false := by rfl
    have h3 : is_function_head "\x7b\n".toList = false := by rfl
    have h4 : is_function_head "\t$Parsed result;\n".toList = false := by rfl
    have h5 : is_function_head ("\tresult.type = $ParsedType::".toList ++ ptype ++
        ";\n".toList) = false := head_ne_function_head _ (by simp)
    have h6 : is_function_head ("\tresult.identifier = $IdentifierType::$i_".toList ++ name ++
        ";\n".toList) = false := head_ne_function_head _ (by simp)
    have h7 : is_function_head "\n".toList = false := by rfl
    have h8 : is_function_head "\treturn std::nullopt;\n".toList = false := by rfl
    have h9 : is_function_head "\x7d\n".toList = false := by rfl
    have hb : (if seq.isEmpty then [] else block_pieces ++ generate_blocks 0 seq).filter
        is_function_head = [] := by
      split_ifs
      · rfl
      · rw [List.filter_append, block_pieces_filter, generate_blocks_filter]
        rfl
    rw [← h]
    simp only [List.filter_append, List.filter_cons, List.filter_nil, hhead, h1, h2, h3, h4,
      h5, h6, h7, h8, h9, hb]
    simp

theorem generate_rules_filter (ptype : Str) : ∀ (l : List (List RuleItem × Str))
    (pieces : List Str), generate_rules ptype l = some pieces →
      pieces.filter is_function_head = l.map fun x =>
        "std::optional<$Parsed> $parse_".toList ++ x.2 ++
          "(const char *&s, const char *e)\n".toList
  | [], pieces, h => by
    simp only [generate_rules, Option.some.injEq] at h
    rw [← h]
    rfl
  | (seq, name) :: rest, pieces, h => by
    simp only [generate_rules] at h
    cases hf : generate_rule seq name ptype with
    | none => simp [hf] at h
    | some function =>
      cases hr : generate_rules ptype rest with
      | none => simp [hf, hr] at h
      | some result =>
        simp only [hf, hr, Option.some.injEq] at h
        rw [← h, List.filter_append, List.filter_append, generate_rule_filter _ _ _ _ hf,
          generate_rules_filter ptype rest result hr]
        rfl

theorem generate_code_functions (rules : List Rule) :
    (generate_code rules).functions =
      match generate_rules "Identifier".toList (rules.map fun rule => (rule.seq, rule.name)) with
      | none => none
      | some functions =>
        match generate_rules "Group".toList
            ((collect_all_groups rules).map fun group => (group.seq, group.name)) with
        | none => none
        | some result => some (functions ++ ["\n".toList] ++ result) := rfl

/-- C22. Identifier tags and name table are parallel and complete. The entries of the enum
that `generate_code` emits are `None` and then `$i_` + name for every name of one list;
the entries of the name table are the empty string and then the quoted names of the same
list in the same order. The forward declarations are, in this order, the declaration of
`$parse_<name>` for every name of that list and nothing else but blank lines, and the
text of the parsing functions, where `generate_rule` has a result for all of them, holds
the head of a function definition `$parse_<name>` once for every name of the list, in
this order. The list holds the rule names in the order of the rule list, then the names
of the groups that `collect_groups` lists rule by rule. For every sequence
`collect_groups` lists the groups in pre-order, every group at any depth once: there is a
list of chains of positions, strictly in pre-order and therefore without repetition, that
holds exactly the chains at which the sequence has a group, and the groups at these
chains are, in this order, the list of `collect_groups`. -/
theorem tags_and_names_parallel (rules : List Rule) :
    entries (generate_code rules).identifier_type =
      "None".toList :: (generated_names rules).map (fun name => "$i_".toList ++ name) ∧
    entries (generate_code rules).table =
      "\"\"".toList :: (generated_names rules).map (fun name => ['"'] ++ name ++ ['"']) ∧
    (generate_code rules).declarations.filter (fun l => l != ['\n']) =
      (generated_names rules).map (fun name =>
        "[[nodiscard]] std::optional<$Parsed> $parse_".toList ++ name ++
          "(const char *&s, const char *e);\n".toList) ∧
    (∀ pieces : List Str, (generate_code rules).functions = some pieces →
      pieces.filter is_function_head =
        (generated_names rules).map (fun name =>
          "std::optional<$Parsed> $parse_".toList ++ name ++
            "(const char *&s, const char *e)\n".toList)) ∧
    generated_names rules =
      rules.map (fun rule => rule.name) ++
        ((rules.map fun rule => collect_groups rule.seq).flatten.map fun group => group.name) ∧
    ∀ seq : List RuleItem, ∃ paths : List (List Nat),
      paths.Pairwise (fun p q => path_before p q = true) ∧ paths.Nodup ∧
      (∀ p, p ∈ paths ↔ (group_at seq p).isSome = true) ∧
      paths.map (group_at seq) = (collect_groups seq).map some := by
  refine ⟨?_, ?_, ?_, ?_, ?_, ?_⟩
  · have e1 : entries ["enum class $IdentifierType\n".toList, "\x7b\n".toList,
        "\tNone,\n".toList] = ["None".toList] := by rfl
    have e2 : entries ["\n".toList] = [] := by rfl
    have e3 : entries ["\x7d;\n".toList, "\n".toList] = [] := by rfl
    simp only [generate_code, entries_append, entries_enum_map, generated_names,
      List.map_append, List.map_map, e1, e2, e3]
    simp only [List.append_nil, List.singleton_append, List.append_assoc]
    rfl
  · have e1 : entries ["const std::string table_$IdentifierType[]\n".toList, "\x7b\n".toList,
        "\t\"\",\n".toList] = ["\"\"".toList] := by rfl
    have e2 : entries ["\n".toList] = [] := by rfl
    have e3 : entries ["\x7d;\n".toList, "\n".toList] = [] := by rfl
    simp only [generate_code, entries_append, entries_table_map, generated_names,
      List.map_append, List.map_map, e1, e2, e3]
    simp only [List.append_nil, List.singleton_append, List.append_assoc]
    rfl
  · have h1 := filter_declarations (rules.map fun rule => rule.name)
    have h2 := filter_declarations ((collect_all_groups rules).map fun group => group.name)
    have e : List.filter (fun l => l != ['\n']) ["\n".toList] = [] := by rfl
    simp only [List.map_map, Function.comp] at h1 h2
    simp only [generate_code, generated_names, List.filter_append, List.map_append,
      List.map_map, e, List.nil_append, List.append_nil]
    exact congrArg₂ (fun a b => a ++ b) h1 h2
  · intro pieces h
    rw [generate_code_functions] at h
    have hn : List.filter is_function_head ["\n".toList] = [] := by rfl
    cases h1 : generate_rules "Identifier".toList (rules.map fun rule => (rule.seq, rule.name)) with
    | none =>
      rw [h1] at h
      exact absurd h (by simp)
    | some functions =>
      cases h2 : generate_rules "Group".toList
          ((collect_all_groups rules).map fun group => (group.seq, group.name)) with
      | none =>
        rw [h1, h2] at h
        exact absurd h (by simp)
      | some result =>
        rw [h1, h2] at h
        simp only [Option.some.injEq] at h
        rw [← h, List.filter_append, List.filter_append, generate_rules_filter _ _ _ h1,
          generate_rules_filter _ _ _ h2, hn, generated_names, List.map_append, List.map_map,
          List.map_map, List.map_map, List.map_map, List.append_nil]
        rfl
  · rw [generated_names, collect_all_groups_eq]
  · intro seq
    refine ⟨group_paths seq, group_paths_pairwise seq, ?_, group_paths_mem seq,
      group_paths_map seq⟩
    refine (group_paths_pairwise seq).imp ?_
    intro p q h e
    subst e
    rw [path_before_irrefl] at h
    exact absurd h (by decide)

/-- C22 on the grammar `r: (a)`: the rule `r` and the group `r_$g0` have a declaration
each, `generate_rule` has a result for both, and the text holds the heads of `$parse_r`
and `$parse_r_$g0`. -/
theorem tags_and_names_parallel_witness :
    (generate_code [⟨['r'], [.of_group (.mk "r_$g0".toList [.of_identifier ['a']])]⟩]).declarations
      = ["\n".toList,
        "[[nodiscard]] std::optional<$Parsed> $parse_r(const char *&s, const char *e);\n".toList,
        "\n".toList,
        "[[nodiscard]] std::optional<$Parsed> $parse_r_$g0(const char *&s, const char *e);\n".toList,
        "\n".toList] ∧
    ((generate_code
        [⟨['r'], [.of_group (.mk "r_$g0".toList [.of_identifier ['a']])]⟩]).functions.getD []).filter
      is_function_head =
      ["std::optional<$Parsed> $parse_r(const char *&s, const char *e)\n".toList,
        "std::optional<$Parsed> $parse_r_$g0(const char *&s, const char *e)\n".toList] :=
  ⟨by rfl,
    (tags_and_names_parallel
      [⟨['r'], [.of_group (.mk "r_$g0".toList [.of_identifier ['a']])]⟩]).2.2.2.1 _ (by rfl)⟩

/-! ## The dumper where it has a result -/

theorem strip_back_of_ne_nil (r : Str) (h : r ≠ []) : strip_back r = some (cut_blank r) := by
  obtain ⟨c, hc⟩ : ∃ c, r.getLast? = some c := by
    cases hr : r.getLast? with
    | none => exact absurd (List.getLast?_eq_none_iff.1 hr) h
    | some c => exact ⟨c, rfl⟩
  by_cases hb : c = ' '
  · simp [strip_back, cut_blank, hc, hb]
  · simp [strip_back, cut_blank, hc, hb]

theorem strip_back_some (r t : Str) (h : strip_back r = some t) : r ≠ [] ∧ t = cut_blank r := by
  have hr : r ≠ [] := by
    rintro rfl
    simp [strip_back] at h
  rw [strip_back_of_ne_nil r hr] at h
  exact ⟨hr, (Option.some.inj h).symm⟩

mutual
/-- A result of the loop of `dump` is the text of the sequence. -/
theorem dump_seq_loop_text : ∀ (seq : List RuleItem) (r : Str),
    dump_seq_loop seq = some r → r = text_seq_loop seq
  | [], r, h => by
    simp only [dump_seq_loop, Option.some.injEq] at h
    rw [← h, text_seq_loop]
  | v :: seq, r, h => by
    simp only [dump_seq_loop] at h
    cases hv : dump_item v with
    | none => simp [hv] at h
    | some item =>
      cases hs : dump_seq_loop seq with
      | none => simp [hv, hs] at h
      | some result =>
        simp only [hv, hs, Option.some.injEq] at h
        rw [← h, text_seq_loop, dump_item_text v item hv, dump_seq_loop_text seq result hs]
/-- A result of `dump` for an item is the text of the item. -/
theorem dump_item_text : ∀ (v : RuleItem) (t : Str), dump_item v = some t → t = text_item v
  | .mk ty l i (.mk name gseq) o m n, t, h => by
    cases ty <;> simp only [dump_item, Option.some.injEq] at h <;>
      try (rw [← h]; rfl)
    cases hs : dump_seq_loop gseq with
    | none => simp [hs] at h
    | some result =>
      cases hb : strip_back result with
      | none => simp [hs, hb] at h
      | some inner =>
        simp only [hs, hb, Option.some.injEq] at h
        rw [← h, text_item, ← dump_seq_loop_text gseq result hs, (strip_back_some _ _ hb).2]
end

theorem dump_seq_text (seq : List RuleItem) (t : Str) (h : dump_seq seq = some t) :
    t = text_seq seq := by
  simp only [dump_seq] at h
  cases hs : dump_seq_loop seq with
  | none => simp [hs] at h
  | some result =>
    simp only [hs] at h
    rw [text_seq, ← dump_seq_loop_text seq result hs, (strip_back_some _ _ h).2]

theorem dump_rule_text (rule : Rule) (t : Str) (h : dump_rule rule = some t) :
    t = text_rule rule := by
  simp only [dump_rule] at h
  cases hs : dump_seq rule.seq with
  | none => simp [hs] at h
  | some seq =>
    simp only [hs, Option.some.injEq] at h
    rw [← h, text_rule, dump_seq_text _ _ hs]

theorem dump_text : ∀ (rules : List Rule) (t : Str), dump rules = some t → t = text_rules rules
  | [], t, h => by
    simp only [dump, Option.some.injEq] at h
    rw [← h, text_rules]
  | v :: rules, t, h => by
    simp only [dump] at h
    cases hv : dump_rule v with
    | none => simp [hv] at h
    | some rule =>
      cases hs : dump rules with
      | none => simp [hv, hs] at h
      | some result =>
        simp only [hv, hs, Option.some.injEq] at h
        rw [← h, text_rules, dump_rule_text v rule hv, dump_text rules result hs]

/-- Dump round trip where `dump` has a result: for every grammar text that `parse` accepts
and that uses only literals, identifiers, groups and quantifiers, the text `dump` returns
for the rule list parses to the same rule list. -/
theorem parse_dump (g : Str) (rules : List Rule) (text : Str) (h : parse g = .ok rules)
    (hp : uses_plain rules = true) (hd : dump rules = some text) : parse text = .ok rules := by
  rw [dump_text rules text hd]
  exact parse_text_rules g rules h hp

/-- C9, the code at the failing input. The grammar `r: ()` uses only a group and is
accepted by `parse`, which returns the rule `r` with one Group item whose sequence is
empty. `dump` of an empty sequence has no result, because it reads the last character of
an empty text, and so `dump` of that group, of the rule and of the rule list have none:
there is no text to parse back. For the grammar `r: (a)*` the dump is `r: (a)*` with a
blank line behind it, and it parses to the same rule list. -/
theorem dump_of_empty_group_undefined :
    parse "r: ()".toList = .ok [⟨['r'], [.of_group (.mk "r_$g0".toList [])]⟩] ∧
    uses_plain [⟨['r'], [.of_group (.mk "r_$g0".toList [])]⟩] = true ∧
    dump_seq [] = none ∧
    dump_item (.of_group (.mk "r_$g0".toList [])) = none ∧
    dump [⟨['r'], [.of_group (.mk "r_$g0".toList [])]⟩] = none ∧
    dump [⟨['r'], [.mk .Group [] [] (.mk "r_$g0".toList [.of_identifier ['a']])
      true true false]⟩] = some "r: (a)*\n\n".toList ∧
    parse "r: (a)*\n\n".toList = .ok [⟨['r'],
      [.mk .Group [] [] (.mk "r_$g0".toList [.of_identifier ['a']]) true true false]⟩] :=
  ⟨by rfl, by rfl, by rfl, by rfl, by rfl, by rfl, by rfl⟩

theorem dump_seq_loop_items : ∀ (seq : List RuleItem) (r : Str), dump_seq_loop seq = some r →
    ∀ v ∈ seq, dump_item v = some (text_item v)
  | [], _, _, v, hv => by simp at hv
  | x :: seq, r, h, v, hv => by
    simp only [dump_seq_loop] at h
    cases hx : dump_item x with
    | none => simp [hx] at h
    | some item =>
      cases hs : dump_seq_loop seq with
      | none => simp [hx, hs] at h
      | some result =>
        rcases List.mem_cons.1 hv with rfl | hv
        · rw [hx, dump_item_text _ item hx]
        · exact dump_seq_loop_items seq result hs v hv

theorem dump_seq_loop_of_items : ∀ seq : List RuleItem,
    (∀ v ∈ seq, dump_item v = some (text_item v)) → dump_seq_loop seq = some (text_seq_loop seq)
  | [], _ => rfl
  | x :: seq, h => by
    have hx := h x (List.mem_cons_self x seq)
    have hs := dump_seq_loop_of_items seq fun v hv => h v (List.mem_cons_of_mem x hv)
    simp only [dump_seq_loop, hx, hs, text_seq_loop]

theorem forall₂_dump_item (seq : List RuleItem) (items : List Str)
    (h : List.Forall₂ (fun v t => dump_item v = some t) seq items) :
    items = seq.map text_item ∧ ∀ v ∈ seq, dump_item v = some (text_item v) := by
  induction h with
  | nil => exact ⟨rfl, fun v hv => by simp at hv⟩
  | cons hx _ ih =>
    obtain ⟨he, ha⟩ := ih
    have := dump_item_text _ _ hx
    subst this
    refine ⟨by rw [he]; rfl, ?_⟩
    intro v hv
    rcases List.mem_cons.1 hv with rfl | hv
    · exact hx
    · exact ha v hv

theorem forall₂_map_text_item : ∀ seq : List RuleItem,
    (∀ v ∈ seq, dump_item v = some (text_item v)) →
      List.Forall₂ (fun v t => dump_item v = some t) seq (seq.map text_item)
  | [], _ => List.Forall₂.nil
  | x :: seq, h =>
    List.Forall₂.cons (h x (List.mem_cons_self x seq))
      (forall₂_map_text_item seq fun v hv => h v (List.mem_cons_of_mem x hv))

theorem zipWith_map_text_item (seq : List RuleItem) :
    List.zipWith (fun v t => t ++ dump_suffix v) seq (seq.map text_item) =
      seq.map fun v => text_item v ++ dump_suffix v := by
  induction seq with
  | nil => rfl
  | cons x seq ih => simp [ih]

theorem text_seq_loop_cons_ne_nil (v : RuleItem) (seq : List RuleItem) :
    text_seq_loop (v :: seq) ≠ [] := by
  simp [text_seq_loop]

/-- For a non-empty sequence `dump(seq)` has a result exactly when `dump` has one for every
item, and the result is the text of the sequence. -/
theorem dump_seq_iff (seq : List RuleItem) (hseq : seq ≠ []) (text : Str) :
    dump_seq seq = some text ↔
      (∀ v ∈ seq, dump_item v = some (text_item v)) ∧ text = text_seq seq := by
  constructor
  · intro h
    refine ⟨?_, dump_seq_text seq text h⟩
    simp only [dump_seq] at h
    cases hs : dump_seq_loop seq with
    | none => simp [hs] at h
    | some r => exact dump_seq_loop_items seq r hs
  · rintro ⟨h, rfl⟩
    cases seq with
    | nil => exact absurd rfl hseq
    | cons v seq =>
      simp only [dump_seq, dump_seq_loop_of_items _ h]
      rw [strip_back_of_ne_nil _ (text_seq_loop_cons_ne_nil v seq), text_seq]

/-- C16. Dumper rendering. For every non-empty item sequence `dump(seq)` has a result
exactly when `dump` has one for every item, and the result is the renderings of the
items, each directly followed by its quantifier suffix, joined by exactly one space, with
nothing behind the last one. A Literal is rendered as `"` + `escape_string(literal)` +
`"`, an Identifier as its name, a Group as `(` + `dump` of its sequence + `)`, with a
result exactly when `dump` of its sequence has one; the suffix is `*` for multiple and
optional, `+` for multiple only, `?` for optional only and nothing otherwise; and
`dump(rule)` is the name, `: ` and `dump(rule.seq)`. -/
theorem dump_rendering :
    (∀ seq : List RuleItem, seq ≠ [] → ∀ text : Str,
      (dump_seq seq = some text ↔
        ∃ items : List Str, List.Forall₂ (fun v t => dump_item v = some t) seq items ∧
          text = [' '].intercalate (List.zipWith (fun v t => t ++ dump_suffix v) seq items))) ∧
    (∀ v : RuleItem, v.type = .Literal →
      dump_item v = some (['"'] ++ escape_string v.literal ++ ['"'])) ∧
    (∀ v : RuleItem, v.type = .Identifier → dump_item v = some v.identifier) ∧
    (∀ v : RuleItem, v.type = .Group →
      dump_item v = (dump_seq v.group.seq).map fun inner => ['('] ++ inner ++ [')']) ∧
    (∀ v : RuleItem, dump_suffix v =
      if v.multiple = true ∧ v.optional = true then ['*']
      else if v.multiple = true then ['+']
      else if v.optional = true then ['?']
      else []) ∧
    (∀ rule : Rule,
      dump_rule rule = (dump_seq rule.seq).map fun seq => rule.name ++ [':', ' '] ++ seq) := by
  refine ⟨?_, ?_, ?_, ?_, ?_, ?_⟩
  · intro seq hseq text
    rw [dump_seq_iff seq hseq]
    constructor
    · rintro ⟨h, rfl⟩
      refine ⟨seq.map text_item, forall₂_map_text_item seq h, ?_⟩
      rw [zipWith_map_text_item, text_seq_intercalate seq hseq]
    · rintro ⟨items, hi, rfl⟩
      obtain ⟨rfl, h⟩ := forall₂_dump_item seq items hi
      refine ⟨h, ?_⟩
      rw [zipWith_map_text_item, text_seq_intercalate seq hseq]
  · intro v h
    obtain ⟨t, l, i, ⟨name, gseq⟩, o, m, n⟩ := v
    simp only [RuleItem.type] at h
    subst h
    simp [dump_item, RuleItem.literal]
  · intro v h
    obtain ⟨t, l, i, ⟨name, gseq⟩, o, m, n⟩ := v
    simp only [RuleItem.type] at h
    subst h
    simp [dump_item, RuleItem.identifier]
  · intro v h
    obtain ⟨t, l, i, ⟨name, gseq⟩, o, m, n⟩ := v
    simp only [RuleItem.type] at h
    subst h
    simp only [dump_item, dump_seq, RuleItem.group, RuleItemGroup.seq]
    cases dump_seq_loop gseq with
    | none => rfl
    | some result =>
      simp only []
      cases hb : strip_back result <;> simp
  · intro v
    obtain ⟨t, l, i, g, o, m, n⟩ := v
    cases o <;> cases m <;> simp [dump_suffix, RuleItem.optional, RuleItem.multiple]
  · intro rule
    simp only [dump_rule]
    cases dump_seq rule.seq <;> rfl

/-- The sequence `("a"* b)+ c? "d"`: its dump is `("a"* b)+ c? "d"`, made of the items
`("a"* b)`, `c` and `"d"` with their suffixes. -/
theorem dump_rendering_witness :
    dump_seq [.mk .Group [] [] (.mk "r_$g0".toList
          [.mk .Literal ['a'] [] (.mk [] []) true true false, .of_identifier ['b']])
          false true false,
        .mk .Identifier [] ['c'] (.mk [] []) true false false, .of_literal ['d']] =
      some "(\"a\"* b)+ c? \"d\"".toList ∧
    ∃ items : List Str,
      List.Forall₂ (fun v t => dump_item v = some t)
        [.mk .Group [] [] (.mk "r_$g0".toList
          [.mk .Literal ['a'] [] (.mk [] []) true true false, .of_identifier ['b']])
          false true false,
        .mk .Identifier [] ['c'] (.mk [] []) true false false, .of_literal ['d']] items ∧
      "(\"a\"* b)+ c? \"d\"".toList = [' '].intercalate (List.zipWith
        (fun v t => t ++ dump_suffix v)
        [.mk .Group [] [] (.mk "r_$g0".toList
          [.mk .Literal ['a'] [] (.mk [] []) true true false, .of_identifier ['b']])
          false true false,
        .mk .Identifier [] ['c'] (.mk [] []) true false false, .of_literal ['d']] items) :=
  ⟨by rfl, (dump_rendering.1 _ (by simp) _).1 (by rfl)⟩

end pgen
